import Mathlib

/-!
# flatbush: a packed Hilbert R-tree (`src/flatbush.h`)

A shallow embedding of `flatbush::FlatBush<TCoord>` and of the free functions
`Interleave` and `HilbertXYToIndex`, followed by theorems about them.

Modelling conventions.

* `size_t` values are natural numbers below `2 ^ 64`; every `size_t` addition
  and subtraction of the source is written `wadd` / `wsub` and wraps modulo
  `2 ^ 64`.  The length of a `std::vector` is the length of a list.
* `uint32_t` values are natural numbers below `2 ^ 32`; left shifts are reduced
  modulo `2 ^ 32`.
* A value of `TCoord` is a rational number or the not-a-number value `nan` of
  a floating-point type.  On numbers the comparisons and the arithmetic of the
  Hilbert normalisation are exact; every comparison with `nan` is false,
  `std::min (a, b)` is `b < a ? b : a`, `std::max (a, b)` is `a < b ? b : a`,
  and arithmetic on `nan` gives `nan`.  Infinities and rounding are not
  modelled.  `numeric_limits<TCoord>::max()` and `lowest()` are the two
  constants `coordMax` and `coordLowest` (the values of `float`, the
  instantiation used by `src/test.cpp`).  No theorem below depends on their
  values.
* The conversion `uint32_t(v)` of `Finish` is undefined in C++ for `nan`; the
  model gives 0 there.  The call sequences considered below pass numbers to
  `Add` (the type `Rect`), so that `Finish` never converts `nan`; the arguments
  of `Search` are arbitrary values of `TCoord` (the type `Query`).
* A `std::vector` is a list; `v[i]` outside the vector is the outcome
  `Res.fault`.  The work vector `queue` of `Search` is kept with its back at the
  head of the list.
* Loops and the recursion of `Sort` consume fuel; running out of fuel is the
  outcome `Res.outOfFuel`.  The two innermost `for` loops, whose trip count is
  known on entry, recurse on that count.
-/

namespace flatbush

/-! ## Machine arithmetic and outcomes -/

/-- The modulus of `size_t` arithmetic, `2 ^ 64`. -/
def sizeMod : Nat := 18446744073709551616

/-- The modulus of `uint32_t` arithmetic, `2 ^ 32`. -/
def u32Mod : Nat := 4294967296

/-- Addition of two `size_t` values. -/
@[irreducible] def wadd (a b : Nat) : Nat := (a + b) % sizeMod

/-- Subtraction of two `size_t` values (both below `2 ^ 64`). -/
@[irreducible] def wsub (a b : Nat) : Nat := (a + sizeMod - b) % sizeMod

/-- Outcome of running a piece of the program. -/
inductive Res (α : Type) where
  /-- normal completion with a value -/
  | ok (a : α) : Res α
  /-- an element access outside a vector, or a division by zero -/
  | fault : Res α
  /-- the fuel given to a loop or recursion ran out -/
  | outOfFuel : Res α
deriving DecidableEq, Repr

/-! ## Data model -/

/-- A value of the coordinate type `TCoord` (`float` in `src/test.cpp`): a
number, or the not-a-number value. -/
inductive TCoord where
  | num (q : ℚ)
  | nan
deriving DecidableEq, Repr

/-- The comparison `a < b`: false when an operand is not a number. -/
def TCoord.lt : TCoord → TCoord → Prop
  | TCoord.num p, TCoord.num q => p < q
  | TCoord.num _, TCoord.nan => False
  | TCoord.nan, _ => False

/-- The comparison `a <= b`: false when an operand is not a number. -/
def TCoord.le : TCoord → TCoord → Prop
  | TCoord.num p, TCoord.num q => p ≤ q
  | TCoord.num _, TCoord.nan => False
  | TCoord.nan, _ => False

instance : LT TCoord := ⟨TCoord.lt⟩

instance : LE TCoord := ⟨TCoord.le⟩

instance TCoord.decLt : (a b : TCoord) → Decidable (a < b)
  | TCoord.num p, TCoord.num q => inferInstanceAs (Decidable (p < q))
  | TCoord.num _, TCoord.nan => isFalse (fun h => h)
  | TCoord.nan, TCoord.num _ => isFalse (fun h => h)
  | TCoord.nan, TCoord.nan => isFalse (fun h => h)

instance TCoord.decLe : (a b : TCoord) → Decidable (a ≤ b)
  | TCoord.num p, TCoord.num q => inferInstanceAs (Decidable (p ≤ q))
  | TCoord.num _, TCoord.nan => isFalse (fun h => h)
  | TCoord.nan, TCoord.num _ => isFalse (fun h => h)
  | TCoord.nan, TCoord.nan => isFalse (fun h => h)

/-- The function `std::min`: `b < a ? b : a`. -/
instance : Min TCoord := ⟨fun a b => if b < a then b else a⟩

/-- The function `std::max`: `a < b ? b : a`. -/
instance : Max TCoord := ⟨fun a b => if a < b then b else a⟩

/-- The sum `a + b`. -/
def TCoord.add : TCoord → TCoord → TCoord
  | TCoord.num p, TCoord.num q => TCoord.num (p + q)
  | TCoord.num _, TCoord.nan => TCoord.nan
  | TCoord.nan, _ => TCoord.nan

/-- The difference `a - b`. -/
def TCoord.sub : TCoord → TCoord → TCoord
  | TCoord.num p, TCoord.num q => TCoord.num (p - q)
  | TCoord.num _, TCoord.nan => TCoord.nan
  | TCoord.nan, _ => TCoord.nan

/-- The product `a * b`. -/
def TCoord.mul : TCoord → TCoord → TCoord
  | TCoord.num p, TCoord.num q => TCoord.num (p * q)
  | TCoord.num _, TCoord.nan => TCoord.nan
  | TCoord.nan, _ => TCoord.nan

/-- The quotient `a / b`.  A division by zero, which gives an infinity or `nan`
in floating point, has the value 0 of the rationals. -/
def TCoord.div : TCoord → TCoord → TCoord
  | TCoord.num p, TCoord.num q => TCoord.num (p / q)
  | TCoord.num _, TCoord.nan => TCoord.nan
  | TCoord.nan, _ => TCoord.nan

instance : Add TCoord := ⟨TCoord.add⟩

instance : Sub TCoord := ⟨TCoord.sub⟩

instance : Mul TCoord := ⟨TCoord.mul⟩

instance : Div TCoord := ⟨TCoord.div⟩

/-- The value is a number. -/
def TCoord.IsNum (a : TCoord) : Prop := a ≠ TCoord.nan

/-- The struct `FlatBush::Box`. -/
structure Box where
  Index : Nat
  MinX : TCoord
  MinY : TCoord
  MaxX : TCoord
  MaxY : TCoord
deriving DecidableEq, Repr

/-- The method `Box::PositiveUnion`. -/
def Box.PositiveUnion (self b : Box) : Bool :=
  decide (b.MaxX ≥ self.MinX) && decide (b.MinX ≤ self.MaxX) &&
    decide (b.MaxY ≥ self.MinY) && decide (b.MinY ≤ self.MaxY)

/-- No coordinate of the box is `nan`. -/
def Box.Numeric (b : Box) : Prop :=
  b.MinX.IsNum ∧ b.MinY.IsNum ∧ b.MaxX.IsNum ∧ b.MaxY.IsNum

/-- The value `std::numeric_limits<TCoord>::max()` (for `float`). -/
def coordMax : TCoord := TCoord.num 340282346638528859811704183484516925440

/-- The value `std::numeric_limits<TCoord>::lowest()` (for `float`). -/
def coordLowest : TCoord := TCoord.num (-340282346638528859811704183484516925440)

/-- The static function `FlatBush::InvertedBox`; `b.Index = -1` is `2 ^ 64 - 1`. -/
def InvertedBox : Box :=
  { Index := wsub 0 1, MinX := coordMax, MinY := coordMax,
    MaxX := coordLowest, MaxY := coordLowest }

/-- The data members of `FlatBush<TCoord>`. -/
structure FlatBush where
  NodeSize : Nat
  Boxes : List Box
  Bounds : Box
  HilbertValues : List Nat
  LevelBounds : List Nat
  NumItems : Nat
deriving DecidableEq, Repr

/-- The constructor `FlatBush::FlatBush()` with the default member initialisers. -/
def FlatBush.new : FlatBush :=
  { NodeSize := 16, Boxes := [], Bounds := InvertedBox, HilbertValues := [],
    LevelBounds := [], NumItems := 0 }

/-- The method `Size`. -/
def FlatBush.Size (self : FlatBush) : Nat := self.NumItems

/-! ## Hilbert mapping -/

/-- The function `Interleave`. -/
def Interleave (x : Nat) : Nat :=
  let x := (x ||| ((x <<< 8) % u32Mod)) &&& 0x00FF00FF
  let x := (x ||| ((x <<< 4) % u32Mod)) &&& 0x0F0F0F0F
  let x := (x ||| ((x <<< 2) % u32Mod)) &&& 0x33333333
  let x := (x ||| ((x <<< 1) % u32Mod)) &&& 0x55555555
  x

/-- The function `HilbertXYToIndex` (for `n ≤ 16`). -/
def HilbertXYToIndex (n x y : Nat) : Nat :=
  let x := (x <<< (16 - n)) % u32Mod
  let y := (y <<< (16 - n)) % u32Mod
  -- initial prefix scan round, prime with x and y
  let a := x ^^^ y
  let b := 0xFFFF ^^^ a
  let c := 0xFFFF ^^^ (x ||| y)
  let d := x &&& (y ^^^ 0xFFFF)
  let A := a ||| (b >>> 1)
  let B := (a >>> 1) ^^^ a
  let C := ((c >>> 1) ^^^ (b &&& (d >>> 1))) ^^^ c
  let D := ((a &&& (c >>> 1)) ^^^ (d >>> 1)) ^^^ d
  -- second round
  let a := A
  let b := B
  let c := C
  let d := D
  let A := (a &&& (a >>> 2)) ^^^ (b &&& (b >>> 2))
  let B := (a &&& (b >>> 2)) ^^^ (b &&& ((a ^^^ b) >>> 2))
  let C := C ^^^ ((a &&& (c >>> 2)) ^^^ (b &&& (d >>> 2)))
  let D := D ^^^ ((b &&& (c >>> 2)) ^^^ ((a ^^^ b) &&& (d >>> 2)))
  -- third round
  let a := A
  let b := B
  let c := C
  let d := D
  let A := (a &&& (a >>> 4)) ^^^ (b &&& (b >>> 4))
  let B := (a &&& (b >>> 4)) ^^^ (b &&& ((a ^^^ b) >>> 4))
  let C := C ^^^ ((a &&& (c >>> 4)) ^^^ (b &&& (d >>> 4)))
  let D := D ^^^ ((b &&& (c >>> 4)) ^^^ ((a ^^^ b) &&& (d >>> 4)))
  -- final round and projection
  let a := A
  let b := B
  let c := C
  let d := D
  let C := C ^^^ ((a &&& (c >>> 8)) ^^^ (b &&& (d >>> 8)))
  let D := D ^^^ ((b &&& (c >>> 8)) ^^^ ((a ^^^ b) &&& (d >>> 8)))
  -- undo transformation prefix scan
  let a := C ^^^ (C >>> 1)
  let b := D ^^^ (D >>> 1)
  -- recover index bits
  let i0 := x ^^^ y
  let i1 := b ||| (0xFFFF ^^^ (i0 ||| a))
  ((((Interleave i1) <<< 1) % u32Mod) ||| Interleave i0) >>> (32 - 2 * n)

/-- The conversion `uint32_t(v)` of a coordinate: truncation toward zero,
reduced modulo `2 ^ 32`.  The conversion of `nan` is undefined in C++; the value
here is 0. -/
def toUInt32 : TCoord → Nat
  | TCoord.num v => ((Int.tdiv v.num (v.den : Int)) % (u32Mod : Int)).toNat
  | TCoord.nan => 0

/-- The local `hilbertMax = TCoord((1 << 16) - 1)` of `Finish`. -/
def hilbertMax : TCoord := TCoord.num 65535

/-- The body of the loop of `Finish` that maps the centre of box `b` into the
Hilbert grid and computes its curve index. -/
def hilbertOfBox (bounds : Box) (width height : TCoord) (b : Box) : Nat :=
  let x := toUInt32 (hilbertMax * ((b.MinX + b.MaxX) / TCoord.num 2 - bounds.MinX) / width)
  let y := toUInt32 (hilbertMax * ((b.MinY + b.MaxY) / TCoord.num 2 - bounds.MinY) / height)
  HilbertXYToIndex 16 x y

/-! ## Reserve and Add -/

/-- The `do ... while (n != 1)` loop of `Reserve`; returns `numNodes`. -/
def reserveLoop (nodeSize : Nat) : Nat → Nat → Nat → Res Nat
  | 0, _, _ => Res.outOfFuel
  | fuel + 1, n, numNodes =>
    if nodeSize = 0 then Res.fault
    else
      let n := wsub (wadd n nodeSize) 1 / nodeSize
      let numNodes := wadd numNodes n
      if n ≠ 1 then reserveLoop nodeSize fuel n numNodes else Res.ok numNodes

/-- The method `Reserve`.  The capacity of `Boxes` is not part of the state. -/
def FlatBush.Reserve (self : FlatBush) (size : Nat) (fuel : Nat) : Res FlatBush :=
  match reserveLoop self.NodeSize fuel size size with
  | Res.ok _ => Res.ok self
  | Res.fault => Res.fault
  | Res.outOfFuel => Res.outOfFuel

/-- The method `Add`: the new state and the returned index. -/
def FlatBush.Add (self : FlatBush) (minX minY maxX maxY : TCoord) : FlatBush × Nat :=
  let index := self.Boxes.length
  ({ self with
      Boxes := self.Boxes ++ [{ Index := index, MinX := minX, MinY := minY,
                                MaxX := maxX, MaxY := maxY }]
      Bounds := { self.Bounds with
                  MinX := min self.Bounds.MinX minX
                  MinY := min self.Bounds.MinY minY
                  MaxX := max self.Bounds.MaxX maxX
                  MaxY := max self.Bounds.MaxY maxY } },
   index)

/-! ## Sort -/

/-- The statement `std::swap(v[i], v[j])`; `none` when an index is outside `v`. -/
def swapAt {α : Type} (v : List α) (i j : Nat) : Option (List α) :=
  match v[i]?, v[j]? with
  | some a, some b => some ((v.set i b).set j a)
  | _, _ => none

/-- The loop `do i++; while (values[i] < pivot);` of `Sort`; returns `i`. -/
def scanUp (values : List Nat) (pivot : Nat) : Nat → Nat → Res Nat
  | 0, _ => Res.outOfFuel
  | fuel + 1, i =>
    let i := wadd i 1
    match values[i]? with
    | none => Res.fault
    | some v => if v < pivot then scanUp values pivot fuel i else Res.ok i

/-- The loop `do j--; while (values[j] > pivot);` of `Sort`; returns `j`. -/
def scanDown (values : List Nat) (pivot : Nat) : Nat → Nat → Res Nat
  | 0, _ => Res.outOfFuel
  | fuel + 1, j =>
    let j := wsub j 1
    match values[j]? with
    | none => Res.fault
    | some v => if v > pivot then scanDown values pivot fuel j else Res.ok j

/-- The `while (true)` loop of `Sort`; returns both arrays and the final `j`. -/
def partitionLoop (pivot : Nat) :
    Nat → List Nat → List Box → Nat → Nat → Res (List Nat × List Box × Nat)
  | 0, _, _, _, _ => Res.outOfFuel
  | fuel + 1, values, boxes, i, j =>
    match scanUp values pivot fuel i with
    | Res.fault => Res.fault
    | Res.outOfFuel => Res.outOfFuel
    | Res.ok i =>
      match scanDown values pivot fuel j with
      | Res.fault => Res.fault
      | Res.outOfFuel => Res.outOfFuel
      | Res.ok j =>
        if i ≥ j then Res.ok (values, boxes, j)
        else
          match swapAt values i j, swapAt boxes i j with
          | some values, some boxes => partitionLoop pivot fuel values boxes i j
          | _, _ => Res.fault

/-- The static function `Sort` on the arrays `values` and `boxes`. -/
def FlatBush.Sort : Nat → List Nat → List Box → Nat → Nat → Res (List Nat × List Box)
  | 0, _, _, _, _ => Res.outOfFuel
  | fuel + 1, values, boxes, left, right =>
    if left ≥ right then Res.ok (values, boxes)
    else
      match values[wadd left right >>> 1]? with
      | none => Res.fault
      | some pivot =>
        match partitionLoop pivot fuel values boxes (wsub left 1) (wadd right 1) with
        | Res.fault => Res.fault
        | Res.outOfFuel => Res.outOfFuel
        | Res.ok (values, boxes, j) =>
          match FlatBush.Sort fuel values boxes left j with
          | Res.fault => Res.fault
          | Res.outOfFuel => Res.outOfFuel
          | Res.ok (values, boxes) => FlatBush.Sort fuel values boxes (wadd j 1) right

/-! ## Finish -/

/-- The `do ... while (n != 1)` loop of `Finish`; returns `LevelBounds`. -/
def levelLoop (nodeSize : Nat) : Nat → Nat → Nat → List Nat → Res (List Nat)
  | 0, _, _, _ => Res.outOfFuel
  | fuel + 1, n, numNodes, levelBounds =>
    if nodeSize = 0 then Res.fault
    else
      let n := wsub (wadd n nodeSize) 1 / nodeSize
      let numNodes := wadd numNodes n
      let levelBounds := levelBounds ++ [numNodes]
      if n ≠ 1 then levelLoop nodeSize fuel n numNodes levelBounds else Res.ok levelBounds

/-- One pass of the body of the innermost loop of `Finish`: fold `box` into
`nodeBox`. -/
def extendBox (nodeBox box : Box) : Box :=
  { nodeBox with
    MinX := min nodeBox.MinX box.MinX
    MinY := min nodeBox.MinY box.MinY
    MaxX := max nodeBox.MaxX box.MaxX
    MaxY := max nodeBox.MaxY box.MaxY }

/-- The loop `for (j = 0; j < NodeSize && pos < end; j++)` of `Finish`; the
first argument is `NodeSize - j`.  Returns `nodeBox` and `pos`. -/
def foldRun (boxes : List Box) (stop : Nat) : Nat → Nat → Box → Res (Box × Nat)
  | 0, pos, nodeBox => Res.ok (nodeBox, pos)
  | k + 1, pos, nodeBox =>
    if pos < stop then
      match boxes[pos]? with
      | none => Res.fault
      | some box => foldRun boxes stop k (wadd pos 1) (extendBox nodeBox box)
    else Res.ok (nodeBox, pos)

/-- The loop `while (pos < end)` of `Finish`; returns `Boxes` and `pos`. -/
def buildLevel (nodeSize stop : Nat) : Nat → List Box → Nat → Res (List Box × Nat)
  | 0, _, _ => Res.outOfFuel
  | fuel + 1, boxes, pos =>
    if pos < stop then
      match foldRun boxes stop nodeSize pos { InvertedBox with Index := pos } with
      | Res.fault => Res.fault
      | Res.outOfFuel => Res.outOfFuel
      | Res.ok (nodeBox, pos) => buildLevel nodeSize stop fuel (boxes ++ [nodeBox]) pos
    else Res.ok (boxes, pos)

/-- The loop `for (i = 0, pos = 0; i < LevelBounds.size() - 1; i++)` of
`Finish`; returns `Boxes`. -/
def buildLevels (nodeSize : Nat) (levelBounds : List Nat) :
    Nat → Nat → List Box → Nat → Res (List Box)
  | 0, _, _, _ => Res.outOfFuel
  | fuel + 1, i, boxes, pos =>
    if i < wsub levelBounds.length 1 then
      match levelBounds[i]? with
      | none => Res.fault
      | some stop =>
        match buildLevel nodeSize stop fuel boxes pos with
        | Res.fault => Res.fault
        | Res.outOfFuel => Res.outOfFuel
        | Res.ok (boxes, pos) => buildLevels nodeSize levelBounds fuel (wadd i 1) boxes pos
    else Res.ok boxes

/-- The method `Finish`. -/
def FlatBush.Finish (self : FlatBush) (fuel : Nat) : Res FlatBush :=
  let nodeSize := if self.NodeSize < 2 then 2 else self.NodeSize
  let numItems := self.Boxes.length
  match levelLoop nodeSize fuel numItems numItems (self.LevelBounds ++ [numItems]) with
  | Res.fault => Res.fault
  | Res.outOfFuel => Res.outOfFuel
  | Res.ok levelBounds =>
    let width := self.Bounds.MaxX - self.Bounds.MinX
    let height := self.Bounds.MaxY - self.Bounds.MinY
    let hilbertValues := self.Boxes.map (hilbertOfBox self.Bounds width height)
    match FlatBush.Sort fuel hilbertValues self.Boxes 0 (wsub self.Boxes.length 1) with
    | Res.fault => Res.fault
    | Res.outOfFuel => Res.outOfFuel
    | Res.ok (hilbertValues, boxes) =>
      match buildLevels nodeSize levelBounds fuel 0 boxes 0 with
      | Res.fault => Res.fault
      | Res.outOfFuel => Res.outOfFuel
      | Res.ok boxes =>
        Res.ok { NodeSize := nodeSize, Boxes := boxes, Bounds := self.Bounds,
                 HilbertValues := hilbertValues, LevelBounds := levelBounds,
                 NumItems := numItems }

/-! ## Search -/

/-- The rejection test of `Search`: the condition under which a box is skipped. -/
def rejects (minX minY maxX maxY : TCoord) (b : Box) : Bool :=
  decide (maxX < b.MinX) || decide (maxY < b.MinY) ||
    decide (minX > b.MaxX) || decide (minY > b.MaxY)

/-- The loop `for (pos = nodeIndex; pos < end; pos++)` of `Search`; the first
argument is `end - pos`.  Returns `queue` and `results`. -/
def searchNode (self : FlatBush) (minX minY maxX maxY : TCoord) (nodeIndex level : Nat) :
    Nat → Nat → List Nat → List Nat → Res (List Nat × List Nat)
  | 0, _, queue, results => Res.ok (queue, results)
  | count + 1, pos, queue, results =>
    match self.Boxes[pos]? with
    | none => Res.fault
    | some b =>
      if rejects minX minY maxX maxY b then
        searchNode self minX minY maxX maxY nodeIndex level count (wadd pos 1) queue results
      else if nodeIndex < self.NumItems then
        searchNode self minX minY maxX maxY nodeIndex level count (wadd pos 1) queue
          (results ++ [b.Index])
      else
        searchNode self minX minY maxX maxY nodeIndex level count (wadd pos 1)
          (wsub level 1 :: b.Index :: queue) results

/-- The loop `while (queue.size() != 0)` of `Search`. -/
def searchLoop (self : FlatBush) (minX minY maxX maxY : TCoord) :
    Nat → List Nat → List Nat → Res (List Nat)
  | _, [], results => Res.ok results
  | 0, _ :: _, _ => Res.outOfFuel
  | _ + 1, [_], _ => Res.fault
  | fuel + 1, level :: nodeIndex :: queue, results =>
    match self.LevelBounds[level]? with
    | none => Res.fault
    | some levelBound =>
      let stop := min (wadd nodeIndex self.NodeSize) levelBound
      match searchNode self minX minY maxX maxY nodeIndex level (stop - nodeIndex) nodeIndex
          queue results with
      | Res.fault => Res.fault
      | Res.outOfFuel => Res.outOfFuel
      | Res.ok (queue, results) => searchLoop self minX minY maxX maxY fuel queue results

/-- The method `Search` with the output parameter `results`. -/
def FlatBush.SearchInto (self : FlatBush) (minX minY maxX maxY : TCoord) (results : List Nat)
    (fuel : Nat) : Res (List Nat) :=
  if self.LevelBounds.length = 0 then Res.ok results
  else
    searchLoop self minX minY maxX maxY fuel
      [wsub self.LevelBounds.length 1, wsub self.Boxes.length 1] results

/-- The method `Search` that returns the result vector. -/
def FlatBush.Search (self : FlatBush) (minX minY maxX maxY : TCoord) (fuel : Nat) :
    Res (List Nat) :=
  self.SearchInto minX minY maxX maxY [] fuel

/-! ## Call sequences -/

/-- The four coordinate arguments of one call of `Add`, all of them numbers. -/
structure Rect where
  minX : ℚ
  minY : ℚ
  maxX : ℚ
  maxY : ℚ
deriving DecidableEq, Repr

/-- The four coordinate arguments of one call of `Search`. -/
structure Query where
  minX : TCoord
  minY : TCoord
  maxX : TCoord
  maxY : TCoord
deriving DecidableEq, Repr

/-- The query whose arguments are the numbers of `r`. -/
def Rect.toQuery (r : Rect) : Query :=
  { minX := TCoord.num r.minX, minY := TCoord.num r.minY,
    maxX := TCoord.num r.maxX, maxY := TCoord.num r.maxY }

/-- One call of `Add` per element of `rs`, in order: the final state and the
returned indices. -/
def addAll : FlatBush → List Rect → FlatBush × List Nat
  | fb, [] => (fb, [])
  | fb, r :: rs =>
    let step := fb.Add (TCoord.num r.minX) (TCoord.num r.minY) (TCoord.num r.maxX)
      (TCoord.num r.maxY)
    let rest := addAll step.1 rs
    (rest.1, step.2 :: rest.2)

/-! ## Specification vocabulary -/

/-- Box `a` contains box `b`, componentwise. -/
def Box.Contains (a b : Box) : Prop :=
  a.MinX ≤ b.MinX ∧ a.MinY ≤ b.MinY ∧ b.MaxX ≤ a.MaxX ∧ b.MaxY ≤ a.MaxY

/-- The entry of `LevelBounds` for level `k`. -/
def lvlEnd (lb : List Nat) (k : Nat) : Nat := lb.getD k 0

/-- The position in `Boxes` of the first node of level `k`. -/
def lvlBase (lb : List Nat) (k : Nat) : Nat := if k = 0 then 0 else lb.getD (k - 1) 0

/-- The number of nodes of level `k`. -/
def lvlSize (lb : List Nat) (k : Nat) : Nat := lvlEnd lb k - lvlBase lb k

/-- The element `boxes[p]`, for `p` inside the vector. -/
def boxAt (boxes : List Box) (p : Nat) : Box := boxes.getD p InvertedBox

/-- The table `LevelBounds` for `N` leaves and fan-out `ns`: the first entry is
`N` and every later level has one node per run of `ns` nodes of the level below. -/
structure LevelsOK (ns N : Nat) (lb : List Nat) : Prop where
  len : 1 ≤ lb.length
  first : lvlEnd lb 0 = N
  step : ∀ k, k + 1 < lb.length →
    lvlEnd lb (k + 1) = lvlEnd lb k + (lvlSize lb k + ns - 1) / ns

/-- Node `t` of level `k + 1` is stored in `boxes`, its `Index` is the position
of the first node of run `t` of level `k`, and its box contains every node of
that run. -/
def NodeOK (ns : Nat) (lb : List Nat) (boxes : List Box) (k t : Nat) : Prop :=
  lvlEnd lb k + t < boxes.length ∧
  (boxAt boxes (lvlEnd lb k + t)).Index = lvlBase lb k + t * ns ∧
  ∀ c, c / ns = t → c < lvlSize lb k →
    (boxAt boxes (lvlEnd lb k + t)).Contains (boxAt boxes (lvlBase lb k + c))

/-- The packed tree held in `boxes` and described by `lb` is well formed. -/
structure TreeOK (ns N : Nat) (lb : List Nat) (boxes : List Box) : Prop where
  ns_ge : 2 ≤ ns
  n_pos : 1 ≤ N
  levels : LevelsOK ns N lb
  two : 2 ≤ lb.length
  top : lvlSize lb (lb.length - 1) = 1
  total : lvlEnd lb (lb.length - 1) = boxes.length
  nodes : ∀ k t, k + 1 < lb.length → t < lvlSize lb (k + 1) → NodeOK ns lb boxes k t
  room : boxes.length + ns ≤ sizeMod
  numeric : ∀ p, p < boxes.length → (boxAt boxes p).Numeric

/-- The box that `Add` stores for the arguments `r` when it assigns `index`. -/
def leafBox (index : Nat) (r : Rect) : Box :=
  { Index := index, MinX := TCoord.num r.minX, MinY := TCoord.num r.minY,
    MaxX := TCoord.num r.maxX, MaxY := TCoord.num r.maxY }

/-- The leaf boxes that `Add` stores for the calls `rs` when `start` boxes are
already present. -/
def leafBoxes : Nat → List Rect → List Box
  | _, [] => []
  | start, r :: rs => leafBox start r :: leafBoxes (start + 1) rs

/-- The box `qbox = {0, minX, minY, maxX, maxY}` that `src/test.cpp` builds from
a query. -/
def queryBox (q : Query) : Box :=
  { Index := 0, MinX := q.minX, MinY := q.minY, MaxX := q.maxX, MaxY := q.maxY }

/-- The brute-force scan of `src/test.cpp`: the indices, counted from `start`,
of the calls `rs` whose box satisfies `PositiveUnion` with the query box. -/
def bruteForce (q : Query) : Nat → List Rect → List Nat
  | _, [] => []
  | start, r :: rs =>
    if (leafBox start r).PositiveUnion (queryBox q) then start :: bruteForce q (start + 1) rs
    else bruteForce q (start + 1) rs

/-- The indices, counted from `start`, of the calls `rs` whose leaf box satisfies
`keep`. -/
def selectLeaves (keep : Box → Bool) : Nat → List Rect → List Nat
  | _, [] => []
  | start, r :: rs =>
    if keep (leafBox start r) then start :: selectLeaves keep (start + 1) rs
    else selectLeaves keep (start + 1) rs

/-- The indices, counted from `start`, of the calls `rs` whose leaf box the
rejection test of `Search` does not reject for the query `q`. -/
def keptLeaves (q : Query) (start : Nat) (rs : List Rect) : List Nat :=
  selectLeaves (fun b => !rejects q.minX q.minY q.maxX q.maxY b) start rs

/-- The index after construction, an assignment of `nodeSize` to `NodeSize`
and one call of `Add` per element of `rs`. -/
def inserted (nodeSize : Nat) (rs : List Rect) : FlatBush :=
  (addAll { FlatBush.new with NodeSize := nodeSize } rs).1

/-- The fan-out that `Finish` uses: `NodeSize` clamped to at least 2. -/
def clampNodeSize (nodeSize : Nat) : Nat := if nodeSize < 2 then 2 else nodeSize

/-- The call sequence of `src/test.cpp`: construction, an assignment to
`NodeSize`, one `Add` per element of `rs`, `Finish`, and one `Search`. -/
def searchAfterFinish (nodeSize : Nat) (rs : List Rect) (q : Query) (fuel : Nat) :
    Res (List Nat) :=
  match (inserted nodeSize rs).Finish fuel with
  | Res.ok fb => fb.Search q.minX q.minY q.maxX q.maxY fuel
  | Res.fault => Res.fault
  | Res.outOfFuel => Res.outOfFuel

/-- The nine unit boxes `[x, y, x + 1, y + 1]` for `x, y` in `{0, 1, 2}`, `x` in
the outer loop. -/
def grid3 : List Rect :=
  [⟨0, 0, 1, 1⟩, ⟨0, 1, 1, 2⟩, ⟨0, 2, 1, 3⟩, ⟨1, 0, 2, 1⟩, ⟨1, 1, 2, 2⟩, ⟨1, 2, 2, 3⟩,
   ⟨2, 0, 3, 1⟩, ⟨2, 1, 3, 2⟩, ⟨2, 2, 3, 3⟩]

/-- Three copies of the unit box `[0, 0, 1, 1]` with the indices 0, 1 and 2. -/
def threeBoxes : List Box :=
  [leafBox 0 ⟨0, 0, 1, 1⟩, leafBox 1 ⟨0, 0, 1, 1⟩, leafBox 2 ⟨0, 0, 1, 1⟩]

/-- The positions `pos, ..., pos + count - 1` whose box the query does not reject. -/
def hitsOf (boxes : List Box) (minX minY maxX maxY : TCoord) (pos count : Nat) : List Nat :=
  (List.range' pos count).filter fun p => !rejects minX minY maxX maxY (boxAt boxes p)

/-- The trip count of the inner loop of `Search` for the queue entry
`(nodeIndex, level)`. -/
def spanOf (self : FlatBush) (level nodeIndex : Nat) : Nat :=
  min (nodeIndex + self.NodeSize) (lvlEnd self.LevelBounds level) - nodeIndex

/-- The leaf positions whose `Index` the loop of `Search` reports from the moment
it pops the queue entry `(nodeIndex, level)` until the queue is back to what was
below that entry, in the order of reporting. -/
def reported (self : FlatBush) (minX minY maxX maxY : TCoord) : Nat → Nat → List Nat
  | 0, nodeIndex => hitsOf self.Boxes minX minY maxX maxY nodeIndex (spanOf self 0 nodeIndex)
  | level + 1, nodeIndex =>
    (hitsOf self.Boxes minX minY maxX maxY nodeIndex
        (spanOf self (level + 1) nodeIndex)).reverse.flatMap
      fun p => reported self minX minY maxX maxY level (boxAt self.Boxes p).Index

/-- The number of passes of the loop of `Search` from the moment it pops the
queue entry `(nodeIndex, level)` until the queue is back to what was below it. -/
def visits (self : FlatBush) (minX minY maxX maxY : TCoord) : Nat → Nat → Nat
  | 0, _ => 1
  | level + 1, nodeIndex =>
    1 + ((hitsOf self.Boxes minX minY maxX maxY nodeIndex
        (spanOf self (level + 1) nodeIndex)).reverse.map
      fun p => visits self minX minY maxX maxY level (boxAt self.Boxes p).Index).sum

/-- The vector `queue` that holds the entries `st`, the first one at the back. -/
def enqueue (st : List (Nat × Nat)) : List Nat := st.flatMap fun e => [e.1, e.2]

/-- The queue entry `(nodeIndex, level)` is the start of a run of level `level`. -/
def GoodEntry (self : FlatBush) (level nodeIndex : Nat) : Prop :=
  level < self.LevelBounds.length ∧
    ∃ j, nodeIndex = lvlBase self.LevelBounds level + j * self.NodeSize ∧
      j * self.NodeSize < lvlSize self.LevelBounds level

/-! ## Sort with checked accesses -/

/-- The access `v[i]` inside a call of `Sort` on the range `[lo, hi]`: `none`
when `i` is outside the range or outside `v`. -/
def readIn {α : Type} (lo hi : Nat) (v : List α) (i : Nat) : Option α :=
  if lo ≤ i ∧ i ≤ hi then v[i]? else none

/-- The statement `std::swap(v[i], v[j])` inside a call of `Sort` on the range
`[lo, hi]`: `none` when an index is outside the range or outside `v`. -/
def swapIn {α : Type} (lo hi : Nat) (v : List α) (i j : Nat) : Option (List α) :=
  if lo ≤ i ∧ i ≤ hi ∧ lo ≤ j ∧ j ≤ hi then swapAt v i j else none

/-- The loop of `scanUp`, every access checked against `[lo, hi]`. -/
def scanUpIn (lo hi : Nat) (values : List Nat) (pivot : Nat) : Nat → Nat → Res Nat
  | 0, _ => Res.outOfFuel
  | fuel + 1, i =>
    let i := wadd i 1
    match readIn lo hi values i with
    | none => Res.fault
    | some v => if v < pivot then scanUpIn lo hi values pivot fuel i else Res.ok i

/-- The loop of `scanDown`, every access checked against `[lo, hi]`. -/
def scanDownIn (lo hi : Nat) (values : List Nat) (pivot : Nat) : Nat → Nat → Res Nat
  | 0, _ => Res.outOfFuel
  | fuel + 1, j =>
    let j := wsub j 1
    match readIn lo hi values j with
    | none => Res.fault
    | some v => if v > pivot then scanDownIn lo hi values pivot fuel j else Res.ok j

/-- The loop of `partitionLoop`, every access and swap checked against
`[lo, hi]`. -/
def partitionLoopIn (lo hi pivot : Nat) :
    Nat → List Nat → List Box → Nat → Nat → Res (List Nat × List Box × Nat)
  | 0, _, _, _, _ => Res.outOfFuel
  | fuel + 1, values, boxes, i, j =>
    match scanUpIn lo hi values pivot fuel i with
    | Res.fault => Res.fault
    | Res.outOfFuel => Res.outOfFuel
    | Res.ok i =>
      match scanDownIn lo hi values pivot fuel j with
      | Res.fault => Res.fault
      | Res.outOfFuel => Res.outOfFuel
      | Res.ok j =>
        if i ≥ j then Res.ok (values, boxes, j)
        else
          match swapIn lo hi values i j, swapIn lo hi boxes i j with
          | some values, some boxes => partitionLoopIn lo hi pivot fuel values boxes i j
          | _, _ => Res.fault

/-- The function `Sort`, every access and swap of a call checked against the
range `[left, right]` of that call. -/
def FlatBush.SortIn : Nat → List Nat → List Box → Nat → Nat → Res (List Nat × List Box)
  | 0, _, _, _, _ => Res.outOfFuel
  | fuel + 1, values, boxes, left, right =>
    if left ≥ right then Res.ok (values, boxes)
    else
      match readIn left right values (wadd left right >>> 1) with
      | none => Res.fault
      | some pivot =>
        match partitionLoopIn left right pivot fuel values boxes (wsub left 1) (wadd right 1) with
        | Res.fault => Res.fault
        | Res.outOfFuel => Res.outOfFuel
        | Res.ok (values, boxes, j) =>
          match FlatBush.SortIn fuel values boxes left j with
          | Res.fault => Res.fault
          | Res.outOfFuel => Res.outOfFuel
          | Res.ok (values, boxes) => FlatBush.SortIn fuel values boxes (wadd j 1) right

/-! ## Parents and descendants in the finished index -/

/-- Position `c` holds a child of the node at position `p` of level `k + 1`:
the children are the up to `NodeSize` consecutive entries of level `k` that start
at position `Boxes[p].Index`. -/
def IsChild (self : FlatBush) (k p c : Nat) : Prop :=
  lvlBase self.LevelBounds (k + 1) ≤ p ∧ p < lvlEnd self.LevelBounds (k + 1) ∧
    k + 1 < self.LevelBounds.length ∧
    (boxAt self.Boxes p).Index ≤ c ∧
    c < min ((boxAt self.Boxes p).Index + self.NodeSize) (lvlEnd self.LevelBounds k)

/-- Position `d` holds a descendant of the node at position `p`: a child, or a
descendant of a child. -/
inductive IsDescendant (self : FlatBush) : Nat → Nat → Prop where
  | child {k p c : Nat} : IsChild self k p c → IsDescendant self p c
  | step {k p c d : Nat} : IsChild self k p c → IsDescendant self c d →
      IsDescendant self p d

/-! ## Bit lanes of the Hilbert mapping

`HilbertXYToIndex` works on all sixteen bit positions of `x` and `y` at once.
The definitions below name its intermediate words and describe one bit position
(a lane) of them. -/

/-- The pair of bits `i` of two words. -/
def lanes (a b : Nat) (i : Nat) : Bool × Bool := (a.testBit i, b.testBit i)

/-- The sum of two lane pairs: `^` on both components. -/
def laneAdd (u v : Bool × Bool) : Bool × Bool := (u.1 ^^ v.1, u.2 ^^ v.2)

/-- The product that the prefix scan forms on one lane:
`(a & c) ^ (b & d)` and `(a & d) ^ (b & (c ^ d))`. -/
def laneMul (p q : Bool × Bool) : Bool × Bool :=
  ((p.1 && q.1) ^^ (p.2 && q.2), (p.1 && q.2) ^^ (p.2 && (q.1 ^^ q.2)))

/-- The word `a = x ^ y` of the initial round. -/
def hilbertA0 (x y : Nat) : Nat := x ^^^ y

/-- The word `b = 0xFFFF ^ a` of the initial round. -/
def hilbertB0 (x y : Nat) : Nat := 0xFFFF ^^^ (x ^^^ y)

/-- The word `c = 0xFFFF ^ (x | y)` of the initial round. -/
def hilbertC0 (x y : Nat) : Nat := 0xFFFF ^^^ (x ||| y)

/-- The word `d = x & (y ^ 0xFFFF)` of the initial round. -/
def hilbertD0 (x y : Nat) : Nat := x &&& (y ^^^ 0xFFFF)

/-- The words `A`, `B`, `C`, `D` after the initial round. -/
def hilbertA1 (x y : Nat) : Nat := hilbertA0 x y ||| (hilbertB0 x y >>> 1)

def hilbertB1 (x y : Nat) : Nat := (hilbertA0 x y >>> 1) ^^^ hilbertA0 x y

def hilbertC1 (x y : Nat) : Nat :=
  ((hilbertC0 x y >>> 1) ^^^ (hilbertB0 x y &&& (hilbertD0 x y >>> 1))) ^^^ hilbertC0 x y

def hilbertD1 (x y : Nat) : Nat :=
  ((hilbertA0 x y &&& (hilbertC0 x y >>> 1)) ^^^ (hilbertD0 x y >>> 1)) ^^^ hilbertD0 x y

/-- The words `A`, `B`, `C`, `D` that a later round with shift `s` computes from
`a`, `b`, `c`, `d`. -/
def scanA (a b s : Nat) : Nat := (a &&& (a >>> s)) ^^^ (b &&& (b >>> s))

def scanB (a b s : Nat) : Nat := (a &&& (b >>> s)) ^^^ (b &&& ((a ^^^ b) >>> s))

def scanC (a b c d s : Nat) : Nat := c ^^^ ((a &&& (c >>> s)) ^^^ (b &&& (d >>> s)))

def scanD (a b c d s : Nat) : Nat := d ^^^ ((b &&& (c >>> s)) ^^^ ((a ^^^ b) &&& (d >>> s)))

/-- The words after the second round (shift 2). -/
def hilbertA2 (x y : Nat) : Nat := scanA (hilbertA1 x y) (hilbertB1 x y) 2

def hilbertB2 (x y : Nat) : Nat := scanB (hilbertA1 x y) (hilbertB1 x y) 2

def hilbertC2 (x y : Nat) : Nat :=
  scanC (hilbertA1 x y) (hilbertB1 x y) (hilbertC1 x y) (hilbertD1 x y) 2

def hilbertD2 (x y : Nat) : Nat :=
  scanD (hilbertA1 x y) (hilbertB1 x y) (hilbertC1 x y) (hilbertD1 x y) 2

/-- The words after the third round (shift 4). -/
def hilbertA3 (x y : Nat) : Nat := scanA (hilbertA2 x y) (hilbertB2 x y) 4

def hilbertB3 (x y : Nat) : Nat := scanB (hilbertA2 x y) (hilbertB2 x y) 4

def hilbertC3 (x y : Nat) : Nat :=
  scanC (hilbertA2 x y) (hilbertB2 x y) (hilbertC2 x y) (hilbertD2 x y) 4

def hilbertD3 (x y : Nat) : Nat :=
  scanD (hilbertA2 x y) (hilbertB2 x y) (hilbertC2 x y) (hilbertD2 x y) 4

/-- The words `C` and `D` after the final round (shift 8). -/
def hilbertC4 (x y : Nat) : Nat :=
  scanC (hilbertA3 x y) (hilbertB3 x y) (hilbertC3 x y) (hilbertD3 x y) 8

def hilbertD4 (x y : Nat) : Nat :=
  scanD (hilbertA3 x y) (hilbertB3 x y) (hilbertC3 x y) (hilbertD3 x y) 8

/-- The word `i1` of `HilbertXYToIndex`. -/
def hilbertI1 (x y : Nat) : Nat :=
  (hilbertD4 x y ^^^ (hilbertD4 x y >>> 1)) |||
    (0xFFFF ^^^ ((x ^^^ y) ||| (hilbertC4 x y ^^^ (hilbertC4 x y >>> 1))))

/-- The transformation that bit position `i` of `x` and `y` applies to the pair
accumulated from the positions above it. -/
def laneStep (x y i : Nat) (w : Bool × Bool) : Bool × Bool :=
  (w.1 ^^ ((hilbertB0 x y).testBit i && w.2), ((hilbertA0 x y).testBit i && w.1) ^^ w.2)

/-- The transformations of the `s` positions `i, ..., i + s - 1`, composed. -/
def laneComp (x y : Nat) : Nat → Nat → Bool × Bool → Bool × Bool
  | 0, _, w => w
  | s + 1, i, w => laneStep x y i (laneComp x y s (i + 1) w)

/-- The pair that the positions `i, ..., i + s - 1` accumulate, computed one
position after the other, from the top. -/
def laneScan (x y : Nat) : Nat → Nat → Bool × Bool
  | 0, _ => (false, false)
  | s + 1, i =>
    laneAdd (lanes (hilbertC0 x y) (hilbertD0 x y) i) (laneStep x y i (laneScan x y s (i + 1)))

/-- The pair accumulated at a bit position where `x` has bit `p` and `y` has
bit `q`, from the pair `f` accumulated at the position above. -/
def cellState (p q : Bool) (f : Bool × Bool) : Bool × Bool :=
  laneAdd (!(p || q), p && !q) (f.1 ^^ (!(p ^^ q) && f.2), ((p ^^ q) && f.1) ^^ f.2)

/-- The bit of `i1` at a bit position where `x` has bit `p` and `y` has bit `q`,
from the pair `f` accumulated at the position above. -/
def cellBit (p q : Bool) (f : Bool × Bool) : Bool :=
  ((cellState p q f).2 ^^ f.2) || !((p ^^ q) || ((cellState p q f).1 ^^ f.1))

/-! ## Machine arithmetic -/

theorem wadd_eq {a b : Nat} (h : a + b < sizeMod) : wadd a b = a + b := by
  unfold wadd
  exact Nat.mod_eq_of_lt h

theorem wsub_eq {a b : Nat} (hb : b ≤ a) (ha : a < sizeMod) : wsub a b = a - b := by
  unfold wsub sizeMod at *
  omega

theorem wadd_wsub_one {a : Nat} (ha : a < sizeMod) : wadd (wsub a 1) 1 = a := by
  unfold wadd wsub sizeMod at *
  omega

theorem wsub_wadd_one {a : Nat} (ha : a + 1 < sizeMod) : wsub (wadd a 1) 1 = a := by
  unfold wadd wsub sizeMod at *
  omega

/-! ## Lists as vectors -/

theorem getElem?_getD_of_lt {α : Type} (l : List α) (d : α) {i : Nat} (h : i < l.length) :
    l[i]? = some (l.getD i d) := by
  rw [List.getD_eq_getElem?_getD, List.getElem?_eq_getElem h]
  rfl

theorem cons_set_perm {α : Type} (x b : α) :
    ∀ (xs : List α) (j : Nat), xs[j]? = some b → (b :: xs.set j x).Perm (x :: xs)
  | [], _, h => by simp at h
  | y :: ys, 0, h => by
    simp at h
    subst h
    simpa using List.Perm.swap x y ys
  | y :: ys, j + 1, h => by
    simp at h
    have ih := cons_set_perm x b ys j h
    simp only [List.set_cons_succ]
    exact (List.Perm.swap y b _).trans ((ih.cons y).trans (List.Perm.swap x y ys))

theorem swapAt_perm {α : Type} :
    ∀ (v : List α) (i j : Nat) (w : List α), swapAt v i j = some w → w.Perm v
  | [], i, j, w, h => by simp [swapAt] at h
  | x :: xs, 0, 0, w, h => by
    simp [swapAt] at h
    subst h
    exact List.Perm.refl _
  | x :: xs, 0, j + 1, w, h => by
    unfold swapAt at h
    cases hj : (x :: xs)[j + 1]? with
    | none => simp [hj] at h
    | some b =>
      simp [hj] at h
      subst h
      simp at hj
      exact cons_set_perm x b xs j hj
  | x :: xs, i + 1, 0, w, h => by
    unfold swapAt at h
    cases hi : (x :: xs)[i + 1]? with
    | none => simp [hi] at h
    | some a =>
      simp [hi] at h
      subst h
      simp at hi
      exact cons_set_perm x a xs i hi
  | x :: xs, i + 1, j + 1, w, h => by
    unfold swapAt at h
    cases hi : (x :: xs)[i + 1]? with
    | none => simp [hi] at h
    | some a =>
      cases hj : (x :: xs)[j + 1]? with
      | none => simp [hi, hj] at h
      | some b =>
        simp [hi, hj] at h
        subst h
        simp at hi hj
        have ih := swapAt_perm xs i j ((xs.set i b).set j a) (by simp [swapAt, hi, hj])
        exact ih.cons x

theorem zip_set_set {α β : Type} (a : α) (b : β) :
    ∀ (l₁ : List α) (l₂ : List β) (i : Nat),
      (l₁.set i a).zip (l₂.set i b) = (l₁.zip l₂).set i (a, b)
  | [], _, _ => by simp
  | _ :: _, [], _ => by simp
  | x :: xs, y :: ys, 0 => by simp
  | x :: xs, y :: ys, i + 1 => by simp [zip_set_set a b xs ys i]

theorem swapAt_length {α : Type} {v w : List α} {i j : Nat} (h : swapAt v i j = some w) :
    w.length = v.length := by
  unfold swapAt at h
  split at h
  · simp at h
    subst h
    simp
  · simp at h

theorem swapAt_of_lt {α : Type} (v : List α) (d : α) {i j : Nat} (hi : i < v.length)
    (hj : j < v.length) :
    swapAt v i j = some ((v.set i (v.getD j d)).set j (v.getD i d)) := by
  unfold swapAt
  rw [getElem?_getD_of_lt v d hi, getElem?_getD_of_lt v d hj]

theorem swapAt_zip {α β : Type} {v v' : List α} {b b' : List β} {i j : Nat}
    (hv : swapAt v i j = some v') (hb : swapAt b i j = some b') :
    swapAt (v.zip b) i j = some (v'.zip b') := by
  unfold swapAt at hv hb ⊢
  cases hvi : v[i]? with
  | none => simp [hvi] at hv
  | some vi =>
    cases hvj : v[j]? with
    | none => simp [hvi, hvj] at hv
    | some vj =>
      cases hbi : b[i]? with
      | none => simp [hbi] at hb
      | some bi =>
        cases hbj : b[j]? with
        | none => simp [hbi, hbj] at hb
        | some bj =>
          simp [hvi, hvj] at hv
          simp [hbi, hbj] at hb
          subst hv hb
          have hzi : (v.zip b)[i]? = some (vi, bi) :=
            List.getElem?_zip_eq_some.mpr ⟨hvi, hbi⟩
          have hzj : (v.zip b)[j]? = some (vj, bj) :=
            List.getElem?_zip_eq_some.mpr ⟨hvj, hbj⟩
          simp [hzi, hzj, zip_set_set]

theorem getD_set {α : Type} (l : List α) (i k : Nat) (a d : α) :
    (l.set i a).getD k d = if i = k ∧ i < l.length then a else l.getD k d := by
  simp only [List.getD_eq_getElem?_getD, List.getElem?_set]
  by_cases h1 : i = k
  · subst h1
    by_cases h2 : i < l.length
    · simp [h2]
    · have : l[i]? = none := List.getElem?_eq_none (by omega)
      simp [h2, this]
  · simp [h1]

/-! ## Sort -/

theorem readIn_of_mem {α : Type} (lo hi : Nat) (v : List α) (d : α) {i : Nat} (h1 : lo ≤ i)
    (h2 : i ≤ hi) (h3 : i < v.length) : readIn lo hi v i = some (v.getD i d) := by
  unfold readIn
  rw [if_pos ⟨h1, h2⟩, getElem?_getD_of_lt v d h3]

theorem readIn_some {α : Type} {lo hi : Nat} {v : List α} {i : Nat} {a : α}
    (h : readIn lo hi v i = some a) : v[i]? = some a := by
  unfold readIn at h
  split at h
  · exact h
  · simp at h

theorem swapIn_some {α : Type} {lo hi : Nat} {v w : List α} {i j : Nat}
    (h : swapIn lo hi v i j = some w) : swapAt v i j = some w := by
  unfold swapIn at h
  split at h
  · exact h
  · simp at h

theorem swapIn_of_mem {α : Type} (lo hi : Nat) (v : List α) (d : α) {i j : Nat}
    (hi1 : lo ≤ i) (hi2 : i ≤ hi) (hj1 : lo ≤ j) (hj2 : j ≤ hi) (hi3 : i < v.length)
    (hj3 : j < v.length) :
    swapIn lo hi v i j = some ((v.set i (v.getD j d)).set j (v.getD i d)) := by
  unfold swapIn
  rw [if_pos ⟨hi1, hi2, hj1, hj2⟩, swapAt_of_lt v d hi3 hj3]

theorem scanUpIn_erase (lo hi : Nat) (values : List Nat) (pivot : Nat) :
    ∀ (fuel i r : Nat), scanUpIn lo hi values pivot fuel i = Res.ok r →
      scanUp values pivot fuel i = Res.ok r := by
  intro fuel
  induction fuel with
  | zero => intro i r h; simp [scanUpIn] at h
  | succ f ih =>
    intro i r h
    unfold scanUpIn at h
    unfold scanUp
    dsimp only at h ⊢
    cases hr : readIn lo hi values (wadd i 1) with
    | none => simp [hr] at h
    | some v =>
      rw [readIn_some hr]
      simp only [hr] at h ⊢
      by_cases hlt : v < pivot
      · rw [if_pos hlt] at h ⊢
        exact ih _ _ h
      · rw [if_neg hlt] at h ⊢
        exact h

theorem scanDownIn_erase (lo hi : Nat) (values : List Nat) (pivot : Nat) :
    ∀ (fuel j r : Nat), scanDownIn lo hi values pivot fuel j = Res.ok r →
      scanDown values pivot fuel j = Res.ok r := by
  intro fuel
  induction fuel with
  | zero => intro j r h; simp [scanDownIn] at h
  | succ f ih =>
    intro j r h
    unfold scanDownIn at h
    unfold scanDown
    dsimp only at h ⊢
    cases hr : readIn lo hi values (wsub j 1) with
    | none => simp [hr] at h
    | some v =>
      rw [readIn_some hr]
      simp only [hr] at h ⊢
      by_cases hgt : v > pivot
      · rw [if_pos hgt] at h ⊢
        exact ih _ _ h
      · rw [if_neg hgt] at h ⊢
        exact h

theorem partitionLoopIn_erase (lo hi pivot : Nat) :
    ∀ (fuel : Nat) (values : List Nat) (boxes : List Box) (i j : Nat)
      (r : List Nat × List Box × Nat),
      partitionLoopIn lo hi pivot fuel values boxes i j = Res.ok r →
      partitionLoop pivot fuel values boxes i j = Res.ok r := by
  intro fuel
  induction fuel with
  | zero => intro values boxes i j r h; simp [partitionLoopIn] at h
  | succ f ih =>
    intro values boxes i j r h
    unfold partitionLoopIn at h
    unfold partitionLoop
    cases hu : scanUpIn lo hi values pivot f i with
    | fault => simp [hu] at h
    | outOfFuel => simp [hu] at h
    | ok i' =>
      rw [scanUpIn_erase lo hi values pivot f i i' hu]
      simp only [hu] at h ⊢
      cases hd : scanDownIn lo hi values pivot f j with
      | fault => simp [hd] at h
      | outOfFuel => simp [hd] at h
      | ok j' =>
        rw [scanDownIn_erase lo hi values pivot f j j' hd]
        simp only [hd] at h ⊢
        by_cases hge : i' ≥ j'
        · rw [if_pos hge] at h ⊢
          exact h
        · rw [if_neg hge] at h ⊢
          cases hsv : swapIn lo hi values i' j' with
          | none => simp [hsv] at h
          | some v2 =>
            cases hsb : swapIn lo hi boxes i' j' with
            | none => simp [hsv, hsb] at h
            | some b2 =>
              rw [swapIn_some hsv, swapIn_some hsb]
              simp only [hsv, hsb] at h ⊢
              exact ih _ _ _ _ _ h

theorem SortIn_erase :
    ∀ (fuel : Nat) (values : List Nat) (boxes : List Box) (left right : Nat)
      (r : List Nat × List Box),
      FlatBush.SortIn fuel values boxes left right = Res.ok r →
      FlatBush.Sort fuel values boxes left right = Res.ok r := by
  intro fuel
  induction fuel with
  | zero => intro values boxes left right r h; simp [FlatBush.SortIn] at h
  | succ f ih =>
    intro values boxes left right r h
    unfold FlatBush.SortIn at h
    unfold FlatBush.Sort
    by_cases hge : left ≥ right
    · rw [if_pos hge] at h ⊢
      exact h
    · rw [if_neg hge] at h ⊢
      cases hr : readIn left right values (wadd left right >>> 1) with
      | none => simp [hr] at h
      | some pivot =>
        rw [readIn_some hr]
        simp only [hr] at h ⊢
        cases hp : partitionLoopIn left right pivot f values boxes (wsub left 1)
            (wadd right 1) with
        | fault => simp [hp] at h
        | outOfFuel => simp [hp] at h
        | ok res =>
          obtain ⟨v1, b1, j⟩ := res
          rw [partitionLoopIn_erase _ _ _ _ _ _ _ _ _ hp]
          simp only [hp] at h ⊢
          cases hs : FlatBush.SortIn f v1 b1 left j with
          | fault => simp [hs] at h
          | outOfFuel => simp [hs] at h
          | ok res2 =>
            obtain ⟨v2, b2⟩ := res2
            rw [ih _ _ _ _ _ hs]
            simp only [hs] at h ⊢
            exact ih _ _ _ _ _ h

theorem getD_swap {α : Type} (v : List α) (d : α) {i j : Nat} (k : Nat) (hi : i < v.length)
    (hj : j < v.length) (hij : i ≠ j) :
    ((v.set i (v.getD j d)).set j (v.getD i d)).getD k d =
      if k = j then v.getD i d else if k = i then v.getD j d else v.getD k d := by
  rw [getD_set, getD_set]
  by_cases h1 : k = j
  · subst h1
    rw [if_pos ⟨rfl, by rw [List.length_set]; exact hj⟩, if_pos rfl]
  · rw [if_neg (fun h => h1 h.1.symm), if_neg h1]
    by_cases h2 : k = i
    · subst h2
      rw [if_pos ⟨rfl, hi⟩, if_pos rfl]
    · rw [if_neg (fun h => h2 h.1.symm), if_neg h2]

theorem scanUpIn_spec (lo hi : Nat) (values : List Nat) (pivot : Nat)
    (hlen : values.length < sizeMod) :
    ∀ (fuel i a u : Nat), wadd i 1 = a → lo ≤ a → a ≤ u → u ≤ hi → u < values.length →
      pivot ≤ values.getD u 0 → u - a < fuel →
      ∃ i', scanUpIn lo hi values pivot fuel i = Res.ok i' ∧ a ≤ i' ∧ i' ≤ u ∧
        pivot ≤ values.getD i' 0 ∧ ∀ k, a ≤ k → k < i' → values.getD k 0 < pivot := by
  intro fuel
  induction fuel with
  | zero => intro i a u _ _ _ _ _ _ h; omega
  | succ f ih =>
    intro i a u hia hlo hau huh hu hpu hf
    unfold scanUpIn
    simp only [hia]
    rw [readIn_of_mem lo hi values 0 hlo (by omega) (by omega : a < values.length)]
    simp only
    by_cases hlt : values.getD a 0 < pivot
    · simp only [hlt, if_true]
      have hne : a ≠ u := by
        intro h
        subst h
        omega
      have hstep : wadd a 1 = a + 1 := wadd_eq (by omega)
      obtain ⟨i', h1, h2, h3, h4, h5⟩ :=
        ih a (a + 1) u hstep (by omega) (by omega) huh hu hpu (by omega)
      refine ⟨i', h1, by omega, h3, h4, ?_⟩
      intro k hk1 hk2
      by_cases hka : k = a
      · subst hka
        exact hlt
      · exact h5 k (by omega) hk2
    · simp only [hlt, if_false]
      exact ⟨a, rfl, le_refl _, hau, by omega, fun k h1 h2 => by omega⟩

theorem scanDownIn_spec (lo hi : Nat) (values : List Nat) (pivot : Nat)
    (hlen : values.length < sizeMod) :
    ∀ (fuel j b d : Nat), wsub j 1 = b → lo ≤ d → d ≤ b → b ≤ hi → b < values.length →
      values.getD d 0 ≤ pivot → b - d < fuel →
      ∃ j', scanDownIn lo hi values pivot fuel j = Res.ok j' ∧ d ≤ j' ∧ j' ≤ b ∧
        values.getD j' 0 ≤ pivot ∧ ∀ k, j' < k → k ≤ b → pivot < values.getD k 0 := by
  intro fuel
  induction fuel with
  | zero => intro j b d _ _ _ _ _ _ h; omega
  | succ f ih =>
    intro j b d hjb hlo hdb hbh hb hpd hf
    unfold scanDownIn
    simp only [hjb]
    rw [readIn_of_mem lo hi values 0 (by omega) hbh hb]
    simp only
    by_cases hgt : values.getD b 0 > pivot
    · simp only [hgt, if_true]
      have hne : b ≠ d := by
        intro h
        subst h
        omega
      have hstep : wsub b 1 = b - 1 := wsub_eq (by omega) (by omega)
      obtain ⟨j', h1, h2, h3, h4, h5⟩ :=
        ih b (b - 1) d hstep hlo (by omega) (by omega) (by omega) hpd (by omega)
      refine ⟨j', h1, h2, by omega, h4, ?_⟩
      intro k hk1 hk2
      by_cases hkb : k = b
      · subst hkb
        exact hgt
      · exact h5 k hk1 (by omega)
    · simp only [hgt, if_false]
      exact ⟨b, rfl, hdb, le_refl _, by omega, fun k h1 h2 => by omega⟩

theorem partitionLoopIn_spec (pivot len left right : Nat) (hlen : len < sizeMod)
    (hright : right < len) :
    ∀ (fuel : Nat) (values : List Nat) (boxes : List Box) (i j a b u d : Nat),
      values.length = len → boxes.length = len →
      wadd i 1 = a → wsub j 1 = b →
      left ≤ a → a ≤ b + 1 → b ≤ right →
      a ≤ u → u ≤ b + 1 → u ≤ right → pivot ≤ values.getD u 0 →
      left ≤ d → a ≤ d + 1 → d ≤ b → values.getD d 0 ≤ pivot →
      (u < right ∨ b < right) →
      (∀ k, left ≤ k → k < a → values.getD k 0 ≤ pivot) →
      (∀ k, b < k → k ≤ right → pivot ≤ values.getD k 0) →
      b + 3 - a ≤ fuel →
      ∃ values' boxes' j', partitionLoopIn left right pivot fuel values boxes i j
          = Res.ok (values', boxes', j') ∧
        left ≤ j' ∧ j' < right ∧ values'.length = len ∧ boxes'.length = len ∧
        (values'.zip boxes').Perm (values.zip boxes) ∧
        (∀ k, k < left ∨ right < k →
          values'.getD k 0 = values.getD k 0 ∧
            boxes'.getD k InvertedBox = boxes.getD k InvertedBox) ∧
        (∀ P : Nat → Prop, (∀ k, left ≤ k → k ≤ right → P (values.getD k 0)) →
          ∀ k, left ≤ k → k ≤ right → P (values'.getD k 0)) ∧
        (∀ k, left ≤ k → k ≤ j' → values'.getD k 0 ≤ pivot) ∧
        (∀ k, j' < k → k ≤ right → pivot ≤ values'.getD k 0) := by
  intro fuel
  induction fuel with
  | zero => intro values boxes i j a b u d _ _ _ _ _ _ _ _ _ _ _ _ _ _ _ _ _ _ h; omega
  | succ f ih =>
    intro values boxes i j a b u d hvl hbl hia hjb hla hab hbr hau hub hur hpu hld had hdb hpd
      hor hlow hhigh hf
    have hvlen : values.length < sizeMod := by omega
    obtain ⟨i', hi1, hi2, hi3, hi4, hi5⟩ :=
      scanUpIn_spec left right values pivot hvlen f i a u hia hla hau hur (by omega) hpu
        (by omega)
    obtain ⟨j', hj1, hj2, hj3, hj4, hj5⟩ :=
      scanDownIn_spec left right values pivot hvlen f j b d hjb hld hdb hbr (by omega) hpd
        (by omega)
    unfold partitionLoopIn
    simp only [hi1, hj1]
    by_cases hge : i' ≥ j'
    · simp only [hge, if_true]
      refine ⟨values, boxes, j', rfl, by omega, ?_, hvl, hbl, List.Perm.refl _,
        fun k _ => ⟨rfl, rfl⟩, fun P hP => hP, ?_, ?_⟩
      · rcases hor with h | h <;> omega
      · intro k hk1 hk2
        by_cases hka : k < a
        · exact hlow k hk1 hka
        · by_cases hki : k < i'
          · exact le_of_lt (hi5 k (by omega) hki)
          · have : k = j' := by omega
            subst this
            exact hj4
      · intro k hk1 hk2
        by_cases hkb : b < k
        · exact hhigh k hkb hk2
        · exact le_of_lt (hj5 k hk1 (by omega))
    · simp only [hge, if_false]
      have hil : i' < values.length := by omega
      have hjl : j' < values.length := by omega
      have hij : i' ≠ j' := by omega
      have hsv := swapIn_of_mem left right values 0 (by omega : left ≤ i') (by omega)
        (by omega : left ≤ j') (by omega) hil hjl
      have hsb := swapIn_of_mem left right boxes InvertedBox (by omega : left ≤ i') (by omega)
        (by omega : left ≤ j') (by omega) (by omega : i' < boxes.length)
        (by omega : j' < boxes.length)
      simp only [hsv, hsb]
      have hperm := swapAt_perm _ _ _ _ (swapAt_zip (swapIn_some hsv) (swapIn_some hsb))
      have hw : ∀ k, ((values.set i' (values.getD j' 0)).set j' (values.getD i' 0)).getD k 0 =
          if k = j' then values.getD i' 0 else if k = i' then values.getD j' 0
          else values.getD k 0 := fun k => getD_swap values 0 k hil hjl hij
      have hwb : ∀ k, ((boxes.set i' (boxes.getD j' InvertedBox)).set j'
          (boxes.getD i' InvertedBox)).getD k InvertedBox =
          if k = j' then boxes.getD i' InvertedBox else if k = i' then boxes.getD j' InvertedBox
          else boxes.getD k InvertedBox :=
        fun k => getD_swap boxes InvertedBox k (by omega) (by omega) hij
      obtain ⟨v2, b2, j2, h1, h2, h3, h4, h5, h6, h7, h8, h9, h10⟩ :=
        ih ((values.set i' (values.getD j' 0)).set j' (values.getD i' 0))
          ((boxes.set i' (boxes.getD j' InvertedBox)).set j' (boxes.getD i' InvertedBox))
          i' j' (i' + 1) (j' - 1) j' i'
          (by simp [hvl]) (by simp [hbl])
          (wadd_eq (by omega)) (wsub_eq (by omega) (by omega))
          (by omega) (by omega) (by omega) (by omega) (by omega) (by omega)
          (by rw [hw, if_pos rfl]; exact hi4)
          (by omega) (by omega) (by omega)
          (by rw [hw, if_neg hij, if_pos rfl]; exact hj4)
          (Or.inr (by omega))
          (by
            intro k hk1 hk2
            rw [hw, if_neg (by omega)]
            by_cases hki : k = i'
            · rw [if_pos hki]
              exact hj4
            · rw [if_neg hki]
              by_cases hka : k < a
              · exact hlow k hk1 hka
              · exact le_of_lt (hi5 k (by omega) (by omega)))
          (by
            intro k hk1 hk2
            rw [hw]
            by_cases hkj : k = j'
            · rw [if_pos hkj]
              exact hi4
            · rw [if_neg hkj, if_neg (by omega)]
              by_cases hkb : b < k
              · exact hhigh k hkb hk2
              · exact le_of_lt (hj5 k (by omega) (by omega)))
          (by omega)
      refine ⟨v2, b2, j2, h1, h2, h3, h4, h5, h6.trans hperm, ?_, ?_, h9, h10⟩
      · intro k hk
        obtain ⟨e1, e2⟩ := h7 k hk
        rw [e1, e2, hw, hwb, if_neg (by omega), if_neg (by omega), if_neg (by omega),
          if_neg (by omega)]
        exact ⟨rfl, rfl⟩
      · intro P hP
        apply h8 P
        intro k hk1 hk2
        rw [hw]
        by_cases hkj : k = j'
        · rw [if_pos hkj]
          exact hP i' (by omega) (by omega)
        · rw [if_neg hkj]
          by_cases hki : k = i'
          · rw [if_pos hki]
            exact hP j' (by omega) (by omega)
          · rw [if_neg hki]
            exact hP k hk1 hk2

theorem SortIn_spec (len : Nat) (hlen : 2 * len < sizeMod) :
    ∀ (fuel : Nat) (values : List Nat) (boxes : List Box) (left right : Nat),
      values.length = len → boxes.length = len →
      (left < right → right < len) → right - left + 4 ≤ fuel →
      ∃ values' boxes', FlatBush.SortIn fuel values boxes left right
          = Res.ok (values', boxes') ∧
        values'.length = len ∧ boxes'.length = len ∧
        (values'.zip boxes').Perm (values.zip boxes) ∧
        (∀ k, k < left ∨ right < k →
          values'.getD k 0 = values.getD k 0 ∧
            boxes'.getD k InvertedBox = boxes.getD k InvertedBox) ∧
        (∀ P : Nat → Prop, (∀ k, left ≤ k → k ≤ right → P (values.getD k 0)) →
          ∀ k, left ≤ k → k ≤ right → P (values'.getD k 0)) ∧
        (∀ k₁ k₂, left ≤ k₁ → k₁ ≤ k₂ → k₂ ≤ right →
          values'.getD k₁ 0 ≤ values'.getD k₂ 0) := by
  intro fuel
  induction fuel with
  | zero => intro values boxes left right _ _ _ h; omega
  | succ f ih =>
    intro values boxes left right hvl hbl hr hf
    unfold FlatBush.SortIn
    by_cases hge : left ≥ right
    · simp only [hge, if_true]
      refine ⟨values, boxes, rfl, hvl, hbl, List.Perm.refl _, fun k _ => ⟨rfl, rfl⟩,
        fun P hP => hP, ?_⟩
      intro k₁ k₂ h1 h2 h3
      have : k₁ = k₂ := by omega
      subst this
      exact le_refl _
    · simp only [hge, if_false]
      have hrl : right < len := hr (by omega)
      have hmid : wadd left right >>> 1 = (left + right) / 2 := by
        rw [wadd_eq (by omega), Nat.shiftRight_eq_div_pow]
      rw [hmid, readIn_of_mem left right values 0 (by omega) (by omega)
        (by omega : (left + right) / 2 < values.length)]
      simp only
      obtain ⟨v1, b1, j, h1, h2, h3, h4, h5, h6, h7, h8, h9, h10⟩ :=
        partitionLoopIn_spec (values.getD ((left + right) / 2) 0) len left right (by omega) hrl f
          values boxes (wsub left 1) (wadd right 1) left right ((left + right) / 2)
          ((left + right) / 2) hvl hbl (wadd_wsub_one (by omega)) (wsub_wadd_one (by omega))
          (le_refl _) (by omega) (le_refl _) (by omega) (by omega) (by omega) (le_refl _)
          (by omega) (by omega) (by omega) (le_refl _) (Or.inl (by omega))
          (fun k h1 h2 => by omega) (fun k h1 h2 => by omega) (by omega)
      simp only [h1]
      obtain ⟨v2, b2, g1, g2, g3, g4, g5, g6, g7⟩ := ih v1 b1 left j h4 h5 (by omega) (by omega)
      simp only [g1]
      have hj1 : wadd j 1 = j + 1 := wadd_eq (by omega)
      obtain ⟨v3, b3, k1, k2, k3, k4, k5, k6, k7⟩ :=
        ih v2 b2 (wadd j 1) right g2 g3 (fun _ => hrl) (by rw [hj1]; omega)
      rw [hj1] at k5 k6 k7
      refine ⟨v3, b3, k1, k2, k3, k4.trans (g4.trans h6), ?_, ?_, ?_⟩
      · intro k hk
        obtain ⟨e1, e2⟩ := k5 k (by omega)
        obtain ⟨e3, e4⟩ := g5 k (by omega)
        obtain ⟨e5, e6⟩ := h7 k hk
        exact ⟨by rw [e1, e3, e5], by rw [e2, e4, e6]⟩
      · intro P hP k hk1 hk2
        have hP1 := h8 P hP
        have hP2 : ∀ k, left ≤ k → k ≤ right → P (v2.getD k 0) := by
          intro k hk1 hk2
          by_cases hkj : k ≤ j
          · exact g6 P (fun k' h1 h2 => hP1 k' h1 (by omega)) k hk1 hkj
          · rw [(g5 k (by omega)).1]
            exact hP1 k hk1 hk2
        by_cases hkj : k ≤ j
        · rw [(k5 k (by omega)).1]
          exact hP2 k hk1 hk2
        · exact k6 P (fun k' h1 h2 => hP2 k' (by omega) h2) k (by omega) hk2
      · intro k₁ k₂ hk1 hk12 hk2
        by_cases hc1 : k₂ ≤ j
        · rw [(k5 k₁ (by omega)).1, (k5 k₂ (by omega)).1]
          exact g7 k₁ k₂ hk1 hk12 hc1
        · by_cases hc2 : j < k₁
          · exact k7 k₁ k₂ (by omega) hk12 hk2
          · have hlo : v3.getD k₁ 0 ≤ values.getD ((left + right) / 2) 0 := by
              rw [(k5 k₁ (by omega)).1]
              exact g6 (fun x => x ≤ values.getD ((left + right) / 2) 0) h9 k₁ hk1 (by omega)
            have hhi : values.getD ((left + right) / 2) 0 ≤ v3.getD k₂ 0 := by
              apply k6 (fun x => values.getD ((left + right) / 2) 0 ≤ x) _ k₂ (by omega) hk2
              intro k' h1 h2
              rw [(g5 k' (by omega)).1]
              exact h10 k' (by omega) h2
            exact le_trans hlo hhi

theorem Sort_spec (len : Nat) (hlen : 2 * len < sizeMod) (fuel : Nat) (values : List Nat)
    (boxes : List Box) (left right : Nat) (hvl : values.length = len)
    (hbl : boxes.length = len) (hr : left < right → right < len)
    (hfuel : right - left + 4 ≤ fuel) :
    ∃ values' boxes', FlatBush.Sort fuel values boxes left right = Res.ok (values', boxes') ∧
      values'.length = len ∧ boxes'.length = len ∧
      (values'.zip boxes').Perm (values.zip boxes) := by
  obtain ⟨v', b', h1, h2, h3, h4, _⟩ :=
    SortIn_spec len hlen fuel values boxes left right hvl hbl hr hfuel
  exact ⟨v', b', SortIn_erase _ _ _ _ _ _ h1, h2, h3, h4⟩

/-! ## Coordinates -/

theorem coord_isNum_iff {a : TCoord} : a.IsNum ↔ ∃ q, a = TCoord.num q := by
  cases a with
  | num q => exact ⟨fun _ => ⟨q, rfl⟩, fun _ h => TCoord.noConfusion h⟩
  | nan => exact ⟨fun h => absurd rfl h, fun ⟨_, h⟩ => TCoord.noConfusion h⟩

theorem coord_num_isNum (q : ℚ) : (TCoord.num q).IsNum := fun h => TCoord.noConfusion h

theorem coord_num_le {p q : ℚ} : TCoord.num p ≤ TCoord.num q ↔ p ≤ q := Iff.rfl

theorem coord_num_lt {p q : ℚ} : TCoord.num p < TCoord.num q ↔ p < q := Iff.rfl

theorem coord_not_nan_le (a : TCoord) : ¬ TCoord.nan ≤ a := fun h => h

theorem coord_not_le_nan (a : TCoord) : ¬ a ≤ TCoord.nan := by
  cases a <;> exact fun h => h

theorem coord_not_nan_lt (a : TCoord) : ¬ TCoord.nan < a := fun h => h

theorem coord_not_lt_nan (a : TCoord) : ¬ a < TCoord.nan := by
  cases a <;> exact fun h => h

theorem coord_le_isNum {a b : TCoord} (h : a ≤ b) : a.IsNum ∧ b.IsNum := by
  cases a with
  | nan => exact absurd h (coord_not_nan_le _)
  | num p =>
    cases b with
    | nan => exact absurd h (coord_not_le_nan _)
    | num q => exact ⟨coord_num_isNum p, coord_num_isNum q⟩

theorem coord_le_refl {a : TCoord} (ha : a.IsNum) : a ≤ a := by
  obtain ⟨p, rfl⟩ := coord_isNum_iff.1 ha
  exact coord_num_le.2 (le_refl p)

theorem coord_le_trans {a b c : TCoord} (h₁ : a ≤ b) (h₂ : b ≤ c) : a ≤ c := by
  obtain ⟨p, rfl⟩ := coord_isNum_iff.1 (coord_le_isNum h₁).1
  obtain ⟨q, rfl⟩ := coord_isNum_iff.1 (coord_le_isNum h₁).2
  obtain ⟨r, rfl⟩ := coord_isNum_iff.1 (coord_le_isNum h₂).2
  exact coord_num_le.2 (le_trans (coord_num_le.1 h₁) (coord_num_le.1 h₂))

theorem coord_min_num (p q : ℚ) : min (TCoord.num p) (TCoord.num q) = TCoord.num (min p q) := by
  show (if TCoord.num q < TCoord.num p then TCoord.num q else TCoord.num p) = _
  by_cases h : q < p
  · rw [if_pos (coord_num_lt.2 h), min_eq_right (le_of_lt h)]
  · rw [if_neg (fun h' => h (coord_num_lt.1 h')), min_eq_left (not_lt.1 h)]

theorem coord_max_num (p q : ℚ) : max (TCoord.num p) (TCoord.num q) = TCoord.num (max p q) := by
  show (if TCoord.num p < TCoord.num q then TCoord.num q else TCoord.num p) = _
  by_cases h : p < q
  · rw [if_pos (coord_num_lt.2 h), max_eq_right (le_of_lt h)]
  · rw [if_neg (fun h' => h (coord_num_lt.1 h')), max_eq_left (not_lt.1 h)]

theorem coord_not_lt_iff {a b : TCoord} (ha : a.IsNum) (hb : b.IsNum) : ¬ a < b ↔ b ≤ a := by
  obtain ⟨p, rfl⟩ := coord_isNum_iff.1 ha
  obtain ⟨q, rfl⟩ := coord_isNum_iff.1 hb
  rw [coord_num_lt, coord_num_le]
  exact not_lt

theorem coord_not_lt_of_le {a b : TCoord} (h : b ≤ a) : ¬ a < b :=
  (coord_not_lt_iff (coord_le_isNum h).2 (coord_le_isNum h).1).2 h

theorem coord_lt_of_lt_of_le {m a b : TCoord} (h₁ : m < a) (h₂ : a ≤ b) : m < b := by
  obtain ⟨p, rfl⟩ := coord_isNum_iff.1 (coord_le_isNum h₂).1
  obtain ⟨q, rfl⟩ := coord_isNum_iff.1 (coord_le_isNum h₂).2
  cases m with
  | nan => exact absurd h₁ (coord_not_nan_lt _)
  | num r => exact coord_num_lt.2 (lt_of_lt_of_le (coord_num_lt.1 h₁) (coord_num_le.1 h₂))

theorem coord_lt_of_le_of_lt {m a b : TCoord} (h₁ : b ≤ a) (h₂ : a < m) : b < m := by
  obtain ⟨p, rfl⟩ := coord_isNum_iff.1 (coord_le_isNum h₁).1
  obtain ⟨q, rfl⟩ := coord_isNum_iff.1 (coord_le_isNum h₁).2
  cases m with
  | nan => exact absurd h₂ (coord_not_lt_nan _)
  | num r => exact coord_num_lt.2 (lt_of_le_of_lt (coord_num_le.1 h₁) (coord_num_lt.1 h₂))

/-! ## Building one level -/

theorem Box.Contains.refl (a : Box) (ha : a.Numeric) : a.Contains a :=
  ⟨coord_le_refl ha.1, coord_le_refl ha.2.1, coord_le_refl ha.2.2.1, coord_le_refl ha.2.2.2⟩

theorem Box.Contains.trans {a b c : Box} (h₁ : a.Contains b) (h₂ : b.Contains c) :
    a.Contains c :=
  ⟨coord_le_trans h₁.1 h₂.1, coord_le_trans h₁.2.1 h₂.2.1, coord_le_trans h₂.2.2.1 h₁.2.2.1,
    coord_le_trans h₂.2.2.2 h₁.2.2.2⟩

theorem extendBox_spec (nb b : Box) (hnb : nb.Numeric) (hb : b.Numeric) :
    (extendBox nb b).Contains nb ∧ (extendBox nb b).Contains b ∧ (extendBox nb b).Numeric := by
  obtain ⟨n1, n2, n3, n4⟩ := hnb
  obtain ⟨b1, b2, b3, b4⟩ := hb
  obtain ⟨p1, e1⟩ := coord_isNum_iff.1 n1
  obtain ⟨p2, e2⟩ := coord_isNum_iff.1 n2
  obtain ⟨p3, e3⟩ := coord_isNum_iff.1 n3
  obtain ⟨p4, e4⟩ := coord_isNum_iff.1 n4
  obtain ⟨q1, f1⟩ := coord_isNum_iff.1 b1
  obtain ⟨q2, f2⟩ := coord_isNum_iff.1 b2
  obtain ⟨q3, f3⟩ := coord_isNum_iff.1 b3
  obtain ⟨q4, f4⟩ := coord_isNum_iff.1 b4
  unfold Box.Contains Box.Numeric extendBox
  simp only [e1, e2, e3, e4, f1, f2, f3, f4, coord_min_num, coord_max_num, coord_num_le]
  exact ⟨⟨min_le_left _ _, min_le_left _ _, le_max_left _ _, le_max_left _ _⟩,
    ⟨min_le_right _ _, min_le_right _ _, le_max_right _ _, le_max_right _ _⟩,
    ⟨coord_num_isNum _, coord_num_isNum _, coord_num_isNum _, coord_num_isNum _⟩⟩

theorem extendBox_contains_left (nb b : Box) (hnb : nb.Numeric) (hb : b.Numeric) :
    (extendBox nb b).Contains nb := (extendBox_spec nb b hnb hb).1

theorem extendBox_contains_right (nb b : Box) (hnb : nb.Numeric) (hb : b.Numeric) :
    (extendBox nb b).Contains b := (extendBox_spec nb b hnb hb).2.1

theorem extendBox_numeric (nb b : Box) (hnb : nb.Numeric) (hb : b.Numeric) :
    (extendBox nb b).Numeric := (extendBox_spec nb b hnb hb).2.2

theorem InvertedBox_numeric : InvertedBox.Numeric :=
  ⟨coord_num_isNum _, coord_num_isNum _, coord_num_isNum _, coord_num_isNum _⟩

theorem foldRun_spec (cur : List Box) (stop : Nat) (hstop : stop ≤ cur.length)
    (hlen : stop < sizeMod) (hnum : ∀ p, p < stop → (boxAt cur p).Numeric) :
    ∀ (k pos : Nat) (nb : Box), pos ≤ stop → nb.Numeric →
      ∃ nb', foldRun cur stop k pos nb = Res.ok (nb', min (pos + k) stop) ∧
        nb'.Index = nb.Index ∧ nb'.Contains nb ∧ nb'.Numeric ∧
        ∀ p, pos ≤ p → p < min (pos + k) stop → nb'.Contains (boxAt cur p) := by
  intro k
  induction k with
  | zero =>
    intro pos nb hpos hnb
    refine ⟨nb, ?_, rfl, Box.Contains.refl _ hnb, hnb, ?_⟩
    · simp [foldRun, Nat.min_eq_left hpos]
    · intro p h1 h2
      rw [Nat.add_zero, Nat.min_eq_left hpos] at h2
      omega
  | succ k ih =>
    intro pos nb hpos hnb
    unfold foldRun
    by_cases hlt : pos < stop
    · simp only [hlt, if_true]
      rw [getElem?_getD_of_lt cur InvertedBox (by omega : pos < cur.length)]
      simp only
      rw [wadd_eq (by omega)]
      have hbox : (cur.getD pos InvertedBox).Numeric := hnum pos hlt
      obtain ⟨nb', h1, h2, h3, h3n, h4⟩ := ih (pos + 1)
        (extendBox nb (cur.getD pos InvertedBox)) (by omega) (extendBox_numeric _ _ hnb hbox)
      refine ⟨nb', ?_, ?_, h3.trans (extendBox_contains_left _ _ hnb hbox), h3n, ?_⟩
      · rw [h1, show pos + 1 + k = pos + (k + 1) by omega]
      · rw [h2]
        rfl
      · intro p hp1 hp2
        by_cases hpp : p = pos
        · subst hpp
          exact h3.trans (extendBox_contains_right _ _ hnb hbox)
        · exact h4 p (by omega) (by rw [show pos + 1 + k = pos + (k + 1) by omega]; exact hp2)
    · simp only [hlt, if_false]
      have : stop = pos := by omega
      subst this
      refine ⟨nb, ?_, rfl, Box.Contains.refl _ hnb, hnb, ?_⟩
      · rw [Nat.min_eq_right (by omega)]
      · intro p h1 h2
        rw [Nat.min_eq_right (by omega)] at h2
        omega

theorem ceilDiv_small {r ns : Nat} (h1 : 1 ≤ r) (h2 : r ≤ ns) : (r + ns - 1) / ns = 1 :=
  Nat.div_eq_of_lt_le (by omega) (by omega)

theorem ceilDiv_step {r ns : Nat} (hns : 1 ≤ ns) (h : ns ≤ r) :
    (r + ns - 1) / ns = (r - ns + ns - 1) / ns + 1 := by
  rw [show r + ns - 1 = (r - ns + ns - 1) + ns by omega, Nat.add_div_right _ (by omega)]

theorem div_eq_zero_lt {c ns : Nat} (hns : 1 ≤ ns) (h : c / ns = 0) : c < ns := by
  rcases Nat.lt_or_ge c ns with h1 | h1
  · exact h1
  · have := Nat.div_pos h1 (by omega)
    omega

theorem div_eq_succ {c ns t : Nat} (hns : 1 ≤ ns) (h : c / ns = t + 1) :
    ns ≤ c ∧ (c - ns) / ns = t := by
  have h1 : ns ≤ c := by
    rcases Nat.lt_or_ge c ns with h1 | h1
    · rw [Nat.div_eq_of_lt h1] at h
      omega
    · exact h1
  refine ⟨h1, ?_⟩
  have h2 : c = (c - ns) + ns := by omega
  rw [h2, Nat.add_div_right _ (by omega)] at h
  omega

theorem buildLevel_spec (ns stop : Nat) (hns : 1 ≤ ns) :
    ∀ (fuel : Nat) (cur : List Box) (pos : Nat),
      stop ≤ cur.length → stop < sizeMod → pos ≤ stop → stop - pos < fuel →
      (∀ p, p < stop → (boxAt cur p).Numeric) →
      ∃ nodes, buildLevel ns stop fuel cur pos = Res.ok (cur ++ nodes, stop) ∧
        nodes.length = (stop - pos + ns - 1) / ns ∧
        ∀ t, t < nodes.length →
          (boxAt nodes t).Index = pos + t * ns ∧ (boxAt nodes t).Numeric ∧
          ∀ c, c / ns = t → pos + c < stop → (boxAt nodes t).Contains (boxAt cur (pos + c)) := by
  intro fuel
  induction fuel with
  | zero => intro cur pos _ _ _ h; omega
  | succ f ih =>
    intro cur pos hstop hlen hpos hf hnum
    unfold buildLevel
    by_cases hlt : pos < stop
    · simp only [hlt, if_true]
      obtain ⟨nb, h1, h2, h3, h3n, h4⟩ := foldRun_spec cur stop hstop hlen hnum ns pos
        { InvertedBox with Index := pos } (le_of_lt hlt) InvertedBox_numeric
      simp only [h1]
      have h2' : nb.Index = pos := h2
      have hmin : (min (pos + ns) stop = pos + ns ∧ pos + ns ≤ stop) ∨
          (min (pos + ns) stop = stop ∧ stop < pos + ns) := by
        rcases Nat.lt_or_ge stop (pos + ns) with h | h
        · exact Or.inr ⟨Nat.min_eq_right (le_of_lt h), h⟩
        · exact Or.inl ⟨Nat.min_eq_left h, h⟩
      generalize min (pos + ns) stop = pos' at h1 h4 hmin
      obtain ⟨nodes, g1, g2, g3⟩ := ih (cur ++ [nb]) pos'
        (by simp; omega) hlen (by omega) (by omega) (by
          intro p hp
          have := hnum p hp
          unfold boxAt at this ⊢
          rw [List.getD_append _ _ _ _ (by omega)]
          exact this)
      refine ⟨nb :: nodes, ?_, ?_, ?_⟩
      · rw [g1]
        simp
      · rw [List.length_cons, g2]
        rcases hmin with ⟨he, hcase⟩ | ⟨he, hcase⟩
        · subst he
          rw [ceilDiv_step hns (by omega : ns ≤ stop - pos)]
          rw [show stop - (pos + ns) = stop - pos - ns by omega]
        · subst he
          rw [ceilDiv_small (by omega : 1 ≤ pos' - pos) (by omega)]
          rw [show pos' - pos' + ns - 1 = ns - 1 by omega, Nat.div_eq_of_lt (by omega)]
      · intro t ht
        cases t with
        | zero =>
          refine ⟨?_, h3n, ?_⟩
          · simp [boxAt, h2']
          · intro c hc hcs
            have hcl := div_eq_zero_lt hns hc
            simp only [boxAt, List.getD_cons_zero]
            exact h4 (pos + c) (by omega) (by omega)
        | succ t =>
          have ht' : t < nodes.length := by simpa using ht
          obtain ⟨k1, k1n, k2⟩ := g3 t ht'
          have hfull : pos' = pos + ns := by
            rcases hmin with ⟨he, _⟩ | ⟨he, _⟩
            · exact he
            · subst he
              rw [show pos' - pos' + ns - 1 = ns - 1 by omega, Nat.div_eq_of_lt (by omega)] at g2
              omega
          subst hfull
          refine ⟨?_, k1n, ?_⟩
          · simp only [boxAt, List.getD_cons_succ] at k1 ⊢
            rw [k1, Nat.succ_mul]
            omega
          · intro c hc hcs
            obtain ⟨hc1, hc2⟩ := div_eq_succ hns hc
            have := k2 (c - ns) hc2 (by omega)
            simp only [boxAt, List.getD_cons_succ] at this ⊢
            rw [show pos + ns + (c - ns) = pos + c by omega] at this
            rw [List.getD_append _ _ _ _ (by omega)] at this
            exact this
    · simp only [hlt, if_false]
      have hps : pos = stop := by omega
      subst hps
      refine ⟨[], by simp, ?_, ?_⟩
      · rw [show pos - pos + ns - 1 = ns - 1 by omega, Nat.div_eq_of_lt (by omega)]
        rfl
      · intro t ht
        simp at ht

/-! ## The level table -/

theorem lvlEnd_append_left (lb ext : List Nat) {k : Nat} (h : k < lb.length) :
    lvlEnd (lb ++ ext) k = lvlEnd lb k := by
  unfold lvlEnd
  exact List.getD_append _ _ _ _ h

theorem lvlBase_append_left (lb ext : List Nat) {k : Nat} (h : k ≤ lb.length) :
    lvlBase (lb ++ ext) k = lvlBase lb k := by
  unfold lvlBase
  by_cases hk : k = 0
  · simp [hk]
  · simp only [hk, if_false]
    exact List.getD_append _ _ _ _ (by omega)

theorem lvlSize_append_left (lb ext : List Nat) {k : Nat} (h : k < lb.length) :
    lvlSize (lb ++ ext) k = lvlSize lb k := by
  unfold lvlSize
  rw [lvlEnd_append_left lb ext h, lvlBase_append_left lb ext (le_of_lt h)]

theorem lvlBase_succ (lb : List Nat) (k : Nat) : lvlBase lb (k + 1) = lvlEnd lb k := by
  simp [lvlBase, lvlEnd]

theorem lvlEnd_append_last (lb : List Nat) (x : Nat) : lvlEnd (lb ++ [x]) lb.length = x := by
  unfold lvlEnd
  rw [List.getD_append_right _ _ _ _ (le_refl _)]
  simp

theorem LevelsOK.size_succ {ns N : Nat} {lb : List Nat} (h : LevelsOK ns N lb) {k : Nat}
    (hk : k + 1 < lb.length) : lvlSize lb (k + 1) = (lvlSize lb k + ns - 1) / ns := by
  have e : lvlSize lb (k + 1) = lvlEnd lb (k + 1) - lvlEnd lb k := by
    unfold lvlSize
    rw [lvlBase_succ]
  rw [e, h.step k hk, Nat.add_sub_cancel_left]

theorem LevelsOK.end_le_succ {ns N : Nat} {lb : List Nat} (h : LevelsOK ns N lb) {k : Nat}
    (hk : k + 1 < lb.length) : lvlEnd lb k ≤ lvlEnd lb (k + 1) := by
  rw [h.step k hk]
  exact Nat.le_add_right _ _

theorem LevelsOK.base_le_end {ns N : Nat} {lb : List Nat} (h : LevelsOK ns N lb) {k : Nat}
    (hk : k < lb.length) : lvlBase lb k ≤ lvlEnd lb k := by
  cases k with
  | zero => simp [lvlBase]
  | succ k =>
    rw [lvlBase_succ]
    exact h.end_le_succ hk

theorem LevelsOK.end_eq {ns N : Nat} {lb : List Nat} (h : LevelsOK ns N lb) {k : Nat}
    (hk : k < lb.length) : lvlEnd lb k = lvlBase lb k + lvlSize lb k := by
  have := h.base_le_end hk
  unfold lvlSize
  omega

theorem ceilDiv_pos {n ns : Nat} (hn : 1 ≤ n) (hns : 1 ≤ ns) : 1 ≤ (n + ns - 1) / ns :=
  Nat.div_pos (by omega) (by omega)

theorem ceilDiv_le_half {n ns : Nat} (hns : 2 ≤ ns) : 2 * ((n + ns - 1) / ns) ≤ n + 1 := by
  have h := Nat.div_mul_le_self (n + ns - 1) ns
  generalize (n + ns - 1) / ns = q at h
  cases q with
  | zero => omega
  | succ q =>
    rw [Nat.succ_mul] at h
    have h2 : q * 2 ≤ q * ns := Nat.mul_le_mul_left q hns
    omega

theorem ceilDiv_le_self {n ns : Nat} (hn : 1 ≤ n) (hns : 1 ≤ ns) : (n + ns - 1) / ns ≤ n := by
  have h := Nat.div_mul_le_self (n + ns - 1) ns
  generalize (n + ns - 1) / ns = q at h
  cases q with
  | zero => omega
  | succ q =>
    rw [Nat.succ_mul] at h
    have h2 : q * 1 ≤ q * ns := Nat.mul_le_mul_left q hns
    omega

theorem LevelsOK.size_bounds {ns N : Nat} {lb : List Nat} (h : LevelsOK ns N lb)
    (hns : 1 ≤ ns) (hN : 1 ≤ N) :
    ∀ k, k < lb.length → 1 ≤ lvlSize lb k ∧ lvlSize lb k ≤ N
  | 0, _ => by
    have : lvlSize lb 0 = N := by
      unfold lvlSize
      rw [h.first]
      simp [lvlBase]
    omega
  | k + 1, hk => by
    have ih := LevelsOK.size_bounds h hns hN k (by omega)
    rw [h.size_succ hk]
    exact ⟨ceilDiv_pos ih.1 hns, le_trans (ceilDiv_le_self ih.1 hns) ih.2⟩

theorem LevelsOK.snoc {ns N : Nat} {lb : List Nat} (h : LevelsOK ns N lb) (x : Nat)
    (hx : x = lvlEnd lb (lb.length - 1) + (lvlSize lb (lb.length - 1) + ns - 1) / ns) :
    LevelsOK ns N (lb ++ [x]) := by
  have hlen := h.len
  refine ⟨by simp, ?_, ?_⟩
  · rw [lvlEnd_append_left lb [x] (by omega)]
    exact h.first
  · intro k hk
    simp only [List.length_append, List.length_singleton] at hk
    by_cases hlast : k + 1 < lb.length
    · rw [lvlEnd_append_left lb [x] hlast, lvlEnd_append_left lb [x] (by omega),
        lvlSize_append_left lb [x] (by omega)]
      exact h.step k hlast
    · have hk' : k + 1 = lb.length := by omega
      rw [hk', lvlEnd_append_last, lvlEnd_append_left lb [x] (by omega),
        lvlSize_append_left lb [x] (by omega), hx]
      have : lb.length - 1 = k := by omega
      rw [this]

theorem levelLoop_spec (ns N B : Nat) (hns : 2 ≤ ns) (hB : B + ns ≤ sizeMod) :
    ∀ (fuel n numNodes : Nat) (lb : List Nat),
      LevelsOK ns N lb → lvlSize lb (lb.length - 1) = n → lvlEnd lb (lb.length - 1) = numNodes →
      lb.length ≤ numNodes → 1 ≤ n → numNodes + 2 * n ≤ B → n ≤ fuel →
      ∃ lb', levelLoop ns fuel n numNodes lb = Res.ok lb' ∧ LevelsOK ns N lb' ∧
        lb.length < lb'.length ∧ lvlSize lb' (lb'.length - 1) = 1 ∧
        lvlEnd lb' (lb'.length - 1) + 1 ≤ B ∧ lb'.length ≤ lvlEnd lb' (lb'.length - 1) ∧
        lb'.length ≤ lb.length + n := by
  intro fuel
  induction fuel with
  | zero => intro n numNodes lb _ _ _ _ h1 _ h2; omega
  | succ f ih =>
    intro n numNodes lb hlv hsz hend hlen hn hb hf
    unfold levelLoop
    have hns0 : ¬ ns = 0 := by omega
    simp only [hns0, if_false]
    have h1 : wsub (wadd n ns) 1 = n + ns - 1 := by
      rw [wadd_eq (by omega), wsub_eq (by omega) (by omega)]
    rw [h1]
    have hq1 := ceilDiv_pos hn (by omega : 1 ≤ ns)
    have hq2 := ceilDiv_le_half (n := n) hns
    generalize hq : (n + ns - 1) / ns = q at hq1 hq2
    have h2 : wadd numNodes q = numNodes + q := wadd_eq (by omega)
    rw [h2]
    have hlv' : LevelsOK ns N (lb ++ [numNodes + q]) :=
      hlv.snoc (numNodes + q) (by rw [hend, hsz, hq])
    have hlast : (lb ++ [numNodes + q]).length - 1 = lb.length := by simp
    have hend' : lvlEnd (lb ++ [numNodes + q]) ((lb ++ [numNodes + q]).length - 1)
        = numNodes + q := by
      rw [hlast, lvlEnd_append_last]
    have hsz' : lvlSize (lb ++ [numNodes + q]) ((lb ++ [numNodes + q]).length - 1) = q := by
      have hl := hlv.len
      rw [hlast]
      unfold lvlSize
      rw [lvlEnd_append_last]
      have : lvlBase (lb ++ [numNodes + q]) lb.length = numNodes := by
        have e : lb.length = (lb.length - 1) + 1 := by omega
        rw [e, lvlBase_succ, lvlEnd_append_left lb _ (by omega), hend]
      rw [this]
      omega
    by_cases hone : q ≠ 1
    · rw [if_pos hone]
      obtain ⟨lb', g1, g2, g3, g4, g5, g6, g7⟩ := ih q (numNodes + q) (lb ++ [numNodes + q])
        hlv' hsz' hend' (by simp; omega) hq1 (by omega) (by omega)
      simp only [List.length_append, List.length_singleton] at g3 g7
      exact ⟨lb', g1, g2, by omega, g4, g5, g6, by omega⟩
    · rw [if_neg hone]
      have hq1' : q = 1 := by omega
      refine ⟨lb ++ [numNodes + q], rfl, hlv', by simp, ?_, ?_, ?_, ?_⟩
      · rw [hsz', hq1']
      · rw [hend']
        omega
      · rw [hend']
        simp
        omega
      · simp
        omega

theorem NodeOK.append {ns : Nat} {lb : List Nat} {boxes : List Box} {k t : Nat}
    (h : NodeOK ns lb boxes k t) (hk : lvlBase lb k ≤ lvlEnd lb k) (more : List Box) :
    NodeOK ns lb (boxes ++ more) k t := by
  obtain ⟨h1, h2, h3⟩ := h
  have e1 : boxAt (boxes ++ more) (lvlEnd lb k + t) = boxAt boxes (lvlEnd lb k + t) :=
    List.getD_append _ _ _ _ h1
  refine ⟨by simp; omega, ?_, ?_⟩
  · rw [e1]
    exact h2
  · intro c hc hcs
    have e2 : boxAt (boxes ++ more) (lvlBase lb k + c) = boxAt boxes (lvlBase lb k + c) :=
      List.getD_append _ _ _ _ (by unfold lvlSize at hcs; omega)
    rw [e1, e2]
    exact h3 c hc hcs

theorem LevelsOK.end_le_last {ns N : Nat} {lb : List Nat} (h : LevelsOK ns N lb) {k : Nat}
    (hk : k < lb.length) : lvlEnd lb k ≤ lvlEnd lb (lb.length - 1) := by
  have key : ∀ d, k + d < lb.length → lvlEnd lb k ≤ lvlEnd lb (k + d) := by
    intro d
    induction d with
    | zero => intro _; exact le_refl _
    | succ d ihd =>
      intro hd
      have h1 := ihd (by omega)
      have h2 := h.end_le_succ (k := k + d) (by omega)
      rw [show k + (d + 1) = k + d + 1 by omega]
      omega
  have := key (lb.length - 1 - k) (by omega)
  rw [show k + (lb.length - 1 - k) = lb.length - 1 by omega] at this
  exact this

theorem buildLevels_spec (ns N : Nat) (lb : List Nat) (leaves : List Box)
    (hlv : LevelsOK ns N lb) (hns : 2 ≤ ns) (hN : 1 ≤ N)
    (hroom : lvlEnd lb (lb.length - 1) < sizeMod) (hlb : lb.length < sizeMod) :
    ∀ (fuel i : Nat) (boxes : List Box) (pos : Nat),
      i + 1 ≤ lb.length → (lb.length - 1 - i) + N + 2 ≤ fuel →
      boxes.length = lvlEnd lb i → pos = lvlBase lb i →
      N ≤ boxes.length → boxes.take N = leaves →
      (∀ k t, k < i → t < lvlSize lb (k + 1) → NodeOK ns lb boxes k t) →
      (∀ p, p < boxes.length → (boxAt boxes p).Numeric) →
      ∃ boxes', buildLevels ns lb fuel i boxes pos = Res.ok boxes' ∧
        boxes'.length = lvlEnd lb (lb.length - 1) ∧ boxes'.take N = leaves ∧
        (∀ k t, k + 1 < lb.length → t < lvlSize lb (k + 1) → NodeOK ns lb boxes' k t) ∧
        ∀ p, p < boxes'.length → (boxAt boxes' p).Numeric := by
  have hsub : wsub lb.length 1 = lb.length - 1 := wsub_eq hlv.len hlb
  intro fuel
  induction fuel with
  | zero => intro i boxes pos _ h; omega
  | succ fuel ih =>
    intro i boxes pos hi hfuel hlen hpos hNle htake hnodes hnum
    unfold buildLevels
    rw [hsub]
    by_cases hlast : i < lb.length - 1
    · rw [if_pos hlast]
      have hil : i < lb.length := by omega
      have hget : lb[i]? = some (lvlEnd lb i) := getElem?_getD_of_lt lb 0 hil
      rw [hget]
      simp only
      have hsz := hlv.size_bounds (by omega) hN i hil
      have hee := hlv.end_eq hil
      have hmono := hlv.end_le_last hil
      obtain ⟨nodes, h1, h2, h3⟩ := buildLevel_spec ns (lvlEnd lb i) (by omega) fuel boxes pos
        (by omega) (by omega) (by omega) (by omega) (fun p hp => hnum p (by omega))
      rw [h1]
      simp only
      rw [wadd_eq (by omega)]
      have hi1 : i + 1 < lb.length := by omega
      have hnl : nodes.length = lvlSize lb (i + 1) := by
        rw [h2, hlv.size_succ hi1]
        congr 2
        omega
      obtain ⟨boxes', g1, g2, g3, g4, g5⟩ := ih (i + 1) (boxes ++ nodes) (lvlEnd lb i)
        (by omega) (by omega)
        (by
          rw [List.length_append, hlen, hnl, hlv.end_eq hi1, lvlBase_succ])
        (by rw [lvlBase_succ])
        (by simp; omega)
        (by rw [List.take_append_of_le_length hNle]; exact htake)
        (by
          intro k t hk ht
          by_cases hki : k < i
          · exact (hnodes k t hki ht).append (hlv.base_le_end (by omega)) nodes
          · have hk' : k = i := by omega
            subst hk'
            have htn : t < nodes.length := by omega
            obtain ⟨k1, _, k2⟩ := h3 t htn
            have e1 : boxAt (boxes ++ nodes) (lvlEnd lb k + t) = boxAt nodes t := by
              unfold boxAt
              rw [List.getD_append_right _ _ _ _ (by omega)]
              congr 1
              omega
            refine ⟨by simp; omega, ?_, ?_⟩
            · rw [e1, k1, hpos]
            · intro c hc hcs
              have e2 : boxAt (boxes ++ nodes) (lvlBase lb k + c)
                  = boxAt boxes (lvlBase lb k + c) :=
                List.getD_append _ _ _ _ (by omega)
              rw [e1, e2, ← hpos]
              exact k2 c hc (by omega))
        (by
          intro p hp
          rcases Nat.lt_or_ge p boxes.length with hpl | hpl
          · have := hnum p hpl
            unfold boxAt at this ⊢
            rw [List.getD_append _ _ _ _ hpl]
            exact this
          · have hpn : p - boxes.length < nodes.length := by
              rw [List.length_append] at hp
              omega
            have := (h3 (p - boxes.length) hpn).2.1
            unfold boxAt at this ⊢
            rw [List.getD_append_right _ _ _ _ hpl]
            exact this)
      exact ⟨boxes', g1, g2, g3, g4, g5⟩
    · rw [if_neg hlast]
      refine ⟨boxes, rfl, ?_, htake, ?_, hnum⟩
      · rw [hlen]
        congr 1
        omega
      · intro k t hk ht
        exact hnodes k t (by omega) ht

/-! ## Add and Finish -/

theorem addAll_boxes : ∀ (rs : List Rect) (fb : FlatBush),
    (addAll fb rs).1.Boxes = fb.Boxes ++ leafBoxes fb.Boxes.length rs
  | [], fb => by simp [addAll, leafBoxes]
  | r :: rs, fb => by
    simp only [addAll, leafBoxes]
    rw [addAll_boxes rs]
    simp [FlatBush.Add, leafBox]

theorem addAll_frame : ∀ (rs : List Rect) (fb : FlatBush),
    (addAll fb rs).1.NodeSize = fb.NodeSize ∧ (addAll fb rs).1.LevelBounds = fb.LevelBounds ∧
      (addAll fb rs).1.NumItems = fb.NumItems
  | [], fb => by simp [addAll]
  | r :: rs, fb => by
    simp only [addAll]
    have := addAll_frame rs (fb.Add (TCoord.num r.minX) (TCoord.num r.minY)
      (TCoord.num r.maxX) (TCoord.num r.maxY)).1
    simpa [FlatBush.Add] using this

theorem addAll_indices : ∀ (rs : List Rect) (fb : FlatBush),
    (addAll fb rs).2 = List.range' fb.Boxes.length rs.length
  | [], fb => by simp [addAll]
  | r :: rs, fb => by
    simp only [addAll, List.length_cons, List.range'_succ]
    rw [addAll_indices rs]
    simp [FlatBush.Add]

theorem leafBoxes_length : ∀ (rs : List Rect) (start : Nat), (leafBoxes start rs).length = rs.length
  | [], _ => rfl
  | _ :: rs, start => by simp [leafBoxes, leafBoxes_length rs]

theorem leafBoxes_getElem? : ∀ (rs : List Rect) (start k : Nat),
    (leafBoxes start rs)[k]? = rs[k]?.map fun r => leafBox (start + k) r
  | [], _, _ => by simp [leafBoxes]
  | r :: rs, start, 0 => by simp [leafBoxes]
  | r :: rs, start, k + 1 => by
    simp only [leafBoxes, List.getElem?_cons_succ]
    rw [leafBoxes_getElem? rs (start + 1) k]
    congr 1
    funext r
    congr 1
    omega

theorem leafBoxes_index : ∀ (rs : List Rect) (start : Nat),
    (leafBoxes start rs).map (fun b => b.Index) = List.range' start rs.length
  | [], _ => rfl
  | _ :: rs, start => by
    simp [leafBoxes, leafBox, leafBoxes_index rs (start + 1), List.range'_succ]

theorem leafBox_numeric (k : Nat) (r : Rect) : (leafBox k r).Numeric :=
  ⟨coord_num_isNum _, coord_num_isNum _, coord_num_isNum _, coord_num_isNum _⟩

theorem leafBoxes_numeric : ∀ (rs : List Rect) (start : Nat) (b : Box),
    b ∈ leafBoxes start rs → b.Numeric
  | [], _, b, h => by simp [leafBoxes] at h
  | r :: rs, start, b, h => by
    simp only [leafBoxes, List.mem_cons] at h
    rcases h with h | h
    · rw [h]
      exact leafBox_numeric _ _
    · exact leafBoxes_numeric rs (start + 1) b h

theorem Finish_spec (fb : FlatBush) (N fuel : Nat) (hN : fb.Boxes.length = N) (h1 : 1 ≤ N)
    (hlb : fb.LevelBounds = []) (hroom : 3 * N + clampNodeSize fb.NodeSize ≤ sizeMod)
    (hfuel : 2 * N + 4 ≤ fuel) (hnum : ∀ b, b ∈ fb.Boxes → b.Numeric) :
    ∃ fb', fb.Finish fuel = Res.ok fb' ∧ fb'.NodeSize = clampNodeSize fb.NodeSize ∧
      fb'.NumItems = N ∧ fb'.Bounds = fb.Bounds ∧
      TreeOK fb'.NodeSize N fb'.LevelBounds fb'.Boxes ∧ (fb'.Boxes.take N).Perm fb.Boxes ∧
      (fb'.HilbertValues.zip (fb'.Boxes.take N)).Perm
        ((fb.Boxes.map (hilbertOfBox fb.Bounds (fb.Bounds.MaxX - fb.Bounds.MinX)
          (fb.Bounds.MaxY - fb.Bounds.MinY))).zip fb.Boxes) := by
  have hns : 2 ≤ clampNodeSize fb.NodeSize := by
    unfold clampNodeSize
    split <;> omega
  have hlv0 : LevelsOK (clampNodeSize fb.NodeSize) N [N] :=
    ⟨by simp, by simp [lvlEnd], by intro k hk; simp at hk⟩
  obtain ⟨lb, g1, g2, g3, g4, g5, g6, g7⟩ := levelLoop_spec (clampNodeSize fb.NodeSize) N (3 * N)
    hns hroom fuel N N [N] hlv0 (by simp [lvlSize, lvlEnd, lvlBase]) (by simp [lvlEnd])
    (by simpa using h1) h1 (by omega) (by omega)
  obtain ⟨v', b', s1, s2, s3, s4⟩ := Sort_spec N (by unfold sizeMod at *; omega) fuel
    (fb.Boxes.map (hilbertOfBox fb.Bounds (fb.Bounds.MaxX - fb.Bounds.MinX)
      (fb.Bounds.MaxY - fb.Bounds.MinY))) fb.Boxes 0 (N - 1)
    (by simp [hN]) hN (by omega) (by omega)
  simp only [List.length_singleton] at g3 g7
  have hperm : b'.Perm fb.Boxes := by
    have := s4.map Prod.snd
    rw [List.map_snd_zip _ _ (by omega), List.map_snd_zip _ _ (by simp)] at this
    exact this
  obtain ⟨boxes, t1, t2, t3, t4, t5⟩ := buildLevels_spec (clampNodeSize fb.NodeSize) N lb b'
    g2 hns h1 (by omega) (by omega) fuel 0 b' 0 (by omega) (by omega)
    (by rw [g2.first, s3]) (by simp [lvlBase]) (by omega)
    (by rw [List.take_of_length_le (by omega)]) (by intro k t hk; omega)
    (by
      intro p hp
      apply hnum
      rw [← hperm.mem_iff]
      unfold boxAt
      rw [List.getD_eq_getElem _ _ hp]
      exact List.getElem_mem hp)
  have hsub : wsub N 1 = N - 1 := wsub_eq h1 (by unfold sizeMod at *; omega)
  refine ⟨{ NodeSize := clampNodeSize fb.NodeSize, Boxes := boxes, Bounds := fb.Bounds,
            HilbertValues := v', LevelBounds := lb, NumItems := N }, ?_, rfl, rfl, rfl, ?_, ?_, ?_⟩
  · unfold FlatBush.Finish
    simp only [hlb, List.nil_append, hN]
    have e : (if fb.NodeSize < 2 then 2 else fb.NodeSize) = clampNodeSize fb.NodeSize := rfl
    simp only [e, g1, hsub, s1, t1]
  · refine ⟨hns, h1, g2, (show 2 ≤ lb.length by omega), g4, t2.symm, t4, ?_, t5⟩
    show boxes.length + clampNodeSize fb.NodeSize ≤ sizeMod
    omega
  · show (boxes.take N).Perm fb.Boxes
    rw [t3]
    exact hperm
  · show (v'.zip (boxes.take N)).Perm _
    rw [t3]
    exact s4

/-! ## The loops of Search -/

theorem hitsOf_succ (boxes : List Box) (minX minY maxX maxY : TCoord) (pos count : Nat) :
    hitsOf boxes minX minY maxX maxY pos (count + 1) =
      (if rejects minX minY maxX maxY (boxAt boxes pos) then [] else [pos]) ++
        hitsOf boxes minX minY maxX maxY (pos + 1) count := by
  unfold hitsOf
  rw [List.range'_succ, List.filter_cons]
  by_cases h : rejects minX minY maxX maxY (boxAt boxes pos) = true
  · simp [h]
  · simp [h]

theorem mem_hitsOf {boxes : List Box} {minX minY maxX maxY : TCoord} {pos count p : Nat} :
    p ∈ hitsOf boxes minX minY maxX maxY pos count ↔
      (pos ≤ p ∧ p < pos + count) ∧ rejects minX minY maxX maxY (boxAt boxes p) = false := by
  unfold hitsOf
  simp [List.mem_filter]

theorem hitsOf_nodup (boxes : List Box) (minX minY maxX maxY : TCoord) (pos count : Nat) :
    (hitsOf boxes minX minY maxX maxY pos count).Nodup :=
  (List.nodup_range' pos count).filter _

theorem searchNode_leaf (self : FlatBush) (minX minY maxX maxY : TCoord) (nodeIndex level : Nat)
    (hleaf : nodeIndex < self.NumItems) (hlen : self.Boxes.length < sizeMod) :
    ∀ (count pos : Nat) (queue results : List Nat), pos + count ≤ self.Boxes.length →
      searchNode self minX minY maxX maxY nodeIndex level count pos queue results =
        Res.ok (queue, results ++ (hitsOf self.Boxes minX minY maxX maxY pos count).map
          fun p => (boxAt self.Boxes p).Index) := by
  intro count
  induction count with
  | zero =>
    intro pos queue results _
    simp [searchNode, hitsOf]
  | succ count ih =>
    intro pos queue results hpos
    unfold searchNode
    rw [getElem?_getD_of_lt self.Boxes InvertedBox (by omega : pos < self.Boxes.length)]
    simp only
    rw [wadd_eq (by omega), hitsOf_succ,
      show self.Boxes.getD pos InvertedBox = boxAt self.Boxes pos from rfl]
    by_cases hrej : rejects minX minY maxX maxY (boxAt self.Boxes pos) = true
    · rw [if_pos hrej, if_pos hrej, ih (pos + 1) queue results (by omega)]
      simp
    · rw [if_neg hrej, if_neg hrej, if_pos hleaf, ih (pos + 1) queue _ (by omega)]
      simp

theorem searchNode_inner (self : FlatBush) (minX minY maxX maxY : TCoord) (nodeIndex level : Nat)
    (hinner : ¬ nodeIndex < self.NumItems) (hlen : self.Boxes.length < sizeMod) :
    ∀ (count pos : Nat) (queue results : List Nat), pos + count ≤ self.Boxes.length →
      searchNode self minX minY maxX maxY nodeIndex level count pos queue results =
        Res.ok (enqueue ((hitsOf self.Boxes minX minY maxX maxY pos count).reverse.map
          fun p => (wsub level 1, (boxAt self.Boxes p).Index)) ++ queue, results) := by
  intro count
  induction count with
  | zero =>
    intro pos queue results _
    simp [searchNode, hitsOf, enqueue]
  | succ count ih =>
    intro pos queue results hpos
    unfold searchNode
    rw [getElem?_getD_of_lt self.Boxes InvertedBox (by omega : pos < self.Boxes.length)]
    simp only
    rw [wadd_eq (by omega), hitsOf_succ,
      show self.Boxes.getD pos InvertedBox = boxAt self.Boxes pos from rfl]
    by_cases hrej : rejects minX minY maxX maxY (boxAt self.Boxes pos) = true
    · rw [if_pos hrej, if_pos hrej, ih (pos + 1) queue results (by omega)]
      simp
    · rw [if_neg hrej, if_neg hrej, if_neg hinner, ih (pos + 1) _ results (by omega)]
      simp [enqueue]

theorem div_eq_iff_range {c ns j : Nat} (hns : 0 < ns) :
    c / ns = j ↔ j * ns ≤ c ∧ c < j * ns + ns := by
  constructor
  · intro h
    subst h
    have h1 := Nat.div_add_mod c ns
    have h2 := Nat.mod_lt c hns
    rw [Nat.mul_comm] at h1
    constructor <;> omega
  · intro ⟨h1, h2⟩
    exact Nat.div_eq_of_lt_le h1 (by rw [Nat.succ_mul]; exact h2)

theorem lt_ceilDiv {i s ns : Nat} (hns : 0 < ns) (h : i < (s + ns - 1) / ns) : i * ns < s := by
  have h1 : i + 1 ≤ (s + ns - 1) / ns := h
  rw [Nat.le_div_iff_mul_le hns, Nat.succ_mul] at h1
  omega

theorem div_lt_ceilDiv {c s ns : Nat} (hns : 0 < ns) (h : c < s) : c / ns < (s + ns - 1) / ns := by
  have h1 : c / ns + 1 ≤ (s + ns - 1) / ns := by
    rw [Nat.le_div_iff_mul_le hns, Nat.succ_mul]
    have := Nat.div_mul_le_self c ns
    omega
  omega

theorem LevelsOK.first_le_end {ns N : Nat} {lb : List Nat} (h : LevelsOK ns N lb) :
    ∀ k, k < lb.length → N ≤ lvlEnd lb k
  | 0, _ => by rw [h.first]
  | k + 1, hk => by
    have h1 := LevelsOK.first_le_end h k (by omega)
    have h2 := h.end_le_succ hk
    omega

theorem LevelsOK.succ_le_end {ns N : Nat} {lb : List Nat} (h : LevelsOK ns N lb)
    (hns : 1 ≤ ns) (hN : 1 ≤ N) : ∀ k, k < lb.length → k + 1 ≤ lvlEnd lb k
  | 0, _ => by rw [h.first]; omega
  | k + 1, hk => by
    have h1 := LevelsOK.succ_le_end h hns hN k (by omega)
    have h2 := (h.size_bounds hns hN (k + 1) hk).1
    have h3 := h.end_eq hk
    rw [lvlBase_succ] at h3
    omega

theorem TreeOK.levels_le {ns N : Nat} {lb : List Nat} {boxes : List Box}
    (h : TreeOK ns N lb boxes) : lb.length ≤ boxes.length := by
  have h1 := h.levels.succ_le_end (by have := h.ns_ge; omega) h.n_pos (lb.length - 1)
    (by have := h.two; omega)
  have h2 := h.total
  have h3 := h.two
  omega

theorem mem_span {self : FlatBush}
    (htree : TreeOK self.NodeSize self.NumItems self.LevelBounds self.Boxes)
    {level nodeIndex j : Nat} (hlevel : level < self.LevelBounds.length)
    (hni : nodeIndex = lvlBase self.LevelBounds level + j * self.NodeSize)
    (p : Nat) :
    (nodeIndex ≤ p ∧ p < nodeIndex + spanOf self level nodeIndex) ↔
      ∃ i, p = lvlBase self.LevelBounds level + i ∧ i < lvlSize self.LevelBounds level ∧
        i / self.NodeSize = j := by
  have hee := htree.levels.end_eq hlevel
  have hns : 0 < self.NodeSize := by have := htree.ns_ge; omega
  unfold spanOf
  constructor
  · intro ⟨h1, h2⟩
    refine ⟨p - lvlBase self.LevelBounds level, by omega, by omega, ?_⟩
    rw [div_eq_iff_range hns]
    omega
  · intro ⟨i, h1, h2, h3⟩
    rw [div_eq_iff_range hns] at h3
    omega

theorem GoodEntry.bounds {self : FlatBush}
    (htree : TreeOK self.NodeSize self.NumItems self.LevelBounds self.Boxes)
    {level nodeIndex : Nat} (h : GoodEntry self level nodeIndex) :
    nodeIndex < lvlEnd self.LevelBounds level ∧
      lvlEnd self.LevelBounds level ≤ self.Boxes.length := by
  obtain ⟨hlevel, j, h1, h2⟩ := h
  have hee := htree.levels.end_eq hlevel
  have hl := htree.levels.end_le_last hlevel
  have ht := htree.total
  omega

theorem GoodEntry.leaf_iff {self : FlatBush}
    (htree : TreeOK self.NodeSize self.NumItems self.LevelBounds self.Boxes)
    {level nodeIndex : Nat} (h : GoodEntry self level nodeIndex) :
    nodeIndex < self.NumItems ↔ level = 0 := by
  obtain ⟨hlevel, j, h1, h2⟩ := h
  cases level with
  | zero =>
    have : lvlSize self.LevelBounds 0 = self.NumItems := by
      unfold lvlSize
      rw [htree.levels.first]
      simp [lvlBase]
    simp only [lvlBase, if_true] at h1
    constructor
    · intro _; rfl
    · intro _; omega
  | succ l =>
    rw [lvlBase_succ] at h1
    have := htree.levels.first_le_end l (by omega)
    constructor
    · intro h; omega
    · intro h; omega

theorem GoodEntry.child {self : FlatBush}
    (htree : TreeOK self.NodeSize self.NumItems self.LevelBounds self.Boxes)
    {l nodeIndex p : Nat} (h : GoodEntry self (l + 1) nodeIndex)
    (hp : nodeIndex ≤ p ∧ p < nodeIndex + spanOf self (l + 1) nodeIndex) :
    GoodEntry self l (boxAt self.Boxes p).Index := by
  obtain ⟨hlevel, j, h1, h2⟩ := h
  obtain ⟨i, g1, g2, g3⟩ := (mem_span htree hlevel h1 p).mp hp
  have hns : 0 < self.NodeSize := by have := htree.ns_ge; omega
  obtain ⟨_, k1, _⟩ := htree.nodes l i hlevel g2
  rw [lvlBase_succ] at g1
  rw [← g1] at k1
  refine ⟨by omega, i, k1, ?_⟩
  rw [htree.levels.size_succ hlevel] at g2
  exact lt_ceilDiv hns g2

theorem visits_pos (self : FlatBush) (minX minY maxX maxY : TCoord) (level nodeIndex : Nat) :
    1 ≤ visits self minX minY maxX maxY level nodeIndex := by
  cases level with
  | zero => simp [visits]
  | succ l =>
    unfold visits
    omega

theorem enqueue_cons (level nodeIndex : Nat) (st : List (Nat × Nat)) :
    enqueue ((level, nodeIndex) :: st) = level :: nodeIndex :: enqueue st := by
  simp [enqueue]

theorem enqueue_append (st₁ st₂ : List (Nat × Nat)) :
    enqueue (st₁ ++ st₂) = enqueue st₁ ++ enqueue st₂ := by
  simp [enqueue]

theorem searchLoop_spec (self : FlatBush) (minX minY maxX maxY : TCoord)
    (htree : TreeOK self.NodeSize self.NumItems self.LevelBounds self.Boxes) :
    ∀ (fuel : Nat) (st : List (Nat × Nat)) (results : List Nat),
      (∀ e ∈ st, GoodEntry self e.1 e.2) →
      (st.map fun e => visits self minX minY maxX maxY e.1 e.2).sum ≤ fuel →
      searchLoop self minX minY maxX maxY fuel (enqueue st) results =
        Res.ok (results ++ (st.flatMap fun e => reported self minX minY maxX maxY e.1 e.2).map
          fun p => (boxAt self.Boxes p).Index) := by
  have hroom := htree.room
  have hns := htree.ns_ge
  intro fuel
  induction fuel with
  | zero =>
    intro st results _ hfuel
    cases st with
    | nil => simp [enqueue, searchLoop]
    | cons e st =>
      have := visits_pos self minX minY maxX maxY e.1 e.2
      simp only [List.map_cons, List.sum_cons] at hfuel
      omega
  | succ fuel ih =>
    intro st results hgood hfuel
    cases st with
    | nil => simp [enqueue, searchLoop]
    | cons e st =>
      obtain ⟨level, nodeIndex⟩ := e
      have hentry : GoodEntry self level nodeIndex := hgood (level, nodeIndex) (by simp)
      have hrest : ∀ e ∈ st, GoodEntry self e.1 e.2 := fun e he => hgood e (by simp [he])
      obtain ⟨hb1, hb2⟩ := hentry.bounds htree
      have hlevel := hentry.1
      simp only [List.map_cons, List.sum_cons] at hfuel
      rw [enqueue_cons]
      unfold searchLoop
      rw [getElem?_getD_of_lt self.LevelBounds 0 hlevel]
      simp only
      rw [wadd_eq (by omega),
        show min (nodeIndex + self.NodeSize) (self.LevelBounds.getD level 0) - nodeIndex
          = spanOf self level nodeIndex from rfl]
      have hspan : nodeIndex + spanOf self level nodeIndex ≤ self.Boxes.length := by
        unfold spanOf
        omega
      cases level with
      | zero =>
        have hleaf : nodeIndex < self.NumItems := (hentry.leaf_iff htree).mpr rfl
        rw [searchNode_leaf self minX minY maxX maxY nodeIndex 0 hleaf (by omega) _ _ _ _ hspan]
        simp only
        rw [ih st _ hrest (by simp only [visits] at hfuel; omega)]
        simp [reported]
      | succ l =>
        have hinner : ¬ nodeIndex < self.NumItems := by
          rw [hentry.leaf_iff htree]
          omega
        rw [searchNode_inner self minX minY maxX maxY nodeIndex (l + 1) hinner (by omega)
          _ _ _ _ hspan]
        simp only
        have hll := htree.levels_le
        rw [wsub_eq (by omega) (by omega), Nat.add_sub_cancel, ← enqueue_append]
        rw [ih _ results ?_ ?_]
        · simp only [List.flatMap_append, List.flatMap_cons, List.flatMap_map, reported]
        · intro e he
          rw [List.mem_append] at he
          rcases he with he | he
          · simp only [List.mem_map, List.mem_reverse] at he
            obtain ⟨p, hp, rfl⟩ := he
            exact hentry.child htree (mem_hitsOf.mp hp).1
          · exact hrest e he
        · simp only [visits] at hfuel
          simp only [List.map_append, List.sum_append, List.map_map]
          have e1 : (fun e : Nat × Nat => visits self minX minY maxX maxY e.1 e.2) ∘
              (fun p => (l, (boxAt self.Boxes p).Index)) =
              fun p => visits self minX minY maxX maxY l (boxAt self.Boxes p).Index := rfl
          rw [e1]
          omega

/-! ## What Search reports -/

theorem rejects_eq_false_iff (minX minY maxX maxY : TCoord) (b : Box) :
    rejects minX minY maxX maxY b = false ↔
      ¬ maxX < b.MinX ∧ ¬ maxY < b.MinY ∧ ¬ b.MaxX < minX ∧ ¬ b.MaxY < minY := by
  simp [rejects, and_assoc]

theorem rejects_of_contains {minX minY maxX maxY : TCoord} {a b : Box} (hc : a.Contains b)
    (h : rejects minX minY maxX maxY b = false) : rejects minX minY maxX maxY a = false := by
  rw [rejects_eq_false_iff] at h ⊢
  obtain ⟨c1, c2, c3, c4⟩ := hc
  obtain ⟨h1, h2, h3, h4⟩ := h
  exact ⟨fun g => h1 (coord_lt_of_lt_of_le g c1), fun g => h2 (coord_lt_of_lt_of_le g c2),
    fun g => h3 (coord_lt_of_le_of_lt c3 g), fun g => h4 (coord_lt_of_le_of_lt c4 g)⟩

theorem positiveUnion_iff (b q : Box) :
    b.PositiveUnion q = true ↔
      b.MinX ≤ q.MaxX ∧ b.MinY ≤ q.MaxY ∧ q.MinX ≤ b.MaxX ∧ q.MinY ≤ b.MaxY := by
  simp only [Box.PositiveUnion, Bool.and_eq_true, decide_eq_true_eq, ge_iff_le]
  constructor
  · rintro ⟨⟨⟨h1, h2⟩, h3⟩, h4⟩
    exact ⟨h1, h3, h2, h4⟩
  · rintro ⟨h1, h2, h3, h4⟩
    exact ⟨⟨⟨h1, h3⟩, h2⟩, h4⟩

theorem positiveUnion_not_rejects (minX minY maxX maxY : TCoord) (k : Nat) (b : Box)
    (h : b.PositiveUnion ⟨k, minX, minY, maxX, maxY⟩ = true) :
    rejects minX minY maxX maxY b = false := by
  rw [positiveUnion_iff] at h
  rw [rejects_eq_false_iff]
  obtain ⟨h1, h2, h3, h4⟩ := h
  exact ⟨coord_not_lt_of_le h1, coord_not_lt_of_le h2, coord_not_lt_of_le h3,
    coord_not_lt_of_le h4⟩

theorem positiveUnion_eq (minX minY maxX maxY : TCoord) (k : Nat) (b : Box)
    (hq : minX.IsNum ∧ minY.IsNum ∧ maxX.IsNum ∧ maxY.IsNum) (hb : b.Numeric) :
    b.PositiveUnion { Index := k, MinX := minX, MinY := minY, MaxX := maxX, MaxY := maxY } =
      !rejects minX minY maxX maxY b := by
  obtain ⟨q1, q2, q3, q4⟩ := hq
  obtain ⟨b1, b2, b3, b4⟩ := hb
  rw [Bool.eq_iff_iff, positiveUnion_iff, Bool.not_eq_true', rejects_eq_false_iff,
    coord_not_lt_iff q3 b1, coord_not_lt_iff q4 b2, coord_not_lt_iff b3 q1,
    coord_not_lt_iff b4 q2]

theorem ancestor_contains {ns N : Nat} {lb : List Nat} {boxes : List Box}
    (htree : TreeOK ns N lb boxes) :
    ∀ k, k < lb.length → ∀ c, c < N →
      c / ns ^ k < lvlSize lb k ∧ (boxAt boxes (lvlBase lb k + c / ns ^ k)).Contains (boxAt boxes c)
  | 0, _, c, hc => by
    have : lvlSize lb 0 = N := by
      unfold lvlSize
      rw [htree.levels.first]
      simp [lvlBase]
    simp only [pow_zero, Nat.div_one, this]
    refine ⟨hc, ?_⟩
    simp only [lvlBase, if_true, Nat.zero_add]
    have hle := htree.levels.first_le_end (lb.length - 1) (by have := htree.two; omega)
    exact Box.Contains.refl _ (htree.numeric c (by have := htree.total; omega))
  | k + 1, hk, c, hc => by
    obtain ⟨h1, h2⟩ := ancestor_contains htree k (by omega) c hc
    have hns : 0 < ns := by have := htree.ns_ge; omega
    have hdiv : c / ns ^ (k + 1) = c / ns ^ k / ns := by
      rw [pow_succ, Nat.div_div_eq_div_mul]
    rw [hdiv, lvlBase_succ]
    have hlt : c / ns ^ k / ns < lvlSize lb (k + 1) := by
      rw [htree.levels.size_succ hk]
      exact div_lt_ceilDiv hns h1
    obtain ⟨_, _, k3⟩ := htree.nodes k (c / ns ^ k / ns) hk hlt
    exact ⟨hlt, (k3 (c / ns ^ k) rfl h1).trans h2⟩

theorem reported_spec (self : FlatBush) (minX minY maxX maxY : TCoord)
    (htree : TreeOK self.NodeSize self.NumItems self.LevelBounds self.Boxes) :
    ∀ (k nodeIndex j : Nat), k < self.LevelBounds.length →
      nodeIndex = lvlBase self.LevelBounds k + j * self.NodeSize →
      (∀ c, c ∈ reported self minX minY maxX maxY k nodeIndex ↔
        c < self.NumItems ∧ rejects minX minY maxX maxY (boxAt self.Boxes c) = false ∧
          c / self.NodeSize ^ k / self.NodeSize = j) ∧
      (reported self minX minY maxX maxY k nodeIndex).Nodup := by
  have hns : 0 < self.NodeSize := by have := htree.ns_ge; omega
  intro k
  induction k with
  | zero =>
    intro nodeIndex j hk hni
    have hsz : lvlSize self.LevelBounds 0 = self.NumItems := by
      unfold lvlSize
      rw [htree.levels.first]
      simp [lvlBase]
    refine ⟨?_, hitsOf_nodup _ _ _ _ _ _ _⟩
    intro c
    simp only [reported, mem_hitsOf, mem_span htree hk hni c, hsz, pow_zero, Nat.div_one]
    simp only [lvlBase, if_true, Nat.zero_add]
    constructor
    · rintro ⟨⟨i, rfl, h1, h2⟩, h3⟩
      exact ⟨h1, h3, h2⟩
    · rintro ⟨h1, h2, h3⟩
      exact ⟨⟨c, rfl, h1, h3⟩, h2⟩
  | succ k ih =>
    intro nodeIndex j hk hni
    have hdiv : ∀ c, c / self.NodeSize ^ (k + 1) = c / self.NodeSize ^ k / self.NodeSize := by
      intro c
      rw [pow_succ, Nat.div_div_eq_div_mul]
    have hchild : ∀ p, p ∈ hitsOf self.Boxes minX minY maxX maxY nodeIndex
        (spanOf self (k + 1) nodeIndex) →
        ∃ i, p = lvlEnd self.LevelBounds k + i ∧ i < lvlSize self.LevelBounds (k + 1) ∧
          i / self.NodeSize = j ∧
          (boxAt self.Boxes p).Index = lvlBase self.LevelBounds k + i * self.NodeSize := by
      intro p hp
      obtain ⟨i, g1, g2, g3⟩ := (mem_span htree hk hni p).mp (mem_hitsOf.mp hp).1
      rw [lvlBase_succ] at g1
      obtain ⟨_, k1, _⟩ := htree.nodes k i hk g2
      rw [← g1] at k1
      exact ⟨i, g1, g2, g3, k1⟩
    constructor
    · intro c
      simp only [reported, List.mem_flatMap, List.mem_reverse]
      constructor
      · rintro ⟨p, hp, hc⟩
        obtain ⟨i, g1, g2, g3, g4⟩ := hchild p hp
        obtain ⟨h1, h2, h3⟩ := ((ih _ i (by omega) g4).1 c).mp hc
        exact ⟨h1, h2, by rw [hdiv, h3, g3]⟩
      · rintro ⟨h1, h2, h3⟩
        obtain ⟨a1, a2⟩ := ancestor_contains htree (k + 1) hk c h1
        have hrej := rejects_of_contains a2 h2
        have hp : lvlBase self.LevelBounds (k + 1) + c / self.NodeSize ^ (k + 1) ∈
            hitsOf self.Boxes minX minY maxX maxY nodeIndex (spanOf self (k + 1) nodeIndex) :=
          mem_hitsOf.mpr ⟨(mem_span htree hk hni _).mpr ⟨_, rfl, a1, h3⟩, hrej⟩
        refine ⟨_, hp, ?_⟩
        obtain ⟨i, g1, g2, g3, g4⟩ := hchild _ hp
        rw [lvlBase_succ] at g1
        have hi : i = c / self.NodeSize ^ (k + 1) := by omega
        subst hi
        exact ((ih _ _ (by omega) g4).1 c).mpr ⟨h1, h2, (hdiv c).symm⟩
    · simp only [reported]
      rw [List.nodup_flatMap]
      constructor
      · intro p hp
        rw [List.mem_reverse] at hp
        obtain ⟨i, g1, g2, g3, g4⟩ := hchild p hp
        exact (ih _ i (by omega) g4).2
      · apply List.Nodup.pairwise_of_forall_ne
          (List.nodup_reverse.mpr (hitsOf_nodup _ _ _ _ _ _ _))
        intro p hp p' hp' hne
        rw [List.mem_reverse] at hp hp'
        obtain ⟨i, g1, g2, g3, g4⟩ := hchild p hp
        obtain ⟨i', g1', g2', g3', g4'⟩ := hchild p' hp'
        show List.Disjoint _ _
        rw [List.disjoint_left]
        intro c hc hc'
        obtain ⟨_, _, h3⟩ := ((ih _ i (by omega) g4).1 c).mp hc
        obtain ⟨_, _, h3'⟩ := ((ih _ i' (by omega) g4').1 c).mp hc'
        apply hne
        omega

theorem SearchInto_spec (self : FlatBush) (minX minY maxX maxY : TCoord)
    (htree : TreeOK self.NodeSize self.NumItems self.LevelBounds self.Boxes) :
    ∃ hit : List Nat,
      (∀ c, c ∈ hit ↔
        c < self.NumItems ∧ rejects minX minY maxX maxY (boxAt self.Boxes c) = false) ∧
      hit.Nodup ∧
      ∃ F, ∀ fuel, F ≤ fuel → ∀ results,
        self.SearchInto minX minY maxX maxY results fuel =
          Res.ok (results ++ hit.map fun p => (boxAt self.Boxes p).Index) := by
  have htwo := htree.two
  have hll := htree.levels_le
  have hroom := htree.room
  have hns := htree.ns_ge
  have htot := htree.total
  have htop := htree.top
  have hee := htree.levels.end_eq (k := self.LevelBounds.length - 1) (by omega)
  have hroot : self.Boxes.length - 1 =
      lvlBase self.LevelBounds (self.LevelBounds.length - 1) + 0 * self.NodeSize := by
    omega
  obtain ⟨hmem, hnodup⟩ := reported_spec self minX minY maxX maxY htree
    (self.LevelBounds.length - 1) (self.Boxes.length - 1) 0 (by omega) hroot
  refine ⟨reported self minX minY maxX maxY (self.LevelBounds.length - 1) (self.Boxes.length - 1),
    ?_, hnodup,
    visits self minX minY maxX maxY (self.LevelBounds.length - 1) (self.Boxes.length - 1), ?_⟩
  · intro c
    rw [hmem c]
    constructor
    · rintro ⟨h1, h2, _⟩
      exact ⟨h1, h2⟩
    · rintro ⟨h1, h2⟩
      refine ⟨h1, h2, ?_⟩
      have := (ancestor_contains htree (self.LevelBounds.length - 1) (by omega) c h1).1
      rw [htop] at this
      have h0 : c / self.NodeSize ^ (self.LevelBounds.length - 1) = 0 := Nat.lt_one_iff.mp this
      rw [h0]
      exact Nat.zero_div _
  · intro fuel hfuel results
    unfold FlatBush.SearchInto
    rw [if_neg (by omega), wsub_eq (by omega) (by omega), wsub_eq (by omega) (by omega)]
    have hgood : GoodEntry self (self.LevelBounds.length - 1) (self.Boxes.length - 1) :=
      ⟨by omega, 0, hroot, by omega⟩
    have := searchLoop_spec self minX minY maxX maxY htree fuel
      [(self.LevelBounds.length - 1, self.Boxes.length - 1)] results
      (by
        intro e he
        simp only [List.mem_singleton] at he
        subst he
        exact hgood)
      (by simpa using hfuel)
    simpa [enqueue] using this

/-! ## More fuel does not change a normal outcome -/

theorem scanUp_mono (values : List Nat) (pivot : Nat) :
    ∀ (fuel i r : Nat), scanUp values pivot fuel i = Res.ok r →
      ∀ fuel', fuel ≤ fuel' → scanUp values pivot fuel' i = Res.ok r := by
  intro fuel
  induction fuel with
  | zero => intro i r h; simp [scanUp] at h
  | succ f ih =>
    intro i r h fuel' hle
    obtain ⟨f', rfl⟩ : ∃ f', fuel' = f' + 1 := ⟨fuel' - 1, by omega⟩
    unfold scanUp at h ⊢
    dsimp only at h ⊢
    cases hv : values[wadd i 1]? with
    | none => simp [hv] at h
    | some v =>
      simp only [hv] at h ⊢
      by_cases hlt : v < pivot
      · rw [if_pos hlt] at h ⊢
        exact ih _ _ h f' (by omega)
      · rw [if_neg hlt] at h ⊢
        exact h

theorem scanDown_mono (values : List Nat) (pivot : Nat) :
    ∀ (fuel j r : Nat), scanDown values pivot fuel j = Res.ok r →
      ∀ fuel', fuel ≤ fuel' → scanDown values pivot fuel' j = Res.ok r := by
  intro fuel
  induction fuel with
  | zero => intro j r h; simp [scanDown] at h
  | succ f ih =>
    intro j r h fuel' hle
    obtain ⟨f', rfl⟩ : ∃ f', fuel' = f' + 1 := ⟨fuel' - 1, by omega⟩
    unfold scanDown at h ⊢
    dsimp only at h ⊢
    cases hv : values[wsub j 1]? with
    | none => simp [hv] at h
    | some v =>
      simp only [hv] at h ⊢
      by_cases hgt : v > pivot
      · rw [if_pos hgt] at h ⊢
        exact ih _ _ h f' (by omega)
      · rw [if_neg hgt] at h ⊢
        exact h

theorem partitionLoop_mono (pivot : Nat) :
    ∀ (fuel : Nat) (values : List Nat) (boxes : List Box) (i j : Nat)
      (r : List Nat × List Box × Nat),
      partitionLoop pivot fuel values boxes i j = Res.ok r →
      ∀ fuel', fuel ≤ fuel' → partitionLoop pivot fuel' values boxes i j = Res.ok r := by
  intro fuel
  induction fuel with
  | zero => intro values boxes i j r h; simp [partitionLoop] at h
  | succ f ih =>
    intro values boxes i j r h fuel' hle
    obtain ⟨f', rfl⟩ : ∃ f', fuel' = f' + 1 := ⟨fuel' - 1, by omega⟩
    unfold partitionLoop at h ⊢
    cases hu : scanUp values pivot f i with
    | fault => simp [hu] at h
    | outOfFuel => simp [hu] at h
    | ok i' =>
      rw [scanUp_mono values pivot f i i' hu f' (by omega)]
      simp only [hu] at h ⊢
      cases hd : scanDown values pivot f j with
      | fault => simp [hd] at h
      | outOfFuel => simp [hd] at h
      | ok j' =>
        rw [scanDown_mono values pivot f j j' hd f' (by omega)]
        simp only [hd] at h ⊢
        by_cases hge : i' ≥ j'
        · rw [if_pos hge] at h ⊢
          exact h
        · rw [if_neg hge] at h ⊢
          cases hsv : swapAt values i' j' with
          | none => simp [hsv] at h
          | some v2 =>
            cases hsb : swapAt boxes i' j' with
            | none => simp [hsv, hsb] at h
            | some b2 =>
              simp only [hsv, hsb] at h ⊢
              exact ih _ _ _ _ _ h f' (by omega)

theorem Sort_mono :
    ∀ (fuel : Nat) (values : List Nat) (boxes : List Box) (left right : Nat)
      (r : List Nat × List Box),
      FlatBush.Sort fuel values boxes left right = Res.ok r →
      ∀ fuel', fuel ≤ fuel' → FlatBush.Sort fuel' values boxes left right = Res.ok r := by
  intro fuel
  induction fuel with
  | zero => intro values boxes left right r h; simp [FlatBush.Sort] at h
  | succ f ih =>
    intro values boxes left right r h fuel' hle
    obtain ⟨f', rfl⟩ : ∃ f', fuel' = f' + 1 := ⟨fuel' - 1, by omega⟩
    unfold FlatBush.Sort at h ⊢
    by_cases hge : left ≥ right
    · rw [if_pos hge] at h ⊢
      exact h
    · rw [if_neg hge] at h ⊢
      cases hr : values[wadd left right >>> 1]? with
      | none => simp [hr] at h
      | some pivot =>
        simp only [hr] at h ⊢
        cases hp : partitionLoop pivot f values boxes (wsub left 1) (wadd right 1) with
        | fault => simp [hp] at h
        | outOfFuel => simp [hp] at h
        | ok res =>
          obtain ⟨v1, b1, j⟩ := res
          rw [partitionLoop_mono _ _ _ _ _ _ _ hp f' (by omega)]
          simp only [hp] at h ⊢
          cases hs : FlatBush.Sort f v1 b1 left j with
          | fault => simp [hs] at h
          | outOfFuel => simp [hs] at h
          | ok res2 =>
            obtain ⟨v2, b2⟩ := res2
            rw [ih _ _ _ _ _ hs f' (by omega)]
            simp only [hs] at h ⊢
            exact ih _ _ _ _ _ h f' (by omega)

theorem levelLoop_mono (ns : Nat) :
    ∀ (fuel n numNodes : Nat) (lb r : List Nat),
      levelLoop ns fuel n numNodes lb = Res.ok r →
      ∀ fuel', fuel ≤ fuel' → levelLoop ns fuel' n numNodes lb = Res.ok r := by
  intro fuel
  induction fuel with
  | zero => intro n numNodes lb r h; simp [levelLoop] at h
  | succ f ih =>
    intro n numNodes lb r h fuel' hle
    obtain ⟨f', rfl⟩ : ∃ f', fuel' = f' + 1 := ⟨fuel' - 1, by omega⟩
    unfold levelLoop at h ⊢
    by_cases hz : ns = 0
    · rw [if_pos hz] at h
      simp at h
    · rw [if_neg hz] at h ⊢
      dsimp only at h ⊢
      by_cases hone : wsub (wadd n ns) 1 / ns ≠ 1
      · rw [if_pos hone] at h ⊢
        exact ih _ _ _ _ h f' (by omega)
      · rw [if_neg hone] at h ⊢
        exact h

theorem buildLevel_mono (ns stop : Nat) :
    ∀ (fuel : Nat) (boxes : List Box) (pos : Nat) (r : List Box × Nat),
      buildLevel ns stop fuel boxes pos = Res.ok r →
      ∀ fuel', fuel ≤ fuel' → buildLevel ns stop fuel' boxes pos = Res.ok r := by
  intro fuel
  induction fuel with
  | zero => intro boxes pos r h; simp [buildLevel] at h
  | succ f ih =>
    intro boxes pos r h fuel' hle
    obtain ⟨f', rfl⟩ : ∃ f', fuel' = f' + 1 := ⟨fuel' - 1, by omega⟩
    unfold buildLevel at h ⊢
    by_cases hlt : pos < stop
    · rw [if_pos hlt] at h ⊢
      cases hfr : foldRun boxes stop ns pos { InvertedBox with Index := pos } with
      | fault => simp [hfr] at h
      | outOfFuel => simp [hfr] at h
      | ok res =>
        obtain ⟨nb, pos'⟩ := res
        simp only [hfr] at h ⊢
        exact ih _ _ _ h f' (by omega)
    · rw [if_neg hlt] at h ⊢
      exact h

theorem buildLevels_mono (ns : Nat) (lb : List Nat) :
    ∀ (fuel i : Nat) (boxes : List Box) (pos : Nat) (r : List Box),
      buildLevels ns lb fuel i boxes pos = Res.ok r →
      ∀ fuel', fuel ≤ fuel' → buildLevels ns lb fuel' i boxes pos = Res.ok r := by
  intro fuel
  induction fuel with
  | zero => intro i boxes pos r h; simp [buildLevels] at h
  | succ f ih =>
    intro i boxes pos r h fuel' hle
    obtain ⟨f', rfl⟩ : ∃ f', fuel' = f' + 1 := ⟨fuel' - 1, by omega⟩
    unfold buildLevels at h ⊢
    by_cases hlt : i < wsub lb.length 1
    · rw [if_pos hlt] at h ⊢
      cases hg : lb[i]? with
      | none => simp [hg] at h
      | some stop =>
        simp only [hg] at h ⊢
        cases hb : buildLevel ns stop f boxes pos with
        | fault => simp [hb] at h
        | outOfFuel => simp [hb] at h
        | ok res =>
          obtain ⟨boxes', pos'⟩ := res
          rw [buildLevel_mono ns stop f boxes pos _ hb f' (by omega)]
          simp only [hb] at h ⊢
          exact ih _ _ _ _ h f' (by omega)
    · rw [if_neg hlt] at h ⊢
      exact h

theorem Finish_mono (fb : FlatBush) (fuel : Nat) (r : FlatBush)
    (h : fb.Finish fuel = Res.ok r) (fuel' : Nat) (hle : fuel ≤ fuel') :
    fb.Finish fuel' = Res.ok r := by
  unfold FlatBush.Finish at h ⊢
  dsimp only at h ⊢
  cases hl : levelLoop (if fb.NodeSize < 2 then 2 else fb.NodeSize) fuel fb.Boxes.length
      fb.Boxes.length (fb.LevelBounds ++ [fb.Boxes.length]) with
  | fault => simp [hl] at h
  | outOfFuel => simp [hl] at h
  | ok lb =>
    rw [levelLoop_mono _ _ _ _ _ _ hl fuel' hle]
    simp only [hl] at h ⊢
    cases hs : FlatBush.Sort fuel
        (fb.Boxes.map (hilbertOfBox fb.Bounds (fb.Bounds.MaxX - fb.Bounds.MinX)
          (fb.Bounds.MaxY - fb.Bounds.MinY))) fb.Boxes 0 (wsub fb.Boxes.length 1) with
    | fault => simp [hs] at h
    | outOfFuel => simp [hs] at h
    | ok res =>
      obtain ⟨hv, boxes⟩ := res
      rw [Sort_mono _ _ _ _ _ _ hs fuel' hle]
      simp only [hs] at h ⊢
      cases hb : buildLevels (if fb.NodeSize < 2 then 2 else fb.NodeSize) lb fuel 0 boxes 0 with
      | fault => simp [hb] at h
      | outOfFuel => simp [hb] at h
      | ok boxes' =>
        rw [buildLevels_mono _ _ _ _ _ _ _ hb fuel' hle]
        simp only [hb] at h ⊢
        exact h

/-! ## Search after Finish -/

theorem inserted_fields (ns : Nat) (rs : List Rect) :
    (inserted ns rs).Boxes = leafBoxes 0 rs ∧ (inserted ns rs).NodeSize = ns ∧
      (inserted ns rs).LevelBounds = [] ∧ (inserted ns rs).NumItems = 0 := by
  unfold inserted
  obtain ⟨h1, h2, h3⟩ := addAll_frame rs { FlatBush.new with NodeSize := ns }
  refine ⟨?_, h1, h2, h3⟩
  rw [addAll_boxes]
  rfl

theorem mem_leafBoxes {rs : List Rect} {start : Nat} {b : Box} :
    b ∈ leafBoxes start rs ↔ ∃ k r, rs[k]? = some r ∧ b = leafBox (start + k) r := by
  rw [List.mem_iff_getElem?]
  constructor
  · rintro ⟨k, hk⟩
    rw [leafBoxes_getElem?] at hk
    cases hr : rs[k]? with
    | none => simp [hr] at hk
    | some r =>
      simp only [hr, Option.map_some', Option.some.injEq] at hk
      exact ⟨k, r, hr, hk.symm⟩
  · rintro ⟨k, r, hr, rfl⟩
    exact ⟨k, by rw [leafBoxes_getElem?, hr]; rfl⟩

theorem mem_selectLeaves (keep : Box → Bool) : ∀ (rs : List Rect) (start k : Nat),
    k ∈ selectLeaves keep start rs ↔
      ∃ r, start ≤ k ∧ rs[k - start]? = some r ∧ keep (leafBox k r) = true
  | [], start, k => by simp [selectLeaves]
  | r :: rs, start, k => by
    have ih := mem_selectLeaves keep rs (start + 1) k
    have key : k ∈ selectLeaves keep start (r :: rs) ↔
        (k = start ∧ keep (leafBox start r) = true) ∨ k ∈ selectLeaves keep (start + 1) rs := by
      show k ∈ (if keep (leafBox start r) = true
        then start :: selectLeaves keep (start + 1) rs else selectLeaves keep (start + 1) rs) ↔ _
      by_cases h : keep (leafBox start r) = true
      · rw [if_pos h]
        simp [h]
      · rw [if_neg h]
        simp [h]
    rw [key, ih]
    constructor
    · rintro (⟨rfl, h⟩ | ⟨r', h1, h2, h3⟩)
      · exact ⟨r, le_refl _, by simp, h⟩
      · refine ⟨r', by omega, ?_, h3⟩
        rw [show k - start = (k - (start + 1)) + 1 by omega]
        simpa using h2
    · rintro ⟨r', h1, h2, h3⟩
      by_cases hk : k = start
      · subst hk
        simp at h2
        subst h2
        exact Or.inl ⟨rfl, h3⟩
      · refine Or.inr ⟨r', by omega, ?_, h3⟩
        rw [show k - start = (k - (start + 1)) + 1 by omega] at h2
        simpa using h2

theorem selectLeaves_sorted (keep : Box → Bool) : ∀ (rs : List Rect) (start : Nat),
    (selectLeaves keep start rs).Pairwise (· < ·)
  | [], _ => by simp [selectLeaves]
  | r :: rs, start => by
    have ih := selectLeaves_sorted keep rs (start + 1)
    show (if keep (leafBox start r) = true
      then start :: selectLeaves keep (start + 1) rs
      else selectLeaves keep (start + 1) rs).Pairwise _
    split
    · rw [List.pairwise_cons]
      refine ⟨?_, ih⟩
      intro k hk
      obtain ⟨_, h, _⟩ := (mem_selectLeaves keep rs (start + 1) k).mp hk
      omega
    · exact ih

theorem selectLeaves_nodup (keep : Box → Bool) (rs : List Rect) (start : Nat) :
    (selectLeaves keep start rs).Nodup :=
  (selectLeaves_sorted keep rs start).imp (fun h => Nat.ne_of_lt h)

theorem selectLeaves_congr (keep keep' : Box → Bool)
    (h : ∀ k r, keep (leafBox k r) = keep' (leafBox k r)) :
    ∀ (rs : List Rect) (start : Nat), selectLeaves keep start rs = selectLeaves keep' start rs
  | [], _ => rfl
  | r :: rs, start => by
    show (if keep (leafBox start r) = true
      then start :: selectLeaves keep (start + 1) rs else selectLeaves keep (start + 1) rs) =
      (if keep' (leafBox start r) = true
        then start :: selectLeaves keep' (start + 1) rs
        else selectLeaves keep' (start + 1) rs)
    rw [h start r, selectLeaves_congr keep keep' h rs (start + 1)]

theorem bruteForce_eq (q : Query) : ∀ (rs : List Rect) (start : Nat),
    bruteForce q start rs =
      selectLeaves (fun b => b.PositiveUnion (queryBox q)) start rs
  | [], _ => rfl
  | r :: rs, start => by
    show (if (leafBox start r).PositiveUnion (queryBox q) = true
      then start :: bruteForce q (start + 1) rs else bruteForce q (start + 1) rs) =
      (if (leafBox start r).PositiveUnion (queryBox q) = true
        then start :: selectLeaves (fun b => b.PositiveUnion (queryBox q)) (start + 1) rs
        else selectLeaves (fun b => b.PositiveUnion (queryBox q)) (start + 1) rs)
    rw [bruteForce_eq q rs (start + 1)]

theorem mem_bruteForce (q : Query) (rs : List Rect) (start k : Nat) :
    k ∈ bruteForce q start rs ↔
      ∃ r, start ≤ k ∧ rs[k - start]? = some r ∧
        (leafBox k r).PositiveUnion (queryBox q) = true := by
  rw [bruteForce_eq]
  exact mem_selectLeaves _ rs start k

theorem mem_keptLeaves (q : Query) (rs : List Rect) (k : Nat) :
    k ∈ keptLeaves q 0 rs ↔
      ∃ r, rs[k]? = some r ∧ rejects q.minX q.minY q.maxX q.maxY (leafBox k r) = false := by
  unfold keptLeaves
  rw [mem_selectLeaves]
  simp only [Nat.zero_le, Nat.sub_zero, true_and, Bool.not_eq_true']

theorem keptLeaves_nodup (q : Query) (rs : List Rect) (start : Nat) :
    (keptLeaves q start rs).Nodup :=
  selectLeaves_nodup _ rs start

theorem bruteForce_sub_kept (q : Query) (rs : List Rect) (k : Nat)
    (h : k ∈ bruteForce q 0 rs) : k ∈ keptLeaves q 0 rs := by
  rw [mem_bruteForce] at h
  obtain ⟨r, _, hr, hov⟩ := h
  rw [Nat.sub_zero] at hr
  rw [mem_keptLeaves]
  exact ⟨r, hr, positiveUnion_not_rejects q.minX q.minY q.maxX q.maxY 0 (leafBox k r) hov⟩

theorem keptLeaves_numeric (q : Rect) (rs : List Rect) (start : Nat) :
    keptLeaves q.toQuery start rs = bruteForce q.toQuery start rs := by
  rw [bruteForce_eq]
  unfold keptLeaves
  apply selectLeaves_congr
  intro k r
  have h := positiveUnion_eq q.toQuery.minX q.toQuery.minY q.toQuery.maxX q.toQuery.maxY 0
    (leafBox k r)
    ⟨coord_num_isNum _, coord_num_isNum _, coord_num_isNum _, coord_num_isNum _⟩
    (leafBox_numeric k r)
  exact h.symm

theorem take_getElem?_boxAt (boxes : List Box) {N c : Nat} (hN : N ≤ boxes.length)
    (hc : c < N) : (boxes.take N)[c]? = some (boxAt boxes c) := by
  rw [List.getElem?_take_of_lt hc]
  exact getElem?_getD_of_lt boxes InvertedBox (by omega)

theorem results_perm (boxes : List Box) (N : Nat) (rs : List Rect) (q : Query)
    (hit : List Nat) (hN : N ≤ boxes.length)
    (hperm : (boxes.take N).Perm (leafBoxes 0 rs))
    (hmem : ∀ c, c ∈ hit ↔
      c < N ∧ rejects q.minX q.minY q.maxX q.maxY (boxAt boxes c) = false)
    (hnd : hit.Nodup) :
    (hit.map fun p => (boxAt boxes p).Index).Perm (keptLeaves q 0 rs) := by
  have hlen : (boxes.take N).length = N := by simp [hN]
  have hidx : ((boxes.take N).map fun b => b.Index).Nodup := by
    have h1 := hperm.map (fun b => b.Index)
    rw [leafBoxes_index] at h1
    exact h1.symm.nodup (List.nodup_range' 0 rs.length)
  rw [List.perm_ext_iff_of_nodup ?_ (keptLeaves_nodup q rs 0)]
  · intro k
    rw [List.mem_map, mem_keptLeaves]
    constructor
    · rintro ⟨c, hc, rfl⟩
      obtain ⟨hcN, hrej⟩ := (hmem c).mp hc
      have hin : boxAt boxes c ∈ leafBoxes 0 rs :=
        hperm.mem_iff.mp (List.mem_iff_getElem?.mpr ⟨c, take_getElem?_boxAt boxes hN hcN⟩)
      obtain ⟨k, r, hr, hb⟩ := mem_leafBoxes.mp hin
      rw [Nat.zero_add] at hb
      have hk : (boxAt boxes c).Index = k := by rw [hb]; rfl
      rw [hk]
      refine ⟨r, hr, ?_⟩
      rw [← hb]
      exact hrej
    · rintro ⟨r, hr, hov⟩
      have hin : leafBox k r ∈ boxes.take N :=
        hperm.mem_iff.mpr (mem_leafBoxes.mpr ⟨k, r, hr, by rw [Nat.zero_add]⟩)
      obtain ⟨c, hc⟩ := List.mem_iff_getElem?.mp hin
      have hcN : c < N := by
        have := (List.getElem?_eq_some_iff.mp hc).1
        omega
      rw [take_getElem?_boxAt boxes hN hcN, Option.some.injEq] at hc
      refine ⟨c, (hmem c).mpr ⟨hcN, ?_⟩, by rw [hc]; rfl⟩
      rw [hc]
      exact hov
  · apply List.Nodup.map_on _ hnd
    intro c hc c' hc' heq
    have hcN := ((hmem c).mp hc).1
    have hcN' := ((hmem c').mp hc').1
    apply List.getElem?_inj (by rw [List.length_map, hlen]; exact hcN) hidx
    rw [List.getElem?_map, List.getElem?_map, take_getElem?_boxAt boxes hN hcN,
      take_getElem?_boxAt boxes hN hcN']
    simp [heq]

theorem finish_inserted (ns : Nat) (rs : List Rect) (fuel : Nat) (hrs : rs ≠ [])
    (hroom : 3 * rs.length + clampNodeSize ns ≤ sizeMod) (hfuel : 2 * rs.length + 4 ≤ fuel) :
    ∃ fb', (inserted ns rs).Finish fuel = Res.ok fb' ∧ fb'.NodeSize = clampNodeSize ns ∧
      fb'.NumItems = rs.length ∧ fb'.Bounds = (inserted ns rs).Bounds ∧
      TreeOK fb'.NodeSize fb'.NumItems fb'.LevelBounds fb'.Boxes ∧
      (fb'.Boxes.take rs.length).Perm (leafBoxes 0 rs) := by
  obtain ⟨h1, h2, h3, h4⟩ := inserted_fields ns rs
  have hlen : (inserted ns rs).Boxes.length = rs.length := by
    rw [h1, leafBoxes_length]
  have hpos : 1 ≤ rs.length := by
    cases rs with
    | nil => exact absurd rfl hrs
    | cons r rs => simp
  obtain ⟨fb', g1, g2, g3, g4, g5, g6, _⟩ := Finish_spec (inserted ns rs) rs.length fuel hlen
    hpos h3 (by rw [h2]; exact hroom) hfuel
    (by rw [h1]; exact leafBoxes_numeric rs 0)
  refine ⟨fb', g1, by rw [g2, h2], g3, g4, by rw [g3]; exact g5, by rw [← h1]; exact g6⟩

theorem search_inserted (ns : Nat) (rs : List Rect) (q : Query) (hrs : rs ≠ [])
    (hroom : 3 * rs.length + clampNodeSize ns ≤ sizeMod) :
    ∃ (F : Nat) (fb' : FlatBush) (res : List Nat),
      res.Perm (keptLeaves q 0 rs) ∧ fb'.NodeSize = clampNodeSize ns ∧
      fb'.NumItems = rs.length ∧
      TreeOK fb'.NodeSize fb'.NumItems fb'.LevelBounds fb'.Boxes ∧
      (fb'.Boxes.take rs.length).Perm (leafBoxes 0 rs) ∧
      ∀ fuel, F ≤ fuel →
        (inserted ns rs).Finish fuel = Res.ok fb' ∧
        ∀ results, fb'.SearchInto q.minX q.minY q.maxX q.maxY results fuel
          = Res.ok (results ++ res) := by
  obtain ⟨fb', g1, g2, g3, g4, g5, g6⟩ := finish_inserted ns rs (2 * rs.length + 4) hrs hroom
    (le_refl _)
  obtain ⟨hit, k1, k2, F, k3⟩ := SearchInto_spec fb' q.minX q.minY q.maxX q.maxY g5
  have hN : rs.length ≤ fb'.Boxes.length := by
    have h1 := g5.levels.first_le_end (fb'.LevelBounds.length - 1)
      (by have := g5.two; omega)
    have h2 := g5.total
    omega
  rw [g3] at k1
  refine ⟨max F (2 * rs.length + 4), fb', hit.map fun p => (boxAt fb'.Boxes p).Index,
    results_perm fb'.Boxes rs.length rs q hit hN g6 k1 k2, g2, g3, g5, g6, ?_⟩
  intro fuel hfuel
  exact ⟨Finish_mono _ _ _ g1 fuel (by omega), fun results => k3 fuel (by omega) results⟩

/-! ## Lemmas for the later claims -/

theorem addAll_nodeSize (ns : Nat) : ∀ (rs : List Rect) (fb : FlatBush),
    (addAll { fb with NodeSize := ns } rs).1 = { (addAll fb rs).1 with NodeSize := ns }
  | [], fb => rfl
  | r :: rs, fb => by
    simp only [addAll]
    exact addAll_nodeSize ns rs (fb.Add (TCoord.num r.minX) (TCoord.num r.minY)
      (TCoord.num r.maxX) (TCoord.num r.maxY)).1

theorem Finish_nodeSize (fb : FlatBush) (fuel : Nat) (fb' : FlatBush)
    (h : fb.Finish fuel = Res.ok fb') : fb'.NodeSize = clampNodeSize fb.NodeSize := by
  unfold FlatBush.Finish at h
  dsimp only at h
  cases hl : levelLoop (if fb.NodeSize < 2 then 2 else fb.NodeSize) fuel fb.Boxes.length
      fb.Boxes.length (fb.LevelBounds ++ [fb.Boxes.length]) with
  | fault => simp [hl] at h
  | outOfFuel => simp [hl] at h
  | ok lb =>
    simp only [hl] at h
    cases hs : FlatBush.Sort fuel
        (fb.Boxes.map (hilbertOfBox fb.Bounds (fb.Bounds.MaxX - fb.Bounds.MinX)
          (fb.Bounds.MaxY - fb.Bounds.MinY))) fb.Boxes 0 (wsub fb.Boxes.length 1) with
    | fault => simp [hs] at h
    | outOfFuel => simp [hs] at h
    | ok res =>
      obtain ⟨hv, boxes⟩ := res
      simp only [hs] at h
      cases hb : buildLevels (if fb.NodeSize < 2 then 2 else fb.NodeSize) lb fuel 0 boxes 0 with
      | fault => simp [hb] at h
      | outOfFuel => simp [hb] at h
      | ok boxes' =>
        simp only [hb, Res.ok.injEq] at h
        rw [← h]
        rfl

theorem Finish_clamp (fb : FlatBush) (ns : Nat) (hns : ns < 2) (fuel : Nat) :
    ({ fb with NodeSize := ns }).Finish fuel = ({ fb with NodeSize := 2 }).Finish fuel := by
  unfold FlatBush.Finish
  have h1 : (if ns < 2 then 2 else ns) = 2 := if_pos hns
  have h2 : (if 2 < 2 then 2 else 2) = 2 := rfl
  simp only [h1, h2]

theorem searchNode_append (self : FlatBush) (minX minY maxX maxY : TCoord) (nodeIndex level : Nat)
    (r : List Nat) :
    ∀ (count pos : Nat) (queue results : List Nat),
      searchNode self minX minY maxX maxY nodeIndex level count pos queue (r ++ results) =
        match searchNode self minX minY maxX maxY nodeIndex level count pos queue results with
        | Res.ok (queue', results') => Res.ok (queue', r ++ results')
        | Res.fault => Res.fault
        | Res.outOfFuel => Res.outOfFuel := by
  intro count
  induction count with
  | zero => intro pos queue results; rfl
  | succ count ih =>
    intro pos queue results
    unfold searchNode
    cases hb : self.Boxes[pos]? with
    | none => rfl
    | some b =>
      simp only
      by_cases hrej : rejects minX minY maxX maxY b = true
      · rw [if_pos hrej, if_pos hrej]
        exact ih _ _ _
      · rw [if_neg hrej, if_neg hrej]
        by_cases hleaf : nodeIndex < self.NumItems
        · rw [if_pos hleaf, if_pos hleaf, List.append_assoc]
          exact ih _ _ _
        · rw [if_neg hleaf, if_neg hleaf]
          exact ih _ _ _

theorem searchLoop_append (self : FlatBush) (minX minY maxX maxY : TCoord) (r : List Nat) :
    ∀ (fuel : Nat) (queue results : List Nat),
      searchLoop self minX minY maxX maxY fuel queue (r ++ results) =
        match searchLoop self minX minY maxX maxY fuel queue results with
        | Res.ok results' => Res.ok (r ++ results')
        | Res.fault => Res.fault
        | Res.outOfFuel => Res.outOfFuel := by
  intro fuel
  induction fuel with
  | zero =>
    intro queue results
    cases queue with
    | nil => simp [searchLoop]
    | cons a queue => simp [searchLoop]
  | succ f ih =>
    intro queue results
    cases queue with
    | nil => simp [searchLoop]
    | cons level queue =>
      cases queue with
      | nil => simp [searchLoop]
      | cons nodeIndex queue =>
        unfold searchLoop
        cases hl : self.LevelBounds[level]? with
        | none => rfl
        | some levelBound =>
          simp only
          rw [searchNode_append]
          cases hs : searchNode self minX minY maxX maxY nodeIndex level
              (min (wadd nodeIndex self.NodeSize) levelBound - nodeIndex) nodeIndex queue
              results with
          | fault => rfl
          | outOfFuel => rfl
          | ok res =>
            obtain ⟨queue', results'⟩ := res
            simp only
            exact ih _ _

theorem isChild_iff {self : FlatBush}
    (htree : TreeOK self.NodeSize self.NumItems self.LevelBounds self.Boxes) {k p c : Nat}
    (h : IsChild self k p c) :
    ∃ t c', p = lvlEnd self.LevelBounds k + t ∧ t < lvlSize self.LevelBounds (k + 1) ∧
      c = lvlBase self.LevelBounds k + c' ∧ c' / self.NodeSize = t ∧
      c' < lvlSize self.LevelBounds k := by
  obtain ⟨h1, h2, h3, h4, h5⟩ := h
  have hns : 0 < self.NodeSize := by have := htree.ns_ge; omega
  rw [lvlBase_succ] at h1
  have he1 := htree.levels.end_eq h3
  rw [lvlBase_succ] at he1
  have he0 := htree.levels.end_eq (k := k) (by omega)
  obtain ⟨_, n2, _⟩ := htree.nodes k (p - lvlEnd self.LevelBounds k) h3 (by omega)
  rw [show lvlEnd self.LevelBounds k + (p - lvlEnd self.LevelBounds k) = p by omega] at n2
  refine ⟨p - lvlEnd self.LevelBounds k, c - lvlBase self.LevelBounds k, by omega, by omega,
    by omega, ?_, by omega⟩
  rw [div_eq_iff_range hns]
  omega

theorem descendant_contains {self : FlatBush}
    (htree : TreeOK self.NodeSize self.NumItems self.LevelBounds self.Boxes) {p d : Nat}
    (h : IsDescendant self p d) : (boxAt self.Boxes p).Contains (boxAt self.Boxes d) := by
  have key : ∀ {k p c : Nat}, IsChild self k p c →
      (boxAt self.Boxes p).Contains (boxAt self.Boxes c) := by
    intro k p c hc
    obtain ⟨t, c', rfl, ht, rfl, hdiv, hc'⟩ := isChild_iff htree hc
    exact (htree.nodes k t hc.2.2.1 ht).2.2 c' hdiv hc'
  induction h with
  | child hc => exact key hc
  | step hc _ ih => exact (key hc).trans ih

theorem IsDescendant.extend {self : FlatBush} {k p c d : Nat} (h : IsDescendant self p c)
    (hc : IsChild self k c d) : IsDescendant self p d := by
  induction h with
  | child h0 => exact IsDescendant.step h0 (IsDescendant.child hc)
  | step h0 _ ih => exact IsDescendant.step h0 (ih hc)

theorem exists_parent {self : FlatBush}
    (htree : TreeOK self.NodeSize self.NumItems self.LevelBounds self.Boxes) {k c : Nat}
    (hk : k + 1 < self.LevelBounds.length) (hc : c < lvlSize self.LevelBounds k) :
    c / self.NodeSize < lvlSize self.LevelBounds (k + 1) ∧
      IsChild self k (lvlBase self.LevelBounds (k + 1) + c / self.NodeSize)
        (lvlBase self.LevelBounds k + c) := by
  have hns : 0 < self.NodeSize := by have := htree.ns_ge; omega
  have ht : c / self.NodeSize < lvlSize self.LevelBounds (k + 1) := by
    rw [htree.levels.size_succ hk]
    exact div_lt_ceilDiv hns hc
  obtain ⟨_, n2, _⟩ := htree.nodes k (c / self.NodeSize) hk ht
  have he1 := htree.levels.end_eq hk
  have he0 := htree.levels.end_eq (k := k) (by omega)
  have hr := (div_eq_iff_range (c := c) (j := c / self.NodeSize) hns).1 rfl
  rw [lvlBase_succ] at he1 ⊢
  refine ⟨ht, ?_, ?_, hk, ?_, ?_⟩
  · rw [lvlBase_succ]
    exact Nat.le_add_right _ _
  · omega
  · rw [n2]
    omega
  · rw [n2]
    omega

theorem root_descendant {self : FlatBush}
    (htree : TreeOK self.NodeSize self.NumItems self.LevelBounds self.Boxes) :
    ∀ m k, k + m + 1 = self.LevelBounds.length - 1 → ∀ c, c < lvlSize self.LevelBounds k →
      IsDescendant self (self.Boxes.length - 1) (lvlBase self.LevelBounds k + c) := by
  have htwo := htree.two
  intro m
  induction m with
  | zero =>
    intro k hk c hc
    obtain ⟨ht, hch⟩ := exists_parent htree (k := k) (by omega) hc
    have htop := htree.top
    have htot := htree.total
    have he := htree.levels.end_eq (k := self.LevelBounds.length - 1) (by omega)
    rw [show self.LevelBounds.length - 1 = k + 1 by omega] at htop htot he
    rw [htop] at ht
    have hp : lvlBase self.LevelBounds (k + 1) = self.Boxes.length - 1 := by omega
    rw [Nat.lt_one_iff.mp ht, Nat.add_zero, hp] at hch
    exact IsDescendant.child hch
  | succ m ih =>
    intro k hk c hc
    obtain ⟨ht, hch⟩ := exists_parent htree (k := k) (by omega) hc
    exact (ih (k + 1) (by omega) _ ht).extend hch

theorem Sort_split (values : List Nat) (boxes : List Box) (left right f : Nat)
    (hbl : boxes.length = values.length) (hlr : left < right) (hr : right < values.length)
    (hsize : 2 * values.length < sizeMod) (hf : right - left + 3 ≤ f) :
    ∃ pivot v1 b1 j, readIn left right values (wadd left right >>> 1) = some pivot ∧
      partitionLoopIn left right pivot f values boxes (wsub left 1) (wadd right 1) =
        Res.ok (v1, b1, j) ∧
      left ≤ j ∧ j < right := by
  have hmid : wadd left right >>> 1 = (left + right) / 2 := by
    rw [wadd_eq (by omega), Nat.shiftRight_eq_div_pow]
  obtain ⟨v1, b1, j, h1, h2, h3, _⟩ :=
    partitionLoopIn_spec (values.getD ((left + right) / 2) 0) values.length left right
      (by omega) hr f
      values boxes (wsub left 1) (wadd right 1) left right ((left + right) / 2)
      ((left + right) / 2) rfl hbl (wadd_wsub_one (by omega)) (wsub_wadd_one (by omega))
      (le_refl _) (by omega) (le_refl _) (by omega) (by omega) (by omega) (le_refl _)
      (by omega) (by omega) (by omega) (le_refl _) (Or.inl (by omega))
      (fun k h1 h2 => by omega) (fun k h1 h2 => by omega) (by omega)
  refine ⟨values.getD ((left + right) / 2) 0, v1, b1, j, ?_, h1, h2, h3⟩
  rw [hmid]
  exact readIn_of_mem left right values 0 (by omega) (by omega) (by omega)

theorem levelLoop_wrap_diverges :
    ∀ (fuel numNodes : Nat) (lb : List Nat),
      levelLoop (sizeMod - 1) fuel 0 numNodes lb = Res.outOfFuel := by
  intro fuel
  induction fuel with
  | zero => intro numNodes lb; rfl
  | succ f ih =>
    intro numNodes lb
    unfold levelLoop
    have h0 : ¬ sizeMod - 1 = 0 := by decide
    have h1 : wsub (wadd 0 (sizeMod - 1)) 1 / (sizeMod - 1) = 0 := by
      rw [wadd_eq (by decide), wsub_eq (by decide) (by decide)]
      decide
    rw [if_neg h0]
    simp only [h1]
    exact ih _ _

/-! ## The Hilbert mapping, lane by lane -/

theorem hilbert_words (x y : Nat) (hx : x < 2 ^ 16) (hy : y < 2 ^ 16) :
    HilbertXYToIndex 16 x y =
      ((Interleave (hilbertI1 x y) <<< 1) % u32Mod) ||| Interleave (x ^^^ y) := by
  have hx' : (x <<< (16 - 16)) % u32Mod = x := by
    rw [Nat.sub_self, Nat.shiftLeft_zero]
    exact Nat.mod_eq_of_lt (by unfold u32Mod; omega)
  have hy' : (y <<< (16 - 16)) % u32Mod = y := by
    rw [Nat.sub_self, Nat.shiftLeft_zero]
    exact Nat.mod_eq_of_lt (by unfold u32Mod; omega)
  unfold HilbertXYToIndex
  simp only [hx', hy']
  rfl

theorem testBit_high {z k i : Nat} (hz : z < 2 ^ k) (hi : k ≤ i) : z.testBit i = false :=
  Nat.testBit_lt_two_pow (lt_of_lt_of_le hz (Nat.pow_le_pow_right (by decide) hi))

theorem mask8_testBit (j : Nat) :
    (0x00FF00FF : Nat).testBit j = (decide (j < 32) && decide (j % 16 < 8)) := by
  rcases Nat.lt_or_ge j 32 with h | h
  · interval_cases j <;> rfl
  · rw [testBit_high (k := 32) (by decide) h]
    simp [Nat.not_lt.mpr h]

theorem mask4_testBit (j : Nat) :
    (0x0F0F0F0F : Nat).testBit j = (decide (j < 32) && decide (j % 8 < 4)) := by
  rcases Nat.lt_or_ge j 32 with h | h
  · interval_cases j <;> rfl
  · rw [testBit_high (k := 32) (by decide) h]
    simp [Nat.not_lt.mpr h]

theorem mask2_testBit (j : Nat) :
    (0x33333333 : Nat).testBit j = (decide (j < 32) && decide (j % 4 < 2)) := by
  rcases Nat.lt_or_ge j 32 with h | h
  · interval_cases j <;> rfl
  · rw [testBit_high (k := 32) (by decide) h]
    simp [Nat.not_lt.mpr h]

theorem mask1_testBit (j : Nat) :
    (0x55555555 : Nat).testBit j = (decide (j < 32) && decide (j % 2 < 1)) := by
  rcases Nat.lt_or_ge j 32 with h | h
  · interval_cases j <;> rfl
  · rw [testBit_high (k := 32) (by decide) h]
    simp [Nat.not_lt.mpr h]

theorem Interleave_testBit (z : Nat) (hz : z < 2 ^ 16) (j : Nat) :
    (Interleave z).testBit j = (decide (j % 2 = 0) && z.testBit (j / 2)) := by
  have hb : ∀ k, 16 ≤ k → z.testBit k = false := fun k hk => testBit_high hz hk
  have h32 : u32Mod = 2 ^ 32 := rfl
  rcases Nat.lt_or_ge j 32 with h | h
  · unfold Interleave
    simp only [h32, Nat.testBit_and, Nat.testBit_or, Nat.testBit_mod_two_pow,
      Nat.testBit_shiftLeft, mask8_testBit, mask4_testBit, mask2_testBit, mask1_testBit]
    interval_cases j <;> simp [hb]
  · have hI : Interleave z < 2 ^ 32 := by
      unfold Interleave
      exact lt_of_le_of_lt Nat.and_le_right (by decide)
    rw [testBit_high hI h, hb (j / 2) (by omega)]
    simp

theorem laneAdd_assoc (u v w : Bool × Bool) :
    laneAdd (laneAdd u v) w = laneAdd u (laneAdd v w) := by
  rcases u with ⟨_ | _, _ | _⟩ <;> rcases v with ⟨_ | _, _ | _⟩ <;>
    rcases w with ⟨_ | _, _ | _⟩ <;> rfl

theorem laneAdd_zero (u : Bool × Bool) : laneAdd u (false, false) = u := by
  rcases u with ⟨_ | _, _ | _⟩ <;> rfl

theorem zero_laneAdd (u : Bool × Bool) : laneAdd (false, false) u = u := by
  rcases u with ⟨_ | _, _ | _⟩ <;> rfl

theorem laneMul_zero (p : Bool × Bool) : laneMul p (false, false) = (false, false) := by
  rcases p with ⟨_ | _, _ | _⟩ <;> rfl

theorem laneMul_add (p u v : Bool × Bool) :
    laneMul p (laneAdd u v) = laneAdd (laneMul p u) (laneMul p v) := by
  rcases p with ⟨_ | _, _ | _⟩ <;> rcases u with ⟨_ | _, _ | _⟩ <;>
    rcases v with ⟨_ | _, _ | _⟩ <;> rfl

theorem laneMul_assoc (p q w : Bool × Bool) :
    laneMul (laneMul p q) w = laneMul p (laneMul q w) := by
  rcases p with ⟨_ | _, _ | _⟩ <;> rcases q with ⟨_ | _, _ | _⟩ <;>
    rcases w with ⟨_ | _, _ | _⟩ <;> rfl

theorem laneStep_zero (x y i : Nat) : laneStep x y i (false, false) = (false, false) := by
  unfold laneStep
  simp

theorem laneStep_add (x y i : Nat) (u v : Bool × Bool) :
    laneStep x y i (laneAdd u v) = laneAdd (laneStep x y i u) (laneStep x y i v) := by
  unfold laneStep
  generalize (hilbertB0 x y).testBit i = b
  generalize (hilbertA0 x y).testBit i = a
  rcases u with ⟨_ | _, _ | _⟩ <;> rcases v with ⟨_ | _, _ | _⟩ <;> cases a <;> cases b <;> rfl

theorem laneComp_succ (x y s i : Nat) (w : Bool × Bool) :
    laneComp x y (s + 1) i w = laneStep x y i (laneComp x y s (i + 1) w) := rfl

theorem laneScan_succ (x y s i : Nat) :
    laneScan x y (s + 1) i =
      laneAdd (lanes (hilbertC0 x y) (hilbertD0 x y) i)
        (laneStep x y i (laneScan x y s (i + 1))) := rfl

theorem laneComp_zero (x y : Nat) :
    ∀ s i, laneComp x y s i (false, false) = (false, false)
  | 0, _ => rfl
  | s + 1, i => by
    rw [laneComp_succ, laneComp_zero x y s (i + 1), laneStep_zero]

theorem laneComp_add (x y : Nat) :
    ∀ s i t w, laneComp x y (s + t) i w = laneComp x y s i (laneComp x y t (i + s) w)
  | 0, i, t, w => by
    rw [Nat.zero_add]
    rfl
  | s + 1, i, t, w => by
    rw [show s + 1 + t = (s + t) + 1 by omega, laneComp_succ, laneComp_succ,
      laneComp_add x y s (i + 1) t w, show i + 1 + s = i + (s + 1) by omega]

theorem laneScan_add (x y : Nat) :
    ∀ s i t, laneScan x y (s + t) i =
      laneAdd (laneScan x y s i) (laneComp x y s i (laneScan x y t (i + s)))
  | 0, i, t => by
    rw [Nat.zero_add]
    show laneScan x y t i = laneAdd (false, false) (laneScan x y t (i + 0))
    rw [zero_laneAdd]
    rfl
  | s + 1, i, t => by
    rw [show s + 1 + t = (s + t) + 1 by omega, laneScan_succ, laneScan_succ, laneComp_succ,
      laneScan_add x y s (i + 1) t, laneStep_add, laneAdd_assoc,
      show i + 1 + s = i + (s + 1) by omega]

theorem lanes_scanAB (a b s i : Nat) :
    lanes (scanA a b s) (scanB a b s) i = laneMul (lanes a b i) (lanes a b (i + s)) := by
  unfold lanes scanA scanB laneMul
  simp only [Nat.testBit_xor, Nat.testBit_and, Nat.testBit_shiftRight, Nat.add_comm s i]

theorem lanes_scanCD (a b c d s i : Nat) :
    lanes (scanC a b c d s) (scanD a b c d s) i =
      laneAdd (lanes c d i) (laneMul (lanes a b i) (lanes c d (i + s))) := by
  unfold lanes scanC scanD laneMul laneAdd
  simp only [Nat.testBit_xor, Nat.testBit_and, Nat.testBit_shiftRight, Nat.add_comm s i]
  generalize a.testBit i = p
  generalize b.testBit i = q
  generalize c.testBit (i + s) = u
  generalize d.testBit (i + s) = v
  cases p <;> cases q <;> cases u <;> cases v <;> simp

theorem mask16_testBit (i : Nat) : (0xFFFF : Nat).testBit i = decide (i < 16) :=
  Nat.testBit_two_pow_sub_one 16 i

theorem hilbertA0_testBit (x y i : Nat) :
    (hilbertA0 x y).testBit i = (x.testBit i ^^ y.testBit i) := by
  unfold hilbertA0
  rw [Nat.testBit_xor]

theorem hilbertB0_testBit (x y i : Nat) :
    (hilbertB0 x y).testBit i = (decide (i < 16) ^^ (x.testBit i ^^ y.testBit i)) := by
  unfold hilbertB0
  rw [Nat.testBit_xor, Nat.testBit_xor, mask16_testBit]

theorem hilbertC0_testBit (x y i : Nat) :
    (hilbertC0 x y).testBit i = (decide (i < 16) ^^ (x.testBit i || y.testBit i)) := by
  unfold hilbertC0
  rw [Nat.testBit_xor, Nat.testBit_or, mask16_testBit]

theorem hilbertD0_testBit (x y i : Nat) :
    (hilbertD0 x y).testBit i = (x.testBit i && (y.testBit i ^^ decide (i < 16))) := by
  unfold hilbertD0
  rw [Nat.testBit_and, Nat.testBit_xor, mask16_testBit]

theorem laneScan_high (x y : Nat) (hx : x < 2 ^ 16) (hy : y < 2 ^ 16) :
    ∀ s i, 16 ≤ i → laneScan x y s i = (false, false)
  | 0, _, _ => rfl
  | s + 1, i, hi => by
    rw [laneScan_succ, laneScan_high x y hx hy s (i + 1) (by omega), laneStep_zero]
    unfold lanes
    rw [hilbertC0_testBit, hilbertD0_testBit, testBit_high hx hi, testBit_high hy hi]
    simp [Nat.not_lt.mpr hi]
    rfl

theorem hilbert_mul1 (x y i : Nat) (hi : i + 2 ≤ 16) (w : Bool × Bool) :
    laneMul (lanes (hilbertA1 x y) (hilbertB1 x y) i) w = laneComp x y 2 i w := by
  show _ = laneStep x y i (laneStep x y (i + 1) w)
  have h1 : decide (i < 16) = true := decide_eq_true (by omega)
  have h2 : decide (i + 1 < 16) = true := decide_eq_true (by omega)
  unfold lanes hilbertA1 hilbertB1 laneStep laneMul
  simp only [Nat.testBit_or, Nat.testBit_xor, Nat.testBit_shiftRight, Nat.add_comm 1 i,
    hilbertA0_testBit, hilbertB0_testBit, h1, h2]
  generalize x.testBit i = p
  generalize y.testBit i = q
  generalize x.testBit (i + 1) = p'
  generalize y.testBit (i + 1) = q'
  rcases w with ⟨_ | _, _ | _⟩ <;> cases p <;> cases q <;> cases p' <;> cases q' <;> rfl

theorem hilbert_vec1 (x y i : Nat) :
    lanes (hilbertC1 x y) (hilbertD1 x y) i = laneScan x y 2 i := by
  show _ = laneAdd (lanes (hilbertC0 x y) (hilbertD0 x y) i)
    (laneStep x y i (laneAdd (lanes (hilbertC0 x y) (hilbertD0 x y) (i + 1))
      (laneStep x y (i + 1) (false, false))))
  rw [laneStep_zero, laneAdd_zero]
  unfold lanes hilbertC1 hilbertD1 laneStep laneAdd
  simp only [Nat.testBit_and, Nat.testBit_xor, Nat.testBit_shiftRight, Nat.add_comm 1 i]
  generalize (hilbertA0 x y).testBit i = a
  generalize (hilbertB0 x y).testBit i = b
  generalize (hilbertC0 x y).testBit i = c
  generalize (hilbertD0 x y).testBit i = d
  generalize (hilbertC0 x y).testBit (i + 1) = c'
  generalize (hilbertD0 x y).testBit (i + 1) = d'
  cases a <;> cases b <;> cases c <;> cases d <;> cases c' <;> cases d' <;> rfl

theorem scan_round (x y : Nat) (hx : x < 2 ^ 16) (hy : y < 2 ^ 16) (a b c d s : Nat)
    (hmul : ∀ i, i + s ≤ 16 → ∀ w, laneMul (lanes a b i) w = laneComp x y s i w)
    (hvec : ∀ i, lanes c d i = laneScan x y s i) :
    (∀ i, i + (s + s) ≤ 16 → ∀ w,
      laneMul (lanes (scanA a b s) (scanB a b s) i) w = laneComp x y (s + s) i w) ∧
    ∀ i, lanes (scanC a b c d s) (scanD a b c d s) i = laneScan x y (s + s) i := by
  constructor
  · intro i hi w
    rw [lanes_scanAB, laneMul_assoc, hmul (i + s) (by omega), hmul i (by omega), laneComp_add]
  · intro i
    rw [lanes_scanCD, hvec, hvec, laneScan_add]
    rcases Nat.lt_or_ge (i + s) 16 with h | h
    · rw [hmul i (by omega)]
    · rw [laneScan_high x y hx hy s (i + s) h, laneMul_zero, laneComp_zero]

theorem hilbert_vec4 (x y : Nat) (hx : x < 2 ^ 16) (hy : y < 2 ^ 16) (i : Nat) :
    lanes (hilbertC4 x y) (hilbertD4 x y) i = laneScan x y 16 i := by
  have r2 := scan_round x y hx hy (hilbertA1 x y) (hilbertB1 x y) (hilbertC1 x y)
    (hilbertD1 x y) 2 (fun i hi w => hilbert_mul1 x y i hi w) (fun i => hilbert_vec1 x y i)
  have r3 := scan_round x y hx hy (hilbertA2 x y) (hilbertB2 x y) (hilbertC2 x y)
    (hilbertD2 x y) 4 r2.1 r2.2
  have r4 := scan_round x y hx hy (hilbertA3 x y) (hilbertB3 x y) (hilbertC3 x y)
    (hilbertD3 x y) 8 r3.1 r3.2
  exact r4.2 i

theorem laneScan_seq (x y : Nat) (hx : x < 2 ^ 16) (hy : y < 2 ^ 16) (i : Nat) :
    laneScan x y 16 i =
      laneAdd (lanes (hilbertC0 x y) (hilbertD0 x y) i)
        (laneStep x y i (laneScan x y 16 (i + 1))) := by
  have h := laneScan_add x y 15 (i + 1) 1
  rw [laneScan_high x y hx hy 1 (i + 1 + 15) (by omega), laneComp_zero, laneAdd_zero] at h
  have h16 : laneScan x y 16 (i + 1) = laneScan x y 15 (i + 1) := h
  rw [h16]
  rfl

theorem hilbertC4_testBit (x y : Nat) (hx : x < 2 ^ 16) (hy : y < 2 ^ 16) (i : Nat) :
    (hilbertC4 x y).testBit i = (laneScan x y 16 i).1 :=
  congrArg Prod.fst (hilbert_vec4 x y hx hy i)

theorem hilbertD4_testBit (x y : Nat) (hx : x < 2 ^ 16) (hy : y < 2 ^ 16) (i : Nat) :
    (hilbertD4 x y).testBit i = (laneScan x y 16 i).2 :=
  congrArg Prod.snd (hilbert_vec4 x y hx hy i)

theorem laneScan_cell (x y : Nat) (hx : x < 2 ^ 16) (hy : y < 2 ^ 16) (i : Nat) (hi : i < 16) :
    laneScan x y 16 i = cellState (x.testBit i) (y.testBit i) (laneScan x y 16 (i + 1)) := by
  rw [laneScan_seq x y hx hy i]
  have h1 : decide (i < 16) = true := decide_eq_true hi
  unfold cellState lanes laneStep
  rw [hilbertA0_testBit, hilbertB0_testBit, hilbertC0_testBit, hilbertD0_testBit, h1]
  simp only [Bool.true_xor, Bool.xor_true]

theorem hilbertI1_testBit (x y : Nat) (hx : x < 2 ^ 16) (hy : y < 2 ^ 16) (i : Nat) :
    (hilbertI1 x y).testBit i =
      (((laneScan x y 16 i).2 ^^ (laneScan x y 16 (i + 1)).2) ||
        (decide (i < 16) ^^ ((x.testBit i ^^ y.testBit i) ||
          ((laneScan x y 16 i).1 ^^ (laneScan x y 16 (i + 1)).1)))) := by
  unfold hilbertI1
  simp only [Nat.testBit_or, Nat.testBit_xor, Nat.testBit_shiftRight, mask16_testBit,
    hilbertC4_testBit x y hx hy, hilbertD4_testBit x y hx hy, Nat.add_comm 1 i]

theorem hilbertI1_cell (x y : Nat) (hx : x < 2 ^ 16) (hy : y < 2 ^ 16) (i : Nat) (hi : i < 16) :
    (hilbertI1 x y).testBit i =
      cellBit (x.testBit i) (y.testBit i) (laneScan x y 16 (i + 1)) := by
  rw [hilbertI1_testBit x y hx hy, laneScan_cell x y hx hy i hi]
  have h1 : decide (i < 16) = true := decide_eq_true hi
  unfold cellBit
  rw [h1, Bool.true_xor]

theorem hilbertI1_lt (x y : Nat) (hx : x < 2 ^ 16) (hy : y < 2 ^ 16) :
    hilbertI1 x y < 2 ^ 16 := by
  apply Nat.lt_pow_two_of_testBit
  intro i hi
  rw [hilbertI1_testBit x y hx hy, laneScan_high x y hx hy 16 i hi,
    laneScan_high x y hx hy 16 (i + 1) (by omega), testBit_high hx hi, testBit_high hy hi]
  simp [Nat.not_lt.mpr hi]

theorem index_testBit (u v : Nat) (hu : u < 2 ^ 16) (hv : v < 2 ^ 16) (i : Nat) (hi : i < 16) :
    (((Interleave u <<< 1) % u32Mod) ||| Interleave v).testBit (2 * i + 1) = u.testBit i ∧
      (((Interleave u <<< 1) % u32Mod) ||| Interleave v).testBit (2 * i) = v.testBit i := by
  have h32 : u32Mod = 2 ^ 32 := rfl
  have e1 : 2 * i + 1 - 1 = 2 * i := by omega
  have e2 : 2 * i % 2 = 0 := by omega
  have e3 : 2 * i / 2 = i := by omega
  have e4 : (2 * i + 1) % 2 = 1 := by omega
  have e5 : (2 * i - 1) % 2 = 1 ∨ i = 0 := by omega
  constructor
  · rw [h32, Nat.testBit_or, Nat.testBit_mod_two_pow, Nat.testBit_shiftLeft,
      Interleave_testBit u hu, Interleave_testBit v hv, e1, e2, e3, e4]
    have h1 : decide (2 * i + 1 < 32) = true := decide_eq_true (by omega)
    have h2 : decide (2 * i + 1 ≥ 1) = true := decide_eq_true (by omega)
    rw [h1, h2]
    simp
  · rw [h32, Nat.testBit_or, Nat.testBit_mod_two_pow, Nat.testBit_shiftLeft,
      Interleave_testBit u hu, Interleave_testBit v hv, e2, e3]
    rcases e5 with e5 | e5
    · rw [e5]
      simp
    · subst e5
      simp

theorem cell_injective (p q p' q' : Bool) (f : Bool × Bool) (h0 : (p ^^ q) = (p' ^^ q'))
    (h1 : cellBit p q f = cellBit p' q' f) : p = p' ∧ q = q' := by
  rcases f with ⟨_ | _, _ | _⟩ <;> cases p <;> cases q <;> cases p' <;> cases q' <;>
    first
    | exact ⟨rfl, rfl⟩
    | exact absurd h0 (by decide)
    | exact absurd h1 (by decide)

theorem hilbert_injective (x1 y1 x2 y2 : Nat) (hx1 : x1 < 2 ^ 16) (hy1 : y1 < 2 ^ 16)
    (hx2 : x2 < 2 ^ 16) (hy2 : y2 < 2 ^ 16)
    (h : HilbertXYToIndex 16 x1 y1 = HilbertXYToIndex 16 x2 y2) : x1 = x2 ∧ y1 = y2 := by
  rw [hilbert_words x1 y1 hx1 hy1, hilbert_words x2 y2 hx2 hy2] at h
  have hbits : ∀ i, i < 16 →
      (hilbertI1 x1 y1).testBit i = (hilbertI1 x2 y2).testBit i ∧
        (x1 ^^^ y1).testBit i = (x2 ^^^ y2).testBit i := by
    intro i hi
    obtain ⟨a1, a2⟩ := index_testBit (hilbertI1 x1 y1) (x1 ^^^ y1) (hilbertI1_lt x1 y1 hx1 hy1)
      (Nat.xor_lt_two_pow hx1 hy1) i hi
    obtain ⟨b1, b2⟩ := index_testBit (hilbertI1 x2 y2) (x2 ^^^ y2) (hilbertI1_lt x2 y2 hx2 hy2)
      (Nat.xor_lt_two_pow hx2 hy2) i hi
    rw [h] at a1 a2
    exact ⟨a1.symm.trans b1, a2.symm.trans b2⟩
  have key : ∀ n i, 16 ≤ i + n →
      x1.testBit i = x2.testBit i ∧ y1.testBit i = y2.testBit i ∧
        laneScan x1 y1 16 i = laneScan x2 y2 16 i := by
    intro n
    induction n with
    | zero =>
      intro i hi
      have hi' : 16 ≤ i := hi
      rw [testBit_high hx1 hi', testBit_high hx2 hi', testBit_high hy1 hi', testBit_high hy2 hi',
        laneScan_high x1 y1 hx1 hy1 16 i hi', laneScan_high x2 y2 hx2 hy2 16 i hi']
      exact ⟨rfl, rfl, rfl⟩
    | succ n ih =>
      intro i hi
      rcases Nat.lt_or_ge i 16 with hlt | hge
      · obtain ⟨_, _, hf⟩ := ih (i + 1) (by omega)
        obtain ⟨c1, c0⟩ := hbits i hlt
        rw [hilbertI1_cell x1 y1 hx1 hy1 i hlt, hilbertI1_cell x2 y2 hx2 hy2 i hlt, hf] at c1
        rw [Nat.testBit_xor, Nat.testBit_xor] at c0
        obtain ⟨e1, e2⟩ := cell_injective _ _ _ _ _ c0 c1
        refine ⟨e1, e2, ?_⟩
        rw [laneScan_cell x1 y1 hx1 hy1 i hlt, laneScan_cell x2 y2 hx2 hy2 i hlt, hf, e1, e2]
      · rw [testBit_high hx1 hge, testBit_high hx2 hge, testBit_high hy1 hge,
          testBit_high hy2 hge, laneScan_high x1 y1 hx1 hy1 16 i hge,
          laneScan_high x2 y2 hx2 hy2 16 i hge]
        exact ⟨rfl, rfl, rfl⟩
  exact ⟨Nat.eq_of_testBit_eq fun i => (key 16 i (by omega)).1,
    Nat.eq_of_testBit_eq fun i => (key 16 i (by omega)).2.1⟩

theorem searchAfterFinish_spec (ns : Nat) (rs : List Rect) (q : Query) (hrs : rs ≠ [])
    (hroom : 3 * rs.length + clampNodeSize ns ≤ sizeMod) :
    ∃ (F : Nat) (res : List Nat), res.Perm (keptLeaves q 0 rs) ∧
      ∀ fuel, F ≤ fuel → searchAfterFinish ns rs q fuel = Res.ok res := by
  obtain ⟨F, fb', res, h1, _, _, _, _, h2⟩ := search_inserted ns rs q hrs hroom
  refine ⟨F, res, h1, ?_⟩
  intro fuel hfuel
  obtain ⟨e1, e2⟩ := h2 fuel hfuel
  unfold searchAfterFinish
  rw [e1]
  simp only
  unfold FlatBush.Search
  rw [e2 []]
  rfl

theorem leafBoxes_filter (k : Nat) (r : Rect) : ∀ (rs : List Rect) (start : Nat),
    start ≤ k → rs[k - start]? = some r →
      (leafBoxes start rs).filter (fun b => decide (b.Index = k)) = [leafBox k r]
  | [], _, _, h => by simp at h
  | r' :: rs, start, hle, h => by
    have hnone : ∀ (rs : List Rect) (s : Nat), k < s →
        (leafBoxes s rs).filter (fun b => decide (b.Index = k)) = [] := by
      intro rs
      induction rs with
      | nil => intro s _; rfl
      | cons x xs ih =>
        intro s hs
        have hne : ¬ (leafBox s x).Index = k := by
          show ¬ s = k
          omega
        simp only [leafBoxes, List.filter_cons, hne, decide_False]
        exact ih (s + 1) (by omega)
    by_cases hk : k = start
    · subst hk
      simp only [Nat.sub_self, List.getElem?_cons_zero, Option.some.injEq] at h
      subst h
      have heq : (leafBox k r').Index = k := rfl
      simp only [leafBoxes, List.filter_cons, heq, decide_True, if_true]
      rw [hnone rs (k + 1) (by omega)]
    · have hne : ¬ (leafBox start r').Index = k := by
        show ¬ start = k
        omega
      simp only [leafBoxes, List.filter_cons, hne, decide_False]
      apply leafBoxes_filter k r rs (start + 1) (by omega)
      rw [show k - start = (k - (start + 1)) + 1 by omega] at h
      simpa using h

theorem levelLoop_zero_diverges :
    ∀ (fuel : Nat) (lb : List Nat), levelLoop 16 fuel 0 0 lb = Res.outOfFuel := by
  intro fuel
  induction fuel with
  | zero => intro lb; rfl
  | succ f ih =>
    intro lb
    unfold levelLoop
    have h1 : wsub (wadd 0 16) 1 / 16 = 0 := by
      rw [wadd_eq (by decide), wsub_eq (by decide) (by decide)]
    have h2 : wadd 0 0 = 0 := wadd_eq (by decide)
    simp only [h1, h2]
    exact ih _

theorem reserveLoop_zero_diverges :
    ∀ (fuel : Nat), reserveLoop 16 fuel 0 0 = Res.outOfFuel := by
  intro fuel
  induction fuel with
  | zero => rfl
  | succ f ih =>
    unfold reserveLoop
    have h1 : wsub (wadd 0 16) 1 / 16 = 0 := by
      rw [wadd_eq (by decide), wsub_eq (by decide) (by decide)]
    have h2 : wadd 0 0 = 0 := wadd_eq (by decide)
    simp only [h1, h2]
    exact ih

/-! ## The claims -/

/-- Claim C1, counterexample: with `NodeSize = 2 ^ 64 - 1`, one box `[0, 0, 1, 1]`
(bounds of width and height 1) and the query `[0, 0, 1, 1]`, `Finish` and
`Search` return normally, the box overlaps the query, and the result of `Search`
is empty. -/
theorem C1_counterexample :
    searchAfterFinish (sizeMod - 1) [⟨0, 0, 1, 1⟩] (Rect.toQuery ⟨0, 0, 1, 1⟩) 10 = Res.ok [] ∧
      (leafBox 0 ⟨0, 0, 1, 1⟩).PositiveUnion (queryBox (Rect.toQuery ⟨0, 0, 1, 1⟩)) = true ∧
      TCoord.num 0 < (inserted (sizeMod - 1) [⟨0, 0, 1, 1⟩]).Bounds.MaxX -
        (inserted (sizeMod - 1) [⟨0, 0, 1, 1⟩]).Bounds.MinX ∧
      TCoord.num 0 < (inserted (sizeMod - 1) [⟨0, 0, 1, 1⟩]).Bounds.MaxY -
        (inserted (sizeMod - 1) [⟨0, 0, 1, 1⟩]).Bounds.MinY := by
  decide!

/-- Claim C1, amended: no false negatives.  For every non-empty sequence `rs` of
boxes inserted with `Add` whose global bounds have positive width and height,
every `NodeSize` with `3 * N + max NodeSize 2 ≤ 2 ^ 64`, and every query `q`
(its arguments may be `nan`), `Finish` and then `Search q` return normally (for
every sufficient fuel), and the result contains the index `k` of every inserted
box that satisfies `PositiveUnion` with the query box. -/
theorem C1_no_false_negatives (ns : Nat) (rs : List Rect) (q : Query) (hrs : rs ≠ [])
    (hwidth : TCoord.num 0 < (inserted ns rs).Bounds.MaxX - (inserted ns rs).Bounds.MinX)
    (hheight : TCoord.num 0 < (inserted ns rs).Bounds.MaxY - (inserted ns rs).Bounds.MinY)
    (hroom : 3 * rs.length + clampNodeSize ns ≤ sizeMod) :
    ∃ F, ∀ fuel, F ≤ fuel →
      ∃ res, searchAfterFinish ns rs q fuel = Res.ok res ∧
        ∀ k r, rs[k]? = some r → (leafBox k r).PositiveUnion (queryBox q) = true →
          k ∈ res := by
  obtain ⟨F, res, h1, h2⟩ := searchAfterFinish_spec ns rs q hrs hroom
  refine ⟨F, fun fuel hfuel => ⟨res, h2 fuel hfuel, ?_⟩⟩
  intro k r hr hov
  rw [h1.mem_iff]
  apply bruteForce_sub_kept
  rw [mem_bruteForce]
  exact ⟨r, Nat.zero_le _, hr, hov⟩

/-- Claim C1, witness: the amended claim at the 3 x 3 grid of unit boxes with
the default `NodeSize` and the query `[1/2, 1/2, 3/2, 3/2]`. -/
theorem C1_witness :
    grid3 ≠ [] ∧
      TCoord.num 0 < (inserted 16 grid3).Bounds.MaxX - (inserted 16 grid3).Bounds.MinX ∧
      TCoord.num 0 < (inserted 16 grid3).Bounds.MaxY - (inserted 16 grid3).Bounds.MinY ∧
      3 * grid3.length + clampNodeSize 16 ≤ sizeMod ∧
      ∃ F, ∀ fuel, F ≤ fuel →
        ∃ res, searchAfterFinish 16 grid3 (Rect.toQuery ⟨1/2, 1/2, 3/2, 3/2⟩) fuel =
            Res.ok res ∧
          ∀ k r, grid3[k]? = some r →
            (leafBox k r).PositiveUnion (queryBox (Rect.toQuery ⟨1/2, 1/2, 3/2, 3/2⟩)) = true →
              k ∈ res :=
  ⟨by decide, by decide!, by decide!, by decide,
    C1_no_false_negatives 16 grid3 (Rect.toQuery ⟨1/2, 1/2, 3/2, 3/2⟩) (by decide)
      (by decide!) (by decide!) (by decide)⟩

/-- Claim C2, counterexample: on the 3 x 3 grid of unit boxes with the default
`NodeSize`, the query whose four arguments are `nan` makes every comparison of
the rejection test of `Search` false, so `Search` returns all nine indices,
while `PositiveUnion` with the query box is false for every inserted box. -/
theorem C2_counterexample :
    searchAfterFinish 16 grid3 ⟨TCoord.nan, TCoord.nan, TCoord.nan, TCoord.nan⟩ 30 =
        Res.ok [0, 3, 4, 1, 2, 5, 8, 7, 6] ∧
      (∀ b ∈ leafBoxes 0 grid3,
        b.PositiveUnion (queryBox ⟨TCoord.nan, TCoord.nan, TCoord.nan, TCoord.nan⟩) = false) ∧
      bruteForce ⟨TCoord.nan, TCoord.nan, TCoord.nan, TCoord.nan⟩ 0 grid3 = [] := by
  decide!

/-- Claim C2, amended: no false positives for queries whose arguments are
numbers.  For every non-empty sequence `rs` of boxes inserted with `Add` and
every query `q` with four numbers as arguments, `Finish` and then `Search q`
return normally (for every sufficient fuel), and every index `k` in the result
is the index that `Add` returned for the `k`-th inserted box, which satisfies
`PositiveUnion` with the query box. -/
theorem C2_no_false_positives (ns : Nat) (rs : List Rect) (q : Rect) (hrs : rs ≠ [])
    (hroom : 3 * rs.length + clampNodeSize ns ≤ sizeMod) :
    ∃ F, ∀ fuel, F ≤ fuel →
      ∃ res, searchAfterFinish ns rs q.toQuery fuel = Res.ok res ∧
        ∀ k, k ∈ res →
          (addAll { FlatBush.new with NodeSize := ns } rs).2[k]? = some k ∧
            ∃ r, rs[k]? = some r ∧
              (leafBox k r).PositiveUnion (queryBox q.toQuery) = true := by
  obtain ⟨F, res, h1, h2⟩ := searchAfterFinish_spec ns rs q.toQuery hrs hroom
  refine ⟨F, fun fuel hfuel => ⟨res, h2 fuel hfuel, ?_⟩⟩
  intro k hk
  rw [h1.mem_iff, keptLeaves_numeric, mem_bruteForce] at hk
  obtain ⟨r, _, hr, hov⟩ := hk
  rw [Nat.sub_zero] at hr
  refine ⟨?_, r, hr, hov⟩
  rw [addAll_indices]
  have hlt : k < rs.length := (List.getElem?_eq_some_iff.mp hr).1
  show (List.range' 0 rs.length)[k]? = some k
  rw [List.getElem?_range' _ _ hlt]
  simp

/-- Claim C2, witness: the amended claim at the 3 x 3 grid of unit boxes with
the default `NodeSize` and the query `[1/2, 1/2, 3/2, 3/2]`. -/
theorem C2_witness :
    grid3 ≠ [] ∧ 3 * grid3.length + clampNodeSize 16 ≤ sizeMod ∧
      ∃ F, ∀ fuel, F ≤ fuel →
        ∃ res, searchAfterFinish 16 grid3 (Rect.toQuery ⟨1/2, 1/2, 3/2, 3/2⟩) fuel =
            Res.ok res ∧
          ∀ k, k ∈ res →
            (addAll { FlatBush.new with NodeSize := 16 } grid3).2[k]? = some k ∧
              ∃ r, grid3[k]? = some r ∧
                (leafBox k r).PositiveUnion
                  (queryBox (Rect.toQuery ⟨1/2, 1/2, 3/2, 3/2⟩)) = true :=
  ⟨by decide, by decide,
    C2_no_false_positives 16 grid3 ⟨1/2, 1/2, 3/2, 3/2⟩ (by decide) (by decide)⟩

/-- Claim C3: no duplicates.  For every non-empty sequence of inserted boxes and
every query (its arguments may be `nan`), `Finish` and then the value-returning
`Search` return normally (for every sufficient fuel) and the returned list has
no repeated element. -/
theorem C3_no_duplicates (ns : Nat) (rs : List Rect) (q : Query) (hrs : rs ≠ [])
    (hroom : 3 * rs.length + clampNodeSize ns ≤ sizeMod) :
    ∃ F, ∀ fuel, F ≤ fuel →
      ∃ res, searchAfterFinish ns rs q fuel = Res.ok res ∧ res.Nodup := by
  obtain ⟨F, res, h1, h2⟩ := searchAfterFinish_spec ns rs q hrs hroom
  exact ⟨F, fun fuel hfuel => ⟨res, h2 fuel hfuel, h1.symm.nodup (keptLeaves_nodup q rs 0)⟩⟩

/-- Claim C3, witness: the claim at the 3 x 3 grid of unit boxes with the
default `NodeSize`. -/
theorem C3_witness :
    grid3 ≠ [] ∧ 3 * grid3.length + clampNodeSize 16 ≤ sizeMod ∧
      ∃ F, ∀ fuel, F ≤ fuel →
        ∃ res, searchAfterFinish 16 grid3 (Rect.toQuery ⟨1/2, 1/2, 3/2, 3/2⟩) fuel =
            Res.ok res ∧
          res.Nodup :=
  ⟨by decide, by decide,
    C3_no_duplicates 16 grid3 (Rect.toQuery ⟨1/2, 1/2, 3/2, 3/2⟩) (by decide) (by decide)⟩

/-- Claim C4, the code at the failing input: on a freshly constructed index with
no `Add` call and the default `NodeSize`, `Finish` does not return, whatever the
fuel: the loop that fills `LevelBounds` keeps `n = 0` and never reaches
`n == 1`. -/
theorem C4_finish_empty_diverges (fuel : Nat) : FlatBush.new.Finish fuel = Res.outOfFuel := by
  unfold FlatBush.Finish
  have h : levelLoop (if FlatBush.new.NodeSize < 2 then 2 else FlatBush.new.NodeSize) fuel
      FlatBush.new.Boxes.length FlatBush.new.Boxes.length
      (FlatBush.new.LevelBounds ++ [FlatBush.new.Boxes.length]) = Res.outOfFuel :=
    levelLoop_zero_diverges fuel _
  simp only [h]

/-- Claim C5: `Search` before `Finish` is a no-op.  After any sequence of `Add`
calls (and any assignment to `NodeSize`) without `Finish`, the output-parameter
`Search` leaves the caller's sequence unchanged and the value-returning `Search`
returns the empty list, for every query and every fuel. -/
theorem C5_search_before_finish (ns : Nat) (rs : List Rect) (q : Query) (results : List Nat)
    (fuel : Nat) :
    (inserted ns rs).SearchInto q.minX q.minY q.maxX q.maxY results fuel = Res.ok results ∧
      (inserted ns rs).Search q.minX q.minY q.maxX q.maxY fuel = Res.ok [] := by
  have h := (inserted_fields ns rs).2.2.1
  unfold FlatBush.Search FlatBush.SearchInto
  simp [h]

/-- Claim C6: `Add` assigns insertion-order indices.  On a fresh index the calls
of `Add` return `0, 1, 2, ...` in order; in particular after `N - 1` calls the
`N`-th call returns `N - 1`. -/
theorem C6_add_indices (rs : List Rect) (r : Rect) :
    (addAll FlatBush.new rs).2 = List.range rs.length ∧
      (addAll FlatBush.new (rs ++ [r])).2 = List.range rs.length ++ [rs.length] := by
  constructor
  · rw [addAll_indices, List.range_eq_range']
    rfl
  · rw [addAll_indices, List.length_append, List.length_singleton, List.range_eq_range']
    show List.range' 0 (rs.length + 1) = _
    rw [List.range'_concat]
    simp

/-- Claim C7: leaf indices are stable through `Finish`.  For every non-empty
sequence `rs` of inserted boxes, `Finish` returns normally (for every fuel of at
least `2 * N + 4`), the first `NumItems` entries of `Boxes` are a permutation of
the inserted leaves, and for every `k` the entries among them with `Index = k`
are exactly one box, with the coordinates of the `k`-th call of `Add`. -/
theorem C7_leaf_permutation (ns : Nat) (rs : List Rect) (fuel : Nat) (hrs : rs ≠ [])
    (hroom : 3 * rs.length + clampNodeSize ns ≤ sizeMod) (hfuel : 2 * rs.length + 4 ≤ fuel) :
    ∃ fb', (inserted ns rs).Finish fuel = Res.ok fb' ∧ fb'.NumItems = rs.length ∧
      (fb'.Boxes.take fb'.NumItems).Perm (leafBoxes 0 rs) ∧
      ∀ k r, rs[k]? = some r →
        (fb'.Boxes.take fb'.NumItems).filter (fun b => decide (b.Index = k)) = [leafBox k r] := by
  obtain ⟨fb', g1, _, g3, _, _, g6⟩ := finish_inserted ns rs fuel hrs hroom hfuel
  refine ⟨fb', g1, g3, by rw [g3]; exact g6, ?_⟩
  intro k r hr
  rw [g3]
  have h1 := g6.filter (fun b => decide (b.Index = k))
  rw [leafBoxes_filter k r rs 0 (Nat.zero_le _) (by rw [Nat.sub_zero]; exact hr)] at h1
  exact List.perm_singleton.mp h1

/-- Claim C7, witness: the claim at the 3 x 3 grid of unit boxes with the
default `NodeSize` and fuel 22. -/
theorem C7_witness :
    grid3 ≠ [] ∧ 3 * grid3.length + clampNodeSize 16 ≤ sizeMod ∧ 2 * grid3.length + 4 ≤ 22 ∧
      ∃ fb', (inserted 16 grid3).Finish 22 = Res.ok fb' ∧ fb'.NumItems = grid3.length ∧
        (fb'.Boxes.take fb'.NumItems).Perm (leafBoxes 0 grid3) ∧
        ∀ k r, grid3[k]? = some r →
          (fb'.Boxes.take fb'.NumItems).filter (fun b => decide (b.Index = k))
            = [leafBox k r] :=
  ⟨by decide, by decide, by decide,
    C7_leaf_permutation 16 grid3 22 (by decide) (by decide) (by decide)⟩

/-- Claim C8: size invariant.  For every non-empty sequence of `N` calls of
`Add`, `Finish` returns normally (for every fuel of at least `2 * N + 4`) and
`Size()` is `N` in the state it leaves; every `Search` on that state returns
normally (for every sufficient fuel).  `Search` is a `const` member function: it
takes the state and returns only the result list, so the state, and with it
`Size()`, is the same after any number of calls. -/
theorem C8_size_invariant (ns : Nat) (rs : List Rect) (fuel : Nat) (hrs : rs ≠ [])
    (hroom : 3 * rs.length + clampNodeSize ns ≤ sizeMod) (hfuel : 2 * rs.length + 4 ≤ fuel) :
    ∃ fb', (inserted ns rs).Finish fuel = Res.ok fb' ∧ fb'.Size = rs.length ∧
      ∀ q : Query, ∃ F, ∀ fuel', F ≤ fuel' →
        ∃ res, fb'.Search q.minX q.minY q.maxX q.maxY fuel' = Res.ok res := by
  obtain ⟨fb', g1, _, g3, _, g5, _⟩ := finish_inserted ns rs fuel hrs hroom hfuel
  refine ⟨fb', g1, g3, ?_⟩
  intro q
  obtain ⟨hit, _, _, F, k3⟩ := SearchInto_spec fb' q.minX q.minY q.maxX q.maxY g5
  exact ⟨F, fun fuel' hfuel' => ⟨_, k3 fuel' hfuel' []⟩⟩

/-- Claim C8, witness: the claim at the 3 x 3 grid of unit boxes with the
default `NodeSize` and fuel 22. -/
theorem C8_witness :
    grid3 ≠ [] ∧ 3 * grid3.length + clampNodeSize 16 ≤ sizeMod ∧ 2 * grid3.length + 4 ≤ 22 ∧
      ∃ fb', (inserted 16 grid3).Finish 22 = Res.ok fb' ∧ fb'.Size = grid3.length ∧
        ∀ q : Query, ∃ F, ∀ fuel', F ≤ fuel' →
          ∃ res, fb'.Search q.minX q.minY q.maxX q.maxY fuel' = Res.ok res :=
  ⟨by decide, by decide, by decide,
    C8_size_invariant 16 grid3 22 (by decide) (by decide) (by decide)⟩

/-- Claim C9, counterexample: after one call of `Add` on a fresh index, and no
`Finish`, `Size()` is 0 and not 1. -/
theorem C9_counterexample :
    (addAll FlatBush.new [⟨0, 0, 1, 1⟩]).1.Size = 0 ∧
      (addAll FlatBush.new [⟨0, 0, 1, 1⟩]).1.Size ≠ [(⟨0, 0, 1, 1⟩ : Rect)].length := by
  decide

/-- Claim C9, amended: `Size()` is the number of `Add` calls once `Finish` has
run.  For every non-empty sequence of `N` calls of `Add` on a fresh index,
`Size()` is 0 before `Finish`, `Finish` returns normally (for every fuel of at
least `2 * N + 4`), and `Size()` is `N` afterwards. -/
theorem C9_size_after_finish (ns : Nat) (rs : List Rect) (fuel : Nat) (hrs : rs ≠ [])
    (hroom : 3 * rs.length + clampNodeSize ns ≤ sizeMod) (hfuel : 2 * rs.length + 4 ≤ fuel) :
    (inserted ns rs).Size = 0 ∧
      ∃ fb', (inserted ns rs).Finish fuel = Res.ok fb' ∧ fb'.Size = rs.length := by
  obtain ⟨fb', g1, _, g3, _⟩ := finish_inserted ns rs fuel hrs hroom hfuel
  exact ⟨(inserted_fields ns rs).2.2.2, fb', g1, g3⟩

/-- Claim C9, witness: the amended claim at the 3 x 3 grid of unit boxes with
the default `NodeSize` and fuel 22. -/
theorem C9_witness :
    grid3 ≠ [] ∧ 3 * grid3.length + clampNodeSize 16 ≤ sizeMod ∧ 2 * grid3.length + 4 ≤ 22 ∧
      (inserted 16 grid3).Size = 0 ∧
      ∃ fb', (inserted 16 grid3).Finish 22 = Res.ok fb' ∧ fb'.Size = grid3.length :=
  ⟨by decide, by decide, by decide,
    C9_size_after_finish 16 grid3 22 (by decide) (by decide) (by decide)⟩

/-- Claim C10: the 3 x 3 grid scenario.  After the nine unit boxes are inserted
(`x` in the outer loop, default `NodeSize`) and `Finish` is called,
`Search(0.5, 0.5, 1.5, 1.5)` returns normally for every sufficient fuel, and its
result holds exactly the indices 0, 1, 3 and 4; with fuel 30 it is the list
`[0, 3, 4, 1]`. -/
theorem C10_grid_scenario :
    (∃ F, ∀ fuel, F ≤ fuel →
      ∃ res, searchAfterFinish 16 grid3 (Rect.toQuery ⟨1/2, 1/2, 3/2, 3/2⟩) fuel = Res.ok res ∧
        ∀ k, k ∈ res ↔ k ∈ [0, 1, 3, 4]) ∧
      searchAfterFinish 16 grid3 (Rect.toQuery ⟨1/2, 1/2, 3/2, 3/2⟩) 30 = Res.ok [0, 3, 4, 1] := by
  refine ⟨?_, by decide!⟩
  obtain ⟨F, res, h1, h2⟩ := searchAfterFinish_spec 16 grid3 (Rect.toQuery ⟨1/2, 1/2, 3/2, 3/2⟩)
    (by decide) (by decide)
  refine ⟨F, fun fuel hfuel => ⟨res, h2 fuel hfuel, fun k => ?_⟩⟩
  rw [h1.mem_iff, keptLeaves_numeric]
  have : bruteForce (Rect.toQuery ⟨1/2, 1/2, 3/2, 3/2⟩) 0 grid3 = [0, 1, 3, 4] := by decide!
  rw [this]

/-- Claim C11: the fan-out clamp of `Finish`.  For every non-empty sequence of
insertions, `Finish` returns normally; when `NodeSize` was set to 0 or 1 the
finished index has `NodeSize = 2` and is the very state (node array,
`LevelBounds` and all other fields) that `Finish` returns for the same
insertions with `NodeSize = 2`; a `NodeSize` of at least 2 is unchanged.  The
vectors are assumed to fit the address space, `3 * N + max NodeSize 2 ≤ 2 ^ 64`;
without that assumption, whenever `Finish` returns, `NodeSize` is the clamped
value. -/
theorem C11_node_size_clamp (ns : Nat) (rs : List Rect) (fuel : Nat) (hrs : rs ≠ [])
    (hroom : 3 * rs.length + clampNodeSize ns ≤ sizeMod) (hfuel : 2 * rs.length + 4 ≤ fuel) :
    ∃ fb', (inserted ns rs).Finish fuel = Res.ok fb' ∧
      (ns < 2 → fb'.NodeSize = 2 ∧ (inserted 2 rs).Finish fuel = Res.ok fb') ∧
      (2 ≤ ns → fb'.NodeSize = ns) ∧
      ∀ (fb : FlatBush) (fuel₂ : Nat) (fb₂ : FlatBush), fb.Finish fuel₂ = Res.ok fb₂ →
        fb₂.NodeSize = clampNodeSize fb.NodeSize := by
  obtain ⟨fb', g1, g2, _⟩ := finish_inserted ns rs fuel hrs hroom hfuel
  refine ⟨fb', g1, ?_, ?_, fun fb fuel₂ fb₂ h => Finish_nodeSize fb fuel₂ fb₂ h⟩
  · intro h
    refine ⟨by rw [g2]; exact if_pos h, ?_⟩
    rw [← g1]
    unfold inserted
    rw [addAll_nodeSize ns rs FlatBush.new, addAll_nodeSize 2 rs FlatBush.new]
    exact (Finish_clamp _ ns h fuel).symm
  · intro h
    rw [g2]
    exact if_neg (by omega)

/-- Claim C11, witness: the claim at the 3 x 3 grid of unit boxes with
`NodeSize = 1` and fuel 22. -/
theorem C11_witness :
    grid3 ≠ [] ∧ 3 * grid3.length + clampNodeSize 1 ≤ sizeMod ∧ 2 * grid3.length + 4 ≤ 22 ∧
      ∃ fb', (inserted 1 grid3).Finish 22 = Res.ok fb' ∧
        (1 < 2 → fb'.NodeSize = 2 ∧ (inserted 2 grid3).Finish 22 = Res.ok fb') ∧
        (2 ≤ 1 → fb'.NodeSize = 1) ∧
        ∀ (fb : FlatBush) (fuel₂ : Nat) (fb₂ : FlatBush), fb.Finish fuel₂ = Res.ok fb₂ →
          fb₂.NodeSize = clampNodeSize fb.NodeSize :=
  ⟨by decide, by decide, by decide,
    C11_node_size_clamp 1 grid3 22 (by decide) (by decide) (by decide)⟩

/-- Claim C12, the code at the failing inputs: `Reserve(0)` on a freshly
constructed index (the call of `src/test.cpp`) does not return, whatever the
fuel: its loop keeps `n = 0` and never reaches `n == 1`; and with `NodeSize = 0`
every call of `Reserve` divides by zero, where `Finish` clamps `NodeSize`.  When
`Reserve` does return, the state is the one it was called on. -/
theorem C12_reserve_zero_diverges :
    (∀ fuel, FlatBush.new.Reserve 0 fuel = Res.outOfFuel) ∧
      (∀ size fuel, ({ FlatBush.new with NodeSize := 0 }).Reserve size (fuel + 1) = Res.fault) ∧
      ∀ (self : FlatBush) (size fuel : Nat),
        self.Reserve size fuel = Res.ok self ∨ self.Reserve size fuel = Res.fault ∨
          self.Reserve size fuel = Res.outOfFuel := by
  refine ⟨?_, ?_, ?_⟩
  · intro fuel
    unfold FlatBush.Reserve
    have h : reserveLoop FlatBush.new.NodeSize fuel 0 0 = Res.outOfFuel :=
      reserveLoop_zero_diverges fuel
    simp only [h]
  · intro size fuel
    unfold FlatBush.Reserve
    have h : reserveLoop ({ FlatBush.new with NodeSize := 0 }).NodeSize (fuel + 1) size size =
        Res.fault := by
      unfold reserveLoop
      rfl
    simp only [h]
  · intro self size fuel
    unfold FlatBush.Reserve
    cases reserveLoop self.NodeSize fuel size size with
    | ok _ => exact Or.inl rfl
    | fault => exact Or.inr (Or.inl rfl)
    | outOfFuel => exact Or.inr (Or.inr rfl)

/-- Claim C13: the output-parameter `Search` appends.  For every index state,
every query, every initial contents `r` of the caller's sequence and every fuel,
the outcome of the output-parameter form is the outcome of the value-returning
form with `r` put in front of the returned list: the same fault or
non-termination, or `r` followed by exactly the list that `Search(Q)` returns. -/
theorem C13_search_appends (self : FlatBush) (minX minY maxX maxY : TCoord) (r : List Nat)
    (fuel : Nat) :
    self.SearchInto minX minY maxX maxY r fuel =
      match self.Search minX minY maxX maxY fuel with
      | Res.ok l => Res.ok (r ++ l)
      | Res.fault => Res.fault
      | Res.outOfFuel => Res.outOfFuel := by
  unfold FlatBush.Search FlatBush.SearchInto
  by_cases h : self.LevelBounds.length = 0
  · simp [h]
  · simp only [h, if_false]
    have := searchLoop_append self minX minY maxX maxY r fuel
      [wsub self.LevelBounds.length 1, wsub self.Boxes.length 1] []
    rw [List.append_nil] at this
    exact this

/-- Claim C14, counterexample: for the boxes `a = [0, 0, 1, 1]` and
`b = [nan, 0, 1, 1]`, `a.PositiveUnion(b)` is false and the rejection test of
`Search` for the query `b` keeps `a`: the rejection test is not the negation of
`PositiveUnion`. -/
theorem C14_counterexample :
    (⟨0, TCoord.num 0, TCoord.num 0, TCoord.num 1, TCoord.num 1⟩ : Box).PositiveUnion
        ⟨0, TCoord.nan, TCoord.num 0, TCoord.num 1, TCoord.num 1⟩ = false ∧
      rejects TCoord.nan (TCoord.num 0) (TCoord.num 1) (TCoord.num 1)
        ⟨0, TCoord.num 0, TCoord.num 0, TCoord.num 1, TCoord.num 1⟩ = false := by
  decide!

/-- Claim C14, amended: `PositiveUnion` is the inclusive test on closed
rectangles.  For all boxes, coordinates `nan` included, it is true exactly when
the four inclusive comparisons hold, it is symmetric, it holds for boxes that
touch only along a vertical edge, along a horizontal edge or at a corner, and a
box for which it holds is never rejected by the rejection test of `Search` for
the query `[b.MinX, b.MinY, b.MaxX, b.MaxY]`.  When no coordinate of the two
boxes is `nan`, the rejection test is exactly its negation. -/
theorem C14_overlap_predicate (a b : Box) :
    (a.PositiveUnion b = true ↔
      a.MaxX ≥ b.MinX ∧ a.MinX ≤ b.MaxX ∧ a.MaxY ≥ b.MinY ∧ a.MinY ≤ b.MaxY) ∧
    a.PositiveUnion b = b.PositiveUnion a ∧
    (a.MinX ≤ a.MaxX → b.MinX ≤ b.MaxX → a.MaxX = b.MinX → a.MinY ≤ b.MaxY →
      b.MinY ≤ a.MaxY → a.PositiveUnion b = true) ∧
    (a.MinY ≤ a.MaxY → b.MinY ≤ b.MaxY → a.MaxY = b.MinY → a.MinX ≤ b.MaxX →
      b.MinX ≤ a.MaxX → a.PositiveUnion b = true) ∧
    (a.MinX ≤ a.MaxX → a.MinY ≤ a.MaxY → b.MinX ≤ b.MaxX → b.MinY ≤ b.MaxY →
      a.MaxX = b.MinX → a.MaxY = b.MinY → a.PositiveUnion b = true) ∧
    (a.PositiveUnion b = true → rejects b.MinX b.MinY b.MaxX b.MaxY a = false) ∧
    (a.Numeric → b.Numeric → rejects b.MinX b.MinY b.MaxX b.MaxY a = !a.PositiveUnion b) := by
  have hb : (⟨b.Index, b.MinX, b.MinY, b.MaxX, b.MaxY⟩ : Box) = b := rfl
  refine ⟨?_, ?_, ?_, ?_, ?_, ?_, ?_⟩
  · rw [positiveUnion_iff]
    constructor
    · rintro ⟨h1, h2, h3, h4⟩
      exact ⟨h3, h1, h4, h2⟩
    · rintro ⟨h1, h2, h3, h4⟩
      exact ⟨h2, h4, h1, h3⟩
  · rw [Bool.eq_iff_iff, positiveUnion_iff, positiveUnion_iff]
    constructor
    · rintro ⟨h1, h2, h3, h4⟩
      exact ⟨h3, h4, h1, h2⟩
    · rintro ⟨h1, h2, h3, h4⟩
      exact ⟨h3, h4, h1, h2⟩
  · intro h1 h2 h3 h4 h5
    rw [positiveUnion_iff]
    exact ⟨coord_le_trans h1 (h3 ▸ h2), h4, h3 ▸ coord_le_refl (coord_le_isNum h1).2, h5⟩
  · intro h1 h2 h3 h4 h5
    rw [positiveUnion_iff]
    exact ⟨h4, coord_le_trans h1 (h3 ▸ h2), h5, h3 ▸ coord_le_refl (coord_le_isNum h1).2⟩
  · intro h1 h2 h3 h4 h5 h6
    rw [positiveUnion_iff]
    exact ⟨coord_le_trans h1 (h5 ▸ h3), coord_le_trans h2 (h6 ▸ h4),
      h5 ▸ coord_le_refl (coord_le_isNum h1).2, h6 ▸ coord_le_refl (coord_le_isNum h2).2⟩
  · intro h
    have h' := positiveUnion_not_rejects b.MinX b.MinY b.MaxX b.MaxY b.Index a
    rw [hb] at h'
    exact h' h
  · intro ha hbn
    have h := positiveUnion_eq b.MinX b.MinY b.MaxX b.MaxY b.Index a
      ⟨hbn.1, hbn.2.1, hbn.2.2.1, hbn.2.2.2⟩ ha
    rw [hb] at h
    rw [h, Bool.not_not]

/-- Claim C14, witness: the unit box `[0, 0, 1, 1]` and the box `[1, 1, 2, 2]`
touch at the corner `(1, 1)` only, and `PositiveUnion` holds for them. -/
theorem C14_witness :
    (⟨0, TCoord.num 0, TCoord.num 0, TCoord.num 1, TCoord.num 1⟩ : Box).PositiveUnion
      ⟨1, TCoord.num 1, TCoord.num 1, TCoord.num 2, TCoord.num 2⟩ = true :=
  (C14_overlap_predicate ⟨0, TCoord.num 0, TCoord.num 0, TCoord.num 1, TCoord.num 1⟩
    ⟨1, TCoord.num 1, TCoord.num 1, TCoord.num 2, TCoord.num 2⟩).2.2.2.2.1
    (by decide!) (by decide!) (by decide!) (by decide!) rfl rfl

/-- Claim C15, counterexample: with `NodeSize = 2 ^ 64 - 1` and two inserted
boxes `Finish` never returns, whatever the fuel: `n + NodeSize - 1` wraps to 0,
so the loop that fills `LevelBounds` continues with `n = 0` and never reaches
`n == 1`.  No finished `LevelBounds` exists. -/
theorem C15_counterexample :
    ¬ ∃ fuel fb', (inserted (sizeMod - 1) [⟨0, 0, 1, 1⟩, ⟨2, 2, 3, 3⟩]).Finish fuel =
      Res.ok fb' := by
  rintro ⟨fuel, fb', h⟩
  have hd : (inserted (sizeMod - 1) [⟨0, 0, 1, 1⟩, ⟨2, 2, 3, 3⟩]).Finish fuel =
      Res.outOfFuel := by
    unfold FlatBush.Finish
    obtain ⟨h1, h2, h3, _⟩ := inserted_fields (sizeMod - 1) [⟨0, 0, 1, 1⟩, ⟨2, 2, 3, 3⟩]
    have hl : (inserted (sizeMod - 1) [⟨0, 0, 1, 1⟩, ⟨2, 2, 3, 3⟩]).Boxes.length = 2 := by
      rw [h1]
      rfl
    have hc : (if sizeMod - 1 < 2 then 2 else sizeMod - 1) = sizeMod - 1 :=
      if_neg (by decide)
    have hloop : ∀ lb, levelLoop (sizeMod - 1) fuel 2 2 lb = Res.outOfFuel := by
      intro lb
      cases fuel with
      | zero => rfl
      | succ f =>
        unfold levelLoop
        have h0 : ¬ sizeMod - 1 = 0 := by decide
        have e1 : wsub (wadd 2 (sizeMod - 1)) 1 / (sizeMod - 1) = 0 := by
          have e : wadd 2 (sizeMod - 1) = 1 := by
            unfold wadd
            decide
          rw [e, wsub_eq (by decide) (by decide)]
          decide
        rw [if_neg h0]
        simp only [e1]
        exact levelLoop_wrap_diverges f _ _
    simp only [h2, hl, hc, hloop]
  rw [hd] at h
  exact Res.noConfusion h

/-- Claim C15, amended: the level table for vectors that fit the address space,
`3 * N + max NodeSize 2 ≤ 2 ^ 64`.  For every non-empty sequence of `N`
insertions `Finish` returns normally, `LevelBounds[0] = N`, `LevelBounds` is
strictly increasing, each later entry exceeds its predecessor by
`ceil (previous level size / max NodeSize 2)`, the last level has size 1 and
starts at position `Boxes.size() - 1`, and the last entry is `Boxes.size()`. -/
theorem C15_level_table (ns : Nat) (rs : List Rect) (fuel : Nat) (hrs : rs ≠ [])
    (hroom : 3 * rs.length + clampNodeSize ns ≤ sizeMod) (hfuel : 2 * rs.length + 4 ≤ fuel) :
    ∃ fb', (inserted ns rs).Finish fuel = Res.ok fb' ∧
      fb'.LevelBounds[0]? = some rs.length ∧
      (∀ k, k + 1 < fb'.LevelBounds.length →
        lvlEnd fb'.LevelBounds k < lvlEnd fb'.LevelBounds (k + 1) ∧
        lvlEnd fb'.LevelBounds (k + 1) = lvlEnd fb'.LevelBounds k +
          (lvlSize fb'.LevelBounds k + max ns 2 - 1) / max ns 2) ∧
      lvlSize fb'.LevelBounds (fb'.LevelBounds.length - 1) = 1 ∧
      lvlBase fb'.LevelBounds (fb'.LevelBounds.length - 1) = fb'.Boxes.length - 1 ∧
      fb'.LevelBounds.getLast? = some fb'.Boxes.length := by
  obtain ⟨fb', g1, g2, g3, _, g5, _⟩ := finish_inserted ns rs fuel hrs hroom hfuel
  have hmax : max ns 2 = fb'.NodeSize := by
    rw [g2]
    unfold clampNodeSize
    split <;> omega
  rw [g3] at g5
  have htwo := g5.two
  have hns : 1 ≤ fb'.NodeSize := by have := g5.ns_ge; omega
  have hlast := g5.levels.end_eq (k := fb'.LevelBounds.length - 1) (by omega)
  have htop := g5.top
  have htot := g5.total
  refine ⟨fb', g1, ?_, ?_, htop, by omega, ?_⟩
  · have := g5.levels.first
    unfold lvlEnd at this
    rw [← this, getElem?_getD_of_lt _ 0 (by omega)]
  · intro k hk
    rw [hmax]
    have hstep := g5.levels.step k hk
    have hpos := ceilDiv_pos (g5.levels.size_bounds hns g5.n_pos k (by omega)).1 hns
    exact ⟨by omega, hstep⟩
  · rw [List.getLast?_eq_getElem?, ← htot]
    unfold lvlEnd
    exact getElem?_getD_of_lt _ 0 (by omega)

/-- Claim C15, witness: the amended claim at the 3 x 3 grid of unit boxes with
`NodeSize = 2` and fuel 22. -/
theorem C15_witness :
    grid3 ≠ [] ∧ 3 * grid3.length + clampNodeSize 2 ≤ sizeMod ∧ 2 * grid3.length + 4 ≤ 22 ∧
      ∃ fb', (inserted 2 grid3).Finish 22 = Res.ok fb' ∧
        fb'.LevelBounds[0]? = some grid3.length ∧
        (∀ k, k + 1 < fb'.LevelBounds.length →
          lvlEnd fb'.LevelBounds k < lvlEnd fb'.LevelBounds (k + 1) ∧
          lvlEnd fb'.LevelBounds (k + 1) = lvlEnd fb'.LevelBounds k +
            (lvlSize fb'.LevelBounds k + max 2 2 - 1) / max 2 2) ∧
        lvlSize fb'.LevelBounds (fb'.LevelBounds.length - 1) = 1 ∧
        lvlBase fb'.LevelBounds (fb'.LevelBounds.length - 1) = fb'.Boxes.length - 1 ∧
        fb'.LevelBounds.getLast? = some fb'.Boxes.length :=
  ⟨by decide, by decide, by decide,
    C15_level_table 2 grid3 22 (by decide) (by decide) (by decide)⟩

/-- Claim C16: the bounding invariant.  For every non-empty sequence of
insertions `Finish` returns normally, and in the finished index the box of every
node contains the box of every one of its descendants, where the children of a
node of level `k + 1` are the up to `NodeSize` consecutive entries of level `k`
that start at position `node.Index`.  Every leaf is a descendant of the root,
which is stored last.  The vectors are assumed to fit the address space,
`3 * N + max NodeSize 2 ≤ 2 ^ 64`. -/
theorem C16_bounding_invariant (ns : Nat) (rs : List Rect) (fuel : Nat) (hrs : rs ≠ [])
    (hroom : 3 * rs.length + clampNodeSize ns ≤ sizeMod) (hfuel : 2 * rs.length + 4 ≤ fuel) :
    ∃ fb', (inserted ns rs).Finish fuel = Res.ok fb' ∧
      (∀ p d, IsDescendant fb' p d →
        (boxAt fb'.Boxes p).MinX ≤ (boxAt fb'.Boxes d).MinX ∧
        (boxAt fb'.Boxes p).MinY ≤ (boxAt fb'.Boxes d).MinY ∧
        (boxAt fb'.Boxes p).MaxX ≥ (boxAt fb'.Boxes d).MaxX ∧
        (boxAt fb'.Boxes p).MaxY ≥ (boxAt fb'.Boxes d).MaxY) ∧
      ∀ d, d < rs.length → IsDescendant fb' (fb'.Boxes.length - 1) d := by
  obtain ⟨fb', g1, _, g3, _, g5, _⟩ := finish_inserted ns rs fuel hrs hroom hfuel
  refine ⟨fb', g1, fun p d h => descendant_contains g5 h, ?_⟩
  intro d hd
  have htwo := g5.two
  have h := root_descendant g5 (fb'.LevelBounds.length - 2) 0 (by omega) d (by
    have := g5.levels.first
    unfold lvlSize lvlBase
    rw [this, g3]
    simpa using hd)
  have h0 : lvlBase fb'.LevelBounds 0 = 0 := rfl
  rw [h0, Nat.zero_add] at h
  exact h

/-- Claim C16, witness: the claim at the 3 x 3 grid of unit boxes with the
default `NodeSize` and fuel 22. -/
theorem C16_witness :
    grid3 ≠ [] ∧ 3 * grid3.length + clampNodeSize 16 ≤ sizeMod ∧ 2 * grid3.length + 4 ≤ 22 ∧
      ∃ fb', (inserted 16 grid3).Finish 22 = Res.ok fb' ∧
        (∀ p d, IsDescendant fb' p d →
          (boxAt fb'.Boxes p).MinX ≤ (boxAt fb'.Boxes d).MinX ∧
          (boxAt fb'.Boxes p).MinY ≤ (boxAt fb'.Boxes d).MinY ∧
          (boxAt fb'.Boxes p).MaxX ≥ (boxAt fb'.Boxes d).MaxX ∧
          (boxAt fb'.Boxes p).MaxY ≥ (boxAt fb'.Boxes d).MaxY) ∧
        ∀ d, d < grid3.length → IsDescendant fb' (fb'.Boxes.length - 1) d :=
  ⟨by decide, by decide, by decide,
    C16_bounding_invariant 16 grid3 22 (by decide) (by decide) (by decide)⟩

/-- Claim C17: the co-sort orders by curve index.  For every `n ≥ 1` and all
arrays of `n` curve values and `n` boxes, `Sort(values, boxes, 0, n - 1)`
returns normally (for every fuel of at least `n + 3`) and leaves `values` in
non-decreasing order.  The arrays are assumed to fit the address space,
`2 * n < 2 ^ 64`. -/
theorem C17_sort_orders (values : List Nat) (boxes : List Box) (n fuel : Nat) (hn : 1 ≤ n)
    (hv : values.length = n) (hb : boxes.length = n) (hsize : 2 * n < sizeMod)
    (hfuel : n + 3 ≤ fuel) :
    ∃ values' boxes', FlatBush.Sort fuel values boxes 0 (n - 1) = Res.ok (values', boxes') ∧
      values'.length = n ∧ List.Sorted (fun a b => a ≤ b) values' := by
  obtain ⟨v', b', h1, h2, _, _, _, _, h7⟩ :=
    SortIn_spec n hsize fuel values boxes 0 (n - 1) hv hb (fun _ => by omega) (by omega)
  refine ⟨v', b', SortIn_erase _ _ _ _ _ _ h1, h2, ?_⟩
  unfold List.Sorted
  rw [List.pairwise_iff_getElem]
  intro i j hi hj hij
  have := h7 i j (Nat.zero_le _) (le_of_lt hij) (by omega)
  rw [List.getD_eq_getElem _ _ hi, List.getD_eq_getElem _ _ hj] at this
  exact this

/-- Claim C17, witness: the claim at the values `[3, 1, 2]`. -/
theorem C17_witness :
    ∃ values' boxes',
      FlatBush.Sort 6 [3, 1, 2] threeBoxes 0 (3 - 1) =
        Res.ok (values', boxes') ∧
      values'.length = 3 ∧ List.Sorted (fun a b => a ≤ b) values' :=
  C17_sort_orders [3, 1, 2] threeBoxes 3 6
    (by decide) rfl rfl (by decide) (by decide)

/-- Claim C18: the co-sort applies one permutation to both arrays.  For every
`n ≥ 1` and all arrays of `n` curve values and `n` boxes,
`Sort(values, boxes, 0, n - 1)` returns normally (for every fuel of at least
`n + 3`), both arrays keep the length `n`, and the sequence of
(curve value, box) pairs after the call is a permutation of the sequence of
pairs before it.  The arrays are assumed to fit the address space,
`2 * n < 2 ^ 64`. -/
theorem C18_sort_permutes (values : List Nat) (boxes : List Box) (n fuel : Nat) (hn : 1 ≤ n)
    (hv : values.length = n) (hb : boxes.length = n) (hsize : 2 * n < sizeMod)
    (hfuel : n + 3 ≤ fuel) :
    ∃ values' boxes', FlatBush.Sort fuel values boxes 0 (n - 1) = Res.ok (values', boxes') ∧
      values'.length = n ∧ boxes'.length = n ∧
      (values'.zip boxes').Perm (values.zip boxes) :=
  Sort_spec n hsize fuel values boxes 0 (n - 1) hv hb (fun _ => by omega) (by omega)

/-- Claim C18, witness: the claim at the values `[3, 1, 2]`. -/
theorem C18_witness :
    ∃ values' boxes',
      FlatBush.Sort 6 [3, 1, 2] threeBoxes 0 (3 - 1) =
        Res.ok (values', boxes') ∧
      values'.length = 3 ∧ boxes'.length = 3 ∧
      (values'.zip boxes').Perm
        ([3, 1, 2].zip threeBoxes) :=
  C18_sort_permutes [3, 1, 2] threeBoxes 3 6
    (by decide) rfl rfl (by decide) (by decide)

/-- Claim C19: `Sort` is total and stays in range.  For arrays of length `n`
and `left ≤ right < n`, `Sort(values, boxes, left, right)` returns normally (for
every fuel of at least `right - left + 4`); the run in which every read and
every swap of a call is checked against the range `[left, right]` of that call
returns the same result, so no check fails; positions outside `[left, right]`
keep their contents; and when `left < right` the pivot is read inside the range
and the partition loop, started at `i = left - 1` (which wraps for `left = 0`)
and `j = right + 1`, ends with a split point `left ≤ j < right`.  The arrays are
assumed to fit the address space, `2 * n < 2 ^ 64`. -/
theorem C19_sort_total (values : List Nat) (boxes : List Box) (left right fuel : Nat)
    (hb : boxes.length = values.length) (hlr : left ≤ right) (hr : right < values.length)
    (hsize : 2 * values.length < sizeMod) (hfuel : right - left + 4 ≤ fuel) :
    ∃ values' boxes',
      FlatBush.Sort fuel values boxes left right = Res.ok (values', boxes') ∧
      FlatBush.SortIn fuel values boxes left right = Res.ok (values', boxes') ∧
      (∀ k, k < left ∨ right < k →
        values'.getD k 0 = values.getD k 0 ∧
          boxes'.getD k InvertedBox = boxes.getD k InvertedBox) ∧
      (left < right → ∃ pivot v1 b1 j,
        readIn left right values (wadd left right >>> 1) = some pivot ∧
        partitionLoopIn left right pivot (fuel - 1) values boxes (wsub left 1) (wadd right 1) =
          Res.ok (v1, b1, j) ∧
        partitionLoop pivot (fuel - 1) values boxes (wsub left 1) (wadd right 1) =
          Res.ok (v1, b1, j) ∧
        left ≤ j ∧ j < right) := by
  obtain ⟨v', b', h1, _, _, _, h5, _⟩ :=
    SortIn_spec values.length hsize fuel values boxes left right rfl hb (fun _ => hr) hfuel
  refine ⟨v', b', SortIn_erase _ _ _ _ _ _ h1, h1, h5, ?_⟩
  intro hlt
  obtain ⟨pivot, v1, b1, j, k1, k2, k3, k4⟩ :=
    Sort_split values boxes left right (fuel - 1) hb hlt hr hsize (by omega)
  exact ⟨pivot, v1, b1, j, k1, k2, partitionLoopIn_erase _ _ _ _ _ _ _ _ _ k2, k3, k4⟩

/-- Claim C19, witness: the claim at the values `[3, 1, 2]` on the range
`[0, 2]`, where `left - 1` wraps. -/
theorem C19_witness :
    ∃ values' boxes',
      FlatBush.Sort 6 [3, 1, 2] threeBoxes 0 2 =
        Res.ok (values', boxes') ∧
      FlatBush.SortIn 6 [3, 1, 2] threeBoxes 0 2 =
        Res.ok (values', boxes') ∧
      (∀ k, k < 0 ∨ 2 < k →
        values'.getD k 0 = [3, 1, 2].getD k 0 ∧
          boxes'.getD k InvertedBox =
            threeBoxes.getD k InvertedBox) ∧
      (0 < 2 → ∃ pivot v1 b1 j,
        readIn 0 2 [3, 1, 2] (wadd 0 2 >>> 1) = some pivot ∧
        partitionLoopIn 0 2 pivot (6 - 1) [3, 1, 2]
            threeBoxes (wsub 0 1) (wadd 2 1) =
          Res.ok (v1, b1, j) ∧
        partitionLoop pivot (6 - 1) [3, 1, 2]
            threeBoxes (wsub 0 1) (wadd 2 1) =
          Res.ok (v1, b1, j) ∧
        0 ≤ j ∧ j < 2) :=
  C19_sort_total [3, 1, 2] threeBoxes 0 2 6
    rfl (by decide) (by decide) (by decide) (by decide)

/-- Claim C20: the Hilbert mapping used by `Finish` is injective on the grid.
For all `x1, y1, x2, y2` below `2 ^ 16`, equal values of
`HilbertXYToIndex(16, ., .)` imply equal cells, so distinct grid cells never
share a curve index. -/
theorem C20_hilbert_injective (x1 y1 x2 y2 : Nat) (hx1 : x1 < 2 ^ 16) (hy1 : y1 < 2 ^ 16)
    (hx2 : x2 < 2 ^ 16) (hy2 : y2 < 2 ^ 16)
    (h : HilbertXYToIndex 16 x1 y1 = HilbertXYToIndex 16 x2 y2) : (x1, y1) = (x2, y2) := by
  obtain ⟨e1, e2⟩ := hilbert_injective x1 y1 x2 y2 hx1 hy1 hx2 hy2 h
  rw [e1, e2]

/-- Claim C20, witness: the claim at the cell `(3, 5)`, whose curve index
is 52. -/
theorem C20_witness :
    3 < 2 ^ 16 ∧ 5 < 2 ^ 16 ∧ HilbertXYToIndex 16 3 5 = 52 ∧
      HilbertXYToIndex 16 3 5 = HilbertXYToIndex 16 3 5 ∧ ((3, 5) : Nat × Nat) = (3, 5) :=
  ⟨by decide, by decide, by decide, rfl,
    C20_hilbert_injective 3 5 3 5 (by decide) (by decide) (by decide) (by decide) rfl⟩

end flatbush
